import Mathlib

/-!
# A verification development for `vector.h`

`vector.h` implements a growable array `Vector<T>` on top of a raw storage owner
`VectorBuf<T>` with three fields: `size_` (the capacity of the block), `used_` (the number
of constructed elements) and `data_` (the block).

Embedding.
* The block `data_` is a list of slots; a slot is `none` while it is raw memory and
  `some a` while it holds a constructed object of value `a`. `nullptr` is the empty list.
* `std::size_t` values are natural numbers. `2 * size_ + 1` wraps around only from a
  vector that holds `2^63` elements or more, which no allocation can back; the byte count
  `sizeof(ValueType) * n` handed to `::operator new` is taken not to wrap around, so that a
  successful allocation yields a block of `n` slots.
* The element type `T` and the allocator are a parameter `E : ElemOps σ α`. Whether
  `T{}` , `T(const T&)` and `::operator new` throw is decided by `E` from a state `σ`
  that is threaded through every call, so that an operation may fail at its k-th use.
  Move construction and destructors of `T` do not throw.
* A member function is a function from the state of `*this` to a `Res`: the state
  after the call together with a `Status`, which is `ok`, `threw e`, or `diverged` when a
  loop of the model used up its iteration budget. The budget of a loop is its iteration
  count; a specification that concludes `ok` or `threw e` shows it was not used up.
* Reading a slot yields its content, `none` for raw memory; an object built from the
  content of a raw slot is again `none`. On vectors whose first `used_` slots are
  constructed no such read happens.
* The operators `!=`, `<` and `>` of `T` used by the comparison operators of `Vector` are
  a parameter `C : ElemCmp α`; they need not come from a total order.
* A client that makes several calls is a function over the list of its calls (`runCalls`,
  `mutateAll`).
* A `const T &` parameter that a member function reads more than once is a `Ref`: an
  object outside the vector or an element of the vector itself. A reference to an element
  dangles once the block it points into was released.
* Where it matters which block an object lives in, the functions are given a second time
  on a heap (`OnHeap`): a `Heap` is the list of the blocks obtained from
  `::operator new`, by address, a vector object is a `VectorRep` whose `data_` is an
  address, and `contents` reads off the vector it represents. The lemmas `..._tracks` show
  that each function on the heap does what the function on the value of the vector does
  and touches no block but that of `*this` and blocks it obtained itself.
-/

namespace TVector

/-- Exceptions that leave the functions of `vector.h`. -/
inductive Exn where
  | out_of_range
  | underflow_error
  | bad_alloc
  | element
  deriving DecidableEq, Repr

/-- How a call ended. -/
inductive Status where
  | ok
  | threw (e : Exn)
  | diverged
  deriving DecidableEq, Repr

/-- The element type `T` and the allocator, as seen by the container. -/
structure ElemOps (σ α : Type) where
  /-- The value of `T{}`. -/
  defaultValue : α
  /-- The value left in an object after it was moved from. -/
  moved : α → α
  /-- Does this evaluation of `T{}` return (`true`) or throw (`false`)? -/
  defaultCtor : σ → σ × Bool
  /-- Does this evaluation of `T(const T&)` return or throw? -/
  copyCtor : σ → α → σ × Bool
  /-- Does `::operator new(sizeof(T) * n)` return or throw `std::bad_alloc`? -/
  alloc : σ → Nat → σ × Bool

/-- The fields of `VectorBuf<T>`, in declaration order. -/
structure VectorBuf (α : Type) where
  size_ : Nat
  used_ : Nat
  data_ : List (Option α)
  deriving DecidableEq, Repr

/-- The class `Vector<T>` derives from `VectorBuf<T>` and adds no field. -/
abbrev Vector (α : Type) := VectorBuf α

/-- Result of a call: the oracle state, the program state and the status. -/
structure Res (σ S : Type) where
  world : σ
  st : S
  status : Status
  deriving DecidableEq, Repr

/-- The free store: the blocks obtained from `::operator new`, by address; a block that
was released is `none`. An address is handed out once. -/
abbrev Heap (α : Type) := List (Option (List (Option α)))

/-- The fields of a `VectorBuf<T>` object as they lie in memory: `data_` is a pointer into
the free store, `none` for `nullptr`. -/
structure VectorRep where
  size_ : Nat
  used_ : Nat
  data_ : Option Nat
  deriving DecidableEq, Repr

section Defs

variable {σ α : Type}

/-- A fresh block of `n` raw slots, as returned by `::operator new(sizeof(T) * n)`. -/
def rawBlock (n : Nat) : List (Option α) := List.replicate n none

/-- The object stored at `p[i]`, `none` if there is no constructed object there. -/
def slot (p : List (Option α)) (i : Nat) : Option α := p.getD i none

/-- The call `detail::Construct(p + i, x)`: placement-construct at slot `i`. The argument
is the content of the storage the reference `x` is bound to. -/
def Construct (p : List (Option α)) (i : Nat) (x : Option α) : List (Option α) :=
  p.set i x

/-- The call `detail::Destroy(p + i)`: run the destructor, the slot is raw memory again. -/
def Destroy (p : List (Option α)) (i : Nat) : List (Option α) :=
  p.set i none

/-- The call `detail::Destroy(p + first, p + last)`:
`while (first != last) { Destroy(&*first); first++; }`. -/
def DestroyRange (p : List (Option α)) (first last : Nat) : List (Option α) :=
  (List.range (last - first)).foldl (fun q k => Destroy q (first + k)) p

/-- The call `detail::Construct(dst + j, std::move(src[i]))`: the new object takes the value,
the source object stays constructed in its moved-from state. Returns `(src, dst)`. -/
def MoveConstruct (E : ElemOps σ α) (src dst : List (Option α)) (i j : Nat) :
    List (Option α) × List (Option α) :=
  (src.set i ((slot src i).map E.moved), Construct dst j (slot src i))

/-- A `while (cond) body` loop with an iteration budget. -/
def whileLoop {S : Type} (cond : S → Bool) (body : σ → S → Res σ S) :
    Nat → σ → S → Res σ S
  | 0, w, s => if cond s then ⟨w, s, .diverged⟩ else ⟨w, s, .ok⟩
  | n + 1, w, s =>
    if cond s then
      let r := body w s
      if r.status = .ok then whileLoop cond body n r.world r.st else r
    else ⟨w, s, .ok⟩

/-- Constructor `VectorBuf(SizeType size = 0)`: `size_(size)`, `used_ = 0`,
`data_((size_ == 0) ? nullptr : ::operator new(sizeof(ValueType) * size))`. -/
def VectorBufCtor (E : ElemOps σ α) (w : σ) (size : Nat) : Res σ (Vector α) :=
  if size = 0 then ⟨w, ⟨size, 0, []⟩, .ok⟩
  else
    let a := E.alloc w size
    if a.2 then ⟨a.1, ⟨size, 0, rawBlock size⟩, .ok⟩
    else ⟨a.1, ⟨size, 0, []⟩, .threw .bad_alloc⟩

/-- Constructor `VectorBuf(VectorBuf &&other)`: returns `(*this, other)`. -/
def VectorBufMoveCtor (other : Vector α) : Vector α × Vector α :=
  (⟨other.size_, other.used_, other.data_⟩, ⟨0, 0, []⟩)

/-- Assignment `VectorBuf::operator=(VectorBuf &&other)` for `&other != this`: the elements of `*this`
are destroyed and its block released, then the fields are taken. Returns `(*this, other)`. -/
def VectorBufMoveAssign (_this other : Vector α) : Vector α × Vector α :=
  (⟨other.size_, other.used_, other.data_⟩, ⟨0, 0, []⟩)

/-- Library call `std::swap(a, b)` on two vectors: `T t(std::move(a)); a = std::move(b); b = std::move(t);`. -/
def stdSwap (a b : Vector α) : Vector α × Vector α :=
  let (t, a1) := VectorBufMoveCtor a
  let (a2, b1) := VectorBufMoveAssign a1 b
  let (b2, _) := VectorBufMoveAssign b1 t
  (a2, b2)

/-- Member `Vector::Size`. -/
def Size (v : Vector α) : Nat := v.used_

/-- Member `Vector::Capacity`. -/
def Capacity (v : Vector α) : Nat := v.size_

/-- Member `Vector::Empty`. -/
def Empty (v : Vector α) : Bool := v.used_ == 0

/-- Member `Vector::operator[]`: `data_[index]`, unchecked. -/
def Index (v : Vector α) (index : Nat) : Option α := slot v.data_ index

/-- Member `Vector::At`. -/
def At (v : Vector α) (index : Nat) : Except Exn (Option α) :=
  if index ≥ v.used_ then .error .out_of_range
  else .ok (slot v.data_ index)

/-- Member `Vector::Swap`: returns `(*this, other)`. -/
def Swap (v other : Vector α) : Vector α × Vector α :=
  (⟨other.size_, other.used_, other.data_⟩, ⟨v.size_, v.used_, v.data_⟩)

/-- Member `Vector::Clear`. -/
def Clear (v : Vector α) : Vector α :=
  { v with data_ := DestroyRange v.data_ 0 v.used_, used_ := 0 }

/-- Member `Vector::PopBack`. -/
def PopBack (w : σ) (v : Vector α) : Res σ (Vector α) :=
  if Empty v then ⟨w, v, .threw .underflow_error⟩
  else
    let used := v.used_ - 1
    ⟨w, { v with used_ := used, data_ := Destroy v.data_ used }, .ok⟩

/-- The loop `for (SizeType i = 0; i < used_; i++) Construct(new_data + i, std::move(data_[i]))`
of `Reserve` and `Resize`. Returns `(data_, new_data)`. -/
def moveAll (E : ElemOps σ α) (data new_data : List (Option α)) (used : Nat) :
    List (Option α) × List (Option α) :=
  (List.range used).foldl (fun s i => MoveConstruct E s.1 s.2 i i) (data, new_data)

/-- Member `Vector::Reserve`. After the moves the old elements are destroyed and the old block is
released: it is no longer part of the state. -/
def Reserve (E : ElemOps σ α) (w : σ) (v : Vector α) (new_cap : Nat) : Res σ (Vector α) :=
  if new_cap ≤ v.size_ then ⟨w, v, .ok⟩
  else
    let a := E.alloc w new_cap
    if a.2 then
      let new_data := (moveAll E v.data_ (rawBlock new_cap) v.used_).2
      ⟨a.1, { v with size_ := new_cap, data_ := new_data }, .ok⟩
    else ⟨a.1, v, .threw .bad_alloc⟩

/-- The call `detail::Construct(p + i, x)` with `x` a `const T &`: copy-construct at slot
`i`; the copy constructor of `T` may throw. -/
def ConstructCopy (E : ElemOps σ α) (w : σ) (p : List (Option α)) (i : Nat) (x : Option α) :
    Res σ (List (Option α)) :=
  match x with
  | some a =>
    let c := E.copyCtor w a
    if c.2 then ⟨c.1, p.set i (some a), .ok⟩ else ⟨c.1, p, .threw .element⟩
  | none => ⟨w, p.set i none, .ok⟩

/-- One evaluation of `detail::Construct(p + i, ValueType{})` followed by `i++`, on the pair
`(i, p)`; the default constructor of `T` may throw. -/
def constructDefault (E : ElemOps σ α) (w : σ) (s : Nat × List (Option α)) :
    Res σ (Nat × List (Option α)) :=
  let d := E.defaultCtor w
  if d.2 then ⟨d.1, (s.1 + 1, Construct s.2 s.1 (some E.defaultValue)), .ok⟩
  else ⟨d.1, s, .threw .element⟩

/-- Constructor `explicit Vector(SizeType size = 0)`:
`while (used_ < size_) { Construct(data_ + used_, T{}); used_++; }`. When the status is
not `ok` no object was built and `st` is what the destructor of the base receives. -/
def VectorCtor (E : ElemOps σ α) (w : σ) (size : Nat) : Res σ (Vector α) :=
  let b := VectorBufCtor E w size
  if b.status = .ok then
    whileLoop (fun v : Vector α => decide (v.used_ < v.size_))
      (fun w1 v =>
        let r := constructDefault E w1 (v.used_, v.data_)
        ⟨r.world, { v with used_ := r.st.1, data_ := r.st.2 }, r.status⟩)
      size b.world b.st
  else b

/-- The library call `std::uninitialized_fill(p + first, p + last, value)`: copy-construct
`value` into each slot; if a copy throws, the objects built so far are destroyed and the
exception is rethrown. -/
def uninitializedFill (E : ElemOps σ α) (w : σ) (p : List (Option α)) (first last : Nat)
    (value : α) : Res σ (List (Option α)) :=
  let l := whileLoop (fun s : Nat × List (Option α) => decide (s.1 ≠ last))
    (fun w1 s =>
      let r := ConstructCopy E w1 s.2 s.1 (some value)
      ⟨r.world, (if r.status = .ok then s.1 + 1 else s.1, r.st), r.status⟩)
    (last - first) w (first, p)
  if l.status = .ok then ⟨l.world, l.st.2, .ok⟩
  else ⟨l.world, DestroyRange l.st.2 first l.st.1, l.status⟩

/-- Constructor `Vector(SizeType size, ConstReference value)`. -/
def VectorCtorFill (E : ElemOps σ α) (w : σ) (size : Nat) (value : α) : Res σ (Vector α) :=
  let b := VectorBufCtor E w size
  if b.status = .ok then
    let f := uninitializedFill E b.world b.st.data_ 0 b.st.size_ value
    if f.status = .ok then ⟨f.world, { b.st with data_ := f.st, used_ := b.st.size_ }, .ok⟩
    else ⟨f.world, { b.st with data_ := f.st }, f.status⟩
  else b

/-- The loop of the library call `std::uninitialized_copy(first, last, p + d)` over the
elements `xs` of the source range. Returns the next destination index and the block. -/
def uninitializedCopyLoop (E : ElemOps σ α) :
    List α → σ → Nat × List (Option α) → Res σ (Nat × List (Option α))
  | [], w, s => ⟨w, s, .ok⟩
  | x :: xs, w, s =>
    let r := ConstructCopy E w s.2 s.1 (some x)
    if r.status = .ok then uninitializedCopyLoop E xs r.world (s.1 + 1, r.st)
    else ⟨r.world, (s.1, r.st), r.status⟩

/-- The library call `std::uninitialized_copy(first, last, p + d)`: if a copy throws, the
objects built so far are destroyed and the exception is rethrown. -/
def uninitializedCopy (E : ElemOps σ α) (w : σ) (xs : List α) (p : List (Option α))
    (d : Nat) : Res σ (List (Option α)) :=
  let l := uninitializedCopyLoop E xs w (d, p)
  if l.status = .ok then ⟨l.world, l.st.2, .ok⟩
  else ⟨l.world, DestroyRange l.st.2 d l.st.1, l.status⟩

/-- Constructor `Vector(Iterator first, Iterator last)`; `xs` are the elements of `[first, last)`, so
`std::distance(first, last)` is `xs.length`. -/
def VectorCtorRange (E : ElemOps σ α) (w : σ) (xs : List α) : Res σ (Vector α) :=
  let b := VectorBufCtor E w xs.length
  if b.status = .ok then
    let f := uninitializedCopy E b.world xs b.st.data_ 0
    if f.status = .ok then ⟨f.world, { b.st with data_ := f.st, used_ := b.st.size_ }, .ok⟩
    else ⟨f.world, { b.st with data_ := f.st }, f.status⟩
  else b

/-- Constructor `Vector(std::initializer_list<T> initlist)`: delegates to the range constructor. -/
def VectorCtorInitList (E : ElemOps σ α) (w : σ) (initlist : List α) : Res σ (Vector α) :=
  VectorCtorRange E w initlist

/-- Constructor `Vector(Vector &&other) = default`: returns `(*this, other)`. -/
def MoveCtor (other : Vector α) : Vector α × Vector α := VectorBufMoveCtor other

/-- Assignment `Vector &operator=(Vector &&other) = default` for `&other != this`: returns
`(*this, other)`. -/
def MoveAssign (v other : Vector α) : Vector α × Vector α := VectorBufMoveAssign v other

/-- Constructor `Vector(const Vector &other)`:
`while (used_ < other.used_) { Construct(data_ + used_, other.data_[used_]); used_++; }`. -/
def CopyCtor (E : ElemOps σ α) (w : σ) (other : Vector α) : Res σ (Vector α) :=
  let b := VectorBufCtor E w other.used_
  if b.status = .ok then
    whileLoop (fun v : Vector α => decide (v.used_ < other.used_))
      (fun w1 v =>
        let r := ConstructCopy E w1 v.data_ v.used_ (slot other.data_ v.used_)
        ⟨r.world, { v with data_ := r.st, used_ := if r.status = .ok then v.used_ + 1 else v.used_ },
          r.status⟩)
      other.used_ b.world b.st
  else b

/-- Assignment `Vector &operator=(const Vector &other)`: `Vector tmp(other); std::swap(*this, tmp);`. -/
def CopyAssign (E : ElemOps σ α) (w : σ) (v other : Vector α) : Res σ (Vector α) :=
  let t := CopyCtor E w other
  if t.status = .ok then ⟨t.world, (stdSwap v t.st).1, .ok⟩
  else ⟨t.world, v, t.status⟩

/-- Member `Vector::NeedResizeUp`. -/
def NeedResizeUp (v : Vector α) : Bool := v.used_ == v.size_

/-- One evaluation of `tmp.PushBack(std::move(data_[tmp.used_]))` on the pair `(*this, tmp)`;
`push` is `PushBack(ValueType &&)`. The source object is moved from when the call reaches
its `Construct`. -/
def moveInto (E : ElemOps σ α) (push : σ → Vector α → Option α → Res σ (Vector α))
    (w : σ) (s : Vector α × Vector α) : Res σ (Vector α × Vector α) :=
  let value := slot s.1.data_ s.2.used_
  let r := push w s.2 value
  if r.status = .ok then
    ⟨r.world, ({ s.1 with data_ := s.1.data_.set s.2.used_ (value.map E.moved) }, r.st), .ok⟩
  else ⟨r.world, (s.1, r.st), r.status⟩

/-- The common text of `ResizeUp` and `ShrinkToFit`:
`Vector tmp{}; tmp.Reserve(n); while (tmp.used_ < used_) tmp.PushBack(std::move(data_[tmp.used_]));
std::swap(*this, tmp);`. -/
def rebuild (E : ElemOps σ α) (push : σ → Vector α → Option α → Res σ (Vector α))
    (w : σ) (v : Vector α) (n : Nat) : Res σ (Vector α) :=
  let t := VectorCtor E w 0
  if t.status = .ok then
    let r := Reserve E t.world t.st n
    if r.status = .ok then
      let l := whileLoop (fun s : Vector α × Vector α => decide (s.2.used_ < s.1.used_))
        (moveInto E push) v.used_ r.world (v, r.st)
      if l.status = .ok then ⟨l.world, (stdSwap l.st.1 l.st.2).1, .ok⟩
      else ⟨l.world, l.st.1, l.status⟩
    else ⟨r.world, v, r.status⟩
  else ⟨t.world, v, t.status⟩

/-- Member `Vector::ResizeUp`, with the `PushBack(ValueType &&)` it calls as a parameter. -/
def ResizeUpWith (E : ElemOps σ α) (push : σ → Vector α → Option α → Res σ (Vector α))
    (w : σ) (v : Vector α) : Res σ (Vector α) :=
  rebuild E push w v (2 * v.size_ + 1)

/-- Member `Vector::PushBack(ValueType &&value)` with a bound on the depth of the recursion
`PushBack -> ResizeUp -> PushBack`. The argument is the content of the storage `value` is
bound to. -/
def PushBackAux (E : ElemOps σ α) : Nat → σ → Vector α → Option α → Res σ (Vector α)
  | 0 => fun w v _ => ⟨w, v, .diverged⟩
  | d + 1 => fun w v value =>
    let r := if NeedResizeUp v then ResizeUpWith E (PushBackAux E d) w v else ⟨w, v, .ok⟩
    if r.status = .ok then
      ⟨r.world, { r.st with data_ := Construct r.st.data_ r.st.used_ value,
                            used_ := r.st.used_ + 1 }, .ok⟩
    else r

/-- Member `Vector::PushBack(ValueType &&value)`. The recursion through `ResizeUp` is at most two
calls of `ResizeUp` deep. -/
def PushBackMove (E : ElemOps σ α) (w : σ) (v : Vector α) (value : α) : Res σ (Vector α) :=
  PushBackAux E 3 w v (some value)

/-- Member `Vector::ResizeUp`. -/
def ResizeUp (E : ElemOps σ α) (w : σ) (v : Vector α) : Res σ (Vector α) :=
  ResizeUpWith E (PushBackAux E 2) w v

/-- Member `Vector::PushBack(ConstReference value)`: `auto tmp{value}; PushBack(std::move(tmp));`. -/
def PushBack (E : ElemOps σ α) (w : σ) (v : Vector α) (value : α) : Res σ (Vector α) :=
  let c := E.copyCtor w value
  if c.2 then PushBackMove E c.1 v value else ⟨c.1, v, .threw .element⟩

/-- Member `Vector::EmplaceBack(Args &&... args)`; `ctor` is the evaluation of
`ValueType(std::forward<Args>(args)...)`, which yields a value or throws. -/
def EmplaceBack (E : ElemOps σ α) (ctor : σ → σ × Option α) (w : σ) (v : Vector α) :
    Res σ (Vector α) :=
  let r := if NeedResizeUp v then ResizeUp E w v else ⟨w, v, .ok⟩
  if r.status = .ok then
    let c := ctor r.world
    match c.2 with
    | some a => ⟨c.1, { r.st with data_ := r.st.data_.set r.st.used_ (some a),
                                  used_ := r.st.used_ + 1 }, .ok⟩
    | none => ⟨c.1, r.st, .threw .element⟩
  else r

/-- Member `Vector::ShrinkToFit`. -/
def ShrinkToFit (E : ElemOps σ α) (w : σ) (v : Vector α) : Res σ (Vector α) :=
  if v.used_ = v.size_ then ⟨w, v, .ok⟩
  else rebuild E (PushBackAux E 3) w v v.used_

/-- The loop `while (used_ != n) { PopBack(); }` of both `Resize` overloads. -/
def popLoop (n : Nat) : Nat → σ → Vector α → Res σ (Vector α) :=
  whileLoop (fun u : Vector α => decide (u.used_ ≠ n)) PopBack

/-- The loop `while (i < new_size) { Construct(p + i, ValueType{}); i++; }` of `Resize`, on
the pair `(i, p)`. -/
def defaultLoop (E : ElemOps σ α) (new_size : Nat) :
    Nat → σ → Nat × List (Option α) → Res σ (Nat × List (Option α)) :=
  whileLoop (fun s : Nat × List (Option α) => decide (s.1 < new_size)) (constructDefault E)

/-- The storage a `ConstReference` argument of a member call is bound to: an object that is
not an element of the vector, or the element `(*this)[index]` of the vector itself, as in
`v.Resize(n, v[0])`. -/
inductive Ref (α : Type) where
  | outside (value : α)
  | element (index : Nat)
  deriving DecidableEq, Repr

/-- The content of the storage the reference is bound to, read while the vector is `v`.
`released` says whether the block that `data_` pointed to when the reference was taken has
been released since: a reference to an element then dangles, and what is read through it
is not an object. -/
def Ref.read (value : Ref α) (v : Vector α) (released : Bool) : Option α :=
  match value with
  | .outside x => some x
  | .element index => if released then none else slot v.data_ index

/-- The call `PushBack(value)` through a reference whose referent has the content `x`:
`auto tmp{value}; PushBack(std::move(tmp));`. A `tmp` copied from storage that holds no
object holds none. -/
def PushBackRef (E : ElemOps σ α) (w : σ) (v : Vector α) (x : Option α) : Res σ (Vector α) :=
  match x with
  | some a => PushBack E w v a
  | none => PushBackAux E 3 w v none

/-- One evaluation of `PushBack(value)` in the loop of `Resize(count, value)`, on the pair
of `*this` and the flag `released`: the reference `value` is read again at every
evaluation, and a `PushBack` that ran `ResizeUp` has released the block it points into. -/
def pushRef (E : ElemOps σ α) (value : Ref α) (w : σ) (s : Vector α × Bool) :
    Res σ (Vector α × Bool) :=
  ⟨(PushBackRef E w s.1 (value.read s.1 s.2)).world,
    ((PushBackRef E w s.1 (value.read s.1 s.2)).st,
      s.2 || (NeedResizeUp s.1 &&
        decide ((PushBackRef E w s.1 (value.read s.1 s.2)).status = .ok))),
    (PushBackRef E w s.1 (value.read s.1 s.2)).status⟩

/-- The loop `while (used_ != count) { PushBack(value); }` of `Resize(count, value)`. -/
def pushLoop (E : ElemOps σ α) (count : Nat) (value : Ref α) :
    Nat → σ → Vector α × Bool → Res σ (Vector α × Bool) :=
  whileLoop (fun s : Vector α × Bool => decide (s.1.used_ ≠ count)) (pushRef E value)

/-- Member `Vector::Resize(SizeType new_size)`. -/
def Resize (E : ElemOps σ α) (w : σ) (v : Vector α) (new_size : Nat) : Res σ (Vector α) :=
  if new_size ≤ v.used_ then
    popLoop new_size (v.used_ - new_size) w v
  else if new_size ≤ v.size_ then
    let l := defaultLoop E new_size (new_size - v.used_) w (v.used_, v.data_)
    if l.status = .ok then ⟨l.world, { v with data_ := l.st.2, used_ := new_size }, .ok⟩
    else ⟨l.world, { v with data_ := DestroyRange l.st.2 v.used_ l.st.1 }, l.status⟩
  else
    let a := E.alloc w new_size
    if a.2 then
      let m := moveAll E v.data_ (rawBlock new_size) v.used_
      let l := defaultLoop E new_size (new_size - v.used_) a.1 (v.used_, m.2)
      if l.status = .ok then ⟨l.world, ⟨new_size, new_size, l.st.2⟩, .ok⟩
      else ⟨l.world, { v with data_ := (moveAll E l.st.2 m.1 v.used_).2 }, l.status⟩
    else ⟨a.1, v, .threw .bad_alloc⟩

/-- Member `Vector::Resize(SizeType count, ConstReference value)`. When the call starts the
block of `*this` has not been released. -/
def ResizeValue (E : ElemOps σ α) (w : σ) (v : Vector α) (count : Nat) (value : Ref α) :
    Res σ (Vector α) :=
  if count < v.used_ then popLoop count (v.used_ - count) w v
  else
    ⟨(pushLoop E count value (count - v.used_) w (v, false)).world,
      (pushLoop E count value (count - v.used_) w (v, false)).st.1,
      (pushLoop E count value (count - v.used_) w (v, false)).status⟩

/-- A call that appends or removes at the end, as issued by a client of the container. -/
inductive Call (α : Type) where
  | pushBackCopy (value : α)
  | pushBackMove (value : α)
  | popBack
  deriving DecidableEq, Repr

/-- Is the call one of the two `PushBack` overloads? -/
def Call.isAppend : Call α → Bool
  | .pushBackCopy _ => true
  | .pushBackMove _ => true
  | .popBack => false

/-- One call on the vector. -/
def runCall (E : ElemOps σ α) (c : Call α) (w : σ) (v : Vector α) : Res σ (Vector α) :=
  match c with
  | .pushBackCopy x => PushBack E w v x
  | .pushBackMove x => PushBackMove E w v x
  | .popBack => PopBack w v

/-- A client that issues the calls in order on the same vector, catching the exception of
a call that throws before it issues the next one. -/
def runCalls (E : ElemOps σ α) : List (Call α) → σ → Vector α → σ × Vector α
  | [], w, v => (w, v)
  | c :: cs, w, v => runCalls E cs (runCall E c w v).world (runCall E c w v).st

/-- The invariant of the loop of `rebuild` started on `(v, tmp)` with `tmp` an empty
vector of capacity `n`. -/
def RebuildInv (v : Vector α) (n : Nat) (w0 : σ) (w : σ) (s : Vector α × Vector α) : Prop :=
  w = w0 ∧ s.1.size_ = v.size_ ∧ s.1.used_ = v.used_ ∧ s.2.size_ = n ∧ s.2.used_ ≤ v.used_ ∧
  s.2.data_.length = n ∧
  (∀ i, i < s.2.used_ → slot s.2.data_ i = slot v.data_ i) ∧
  (∀ i, s.2.used_ ≤ i → slot s.2.data_ i = none ∧ slot s.1.data_ i = slot v.data_ i)

/-- An element type over `Nat` whose oracle state is a budget: each evaluation of `T{}`,
`T(const T&)` or `::operator new` uses one unit and throws when none is left. A moved-from
object holds 0. -/
def budgetOps : ElemOps Nat Nat where
  defaultValue := 0
  moved := fun _ => 0
  defaultCtor := fun w => (w - 1, decide (0 < w))
  copyCtor := fun w _ => (w - 1, decide (0 < w))
  alloc := fun w _ => (w - 1, decide (0 < w))

/-- What the loop `while (i < n) { Construct(p + i, ValueType{}); i++; }` keeps true of
`(i, p)` when started at `(i0, p0)`. -/
def DefaultLoopInv (E : ElemOps σ α) (i0 n : Nat) (p0 : List (Option α))
    (s : Nat × List (Option α)) : Prop :=
  i0 ≤ s.1 ∧ s.1 ≤ n ∧ s.2.length = p0.length ∧
  (∀ j, j < i0 → slot s.2 j = slot p0 j) ∧
  (∀ j, i0 ≤ j → j < s.1 → slot s.2 j = some E.defaultValue) ∧
  (∀ j, s.1 ≤ j → slot s.2 j = slot p0 j)

/-- What the loop `while (used_ != count) { PushBack(value); }` keeps true of `*this` when
started on `v`. -/
def PushLoopInv (v : Vector α) (count : Nat) (value : α) (s : Vector α) : Prop :=
  s.used_ ≤ s.size_ ∧ s.data_.length = s.size_ ∧ v.used_ ≤ s.used_ ∧ s.used_ ≤ count ∧
  (∀ i, i < v.used_ → slot s.data_ i = slot v.data_ i) ∧
  (∀ i, v.used_ ≤ i → i < s.used_ → slot s.data_ i = some value)

/-- The comparison operators of the element type `T` that `vector.h` uses: `!=`, `<`
and `>`. They are three separate functions, as for a user-defined `T`. -/
structure ElemCmp (α : Type) where
  ne : α → α → Bool
  lt : α → α → Bool
  gt : α → α → Bool

/-- An element comparison applied to the contents of two slots. Comparing raw memory is
undefined in the source; here it answers `false`. -/
def slotCmp (f : α → α → Bool) : Option α → Option α → Bool
  | some x, some y => f x y
  | _, _ => false

/-- The loop of `operator>` and `operator<`, at index `i` with `n` iterations left:
`for (; i < now_size; ++i) { if (data_[i] != other.data_[i]) return pick(data_[i],
other.data_[i]); } return fin;` where `pick` is `>` or `<` and `fin` compares the lengths. -/
def compareLoop (C : ElemCmp α) (pick : α → α → Bool) (v other : Vector α) (fin : Bool) :
    Nat → Nat → Bool
  | 0, _ => fin
  | n + 1, i =>
    if slotCmp C.ne (slot v.data_ i) (slot other.data_ i) then
      slotCmp pick (slot v.data_ i) (slot other.data_ i)
    else compareLoop C pick v other fin n (i + 1)

/-- Member `Vector::operator>`, with `now_size = std::min(used_, other.used_)`. -/
def operatorGt (C : ElemCmp α) (v other : Vector α) : Bool :=
  compareLoop C C.gt v other (decide (v.used_ > other.used_)) (min v.used_ other.used_) 0

/-- Member `Vector::operator<`, with `now_size = std::min(used_, other.used_)`. -/
def operatorLt (C : ElemCmp α) (v other : Vector α) : Bool :=
  compareLoop C C.lt v other (decide (v.used_ < other.used_)) (min v.used_ other.used_) 0

/-- Member `Vector::operator==`: `!(*this > other) && !(*this < other)`. -/
def operatorEq (C : ElemCmp α) (v other : Vector α) : Bool :=
  !(operatorGt C v other) && !(operatorLt C v other)

/-- Member `Vector::operator!=`. -/
def operatorNe (C : ElemCmp α) (v other : Vector α) : Bool :=
  !(operatorEq C v other)

/-- Member `Vector::operator>=`. -/
def operatorGe (C : ElemCmp α) (v other : Vector α) : Bool :=
  !(operatorLt C v other)

/-- Member `Vector::operator<=`. -/
def operatorLe (C : ElemCmp α) (v other : Vector α) : Bool :=
  !(operatorGt C v other)

/-- The comparison operators of a totally ordered element type such as `int`. -/
def orderCmp (α : Type) [LinearOrder α] : ElemCmp α where
  ne := fun x y => decide (x ≠ y)
  lt := fun x y => decide (x < y)
  gt := fun x y => decide (x > y)

/-- The comparison operators of pairs of naturals under the componentwise order, a
partial order: `(1, 0)` and `(0, 1)` are different and neither is below the other. -/
def pairCmp : ElemCmp (Nat × Nat) where
  ne := fun x y => decide (x ≠ y)
  lt := fun x y => decide (x.1 ≤ y.1 ∧ x.2 ≤ y.2 ∧ x ≠ y)
  gt := fun x y => decide (y.1 ≤ x.1 ∧ y.2 ≤ x.2 ∧ x ≠ y)

/-- The first `used_` slots of the vector hold constructed objects. -/
def Live (v : Vector α) : Prop :=
  ∀ i, i < v.used_ → ∃ x, slot v.data_ i = some x

/-- Whether copy-constructing from the content of a slot returns, and the oracle state
after it, as in `ConstructCopy`. -/
def copyOutcome (E : ElemOps σ α) (w : σ) (x : Option α) : σ × Bool :=
  match x with
  | some a => E.copyCtor w a
  | none => (w, true)

/-- The oracle state after the elements of `other` at the indices below `k` were copied in
index order, starting in state `w`. -/
def worldAfterCopies (E : ElemOps σ α) (other : Vector α) (w : σ) : Nat → σ
  | 0 => w
  | k + 1 => (copyOutcome E (worldAfterCopies E other w k) (slot other.data_ k)).1

/-- One iteration of the loop of the copy constructor:
`Construct(data_ + used_, other.data_[used_]); used_++;`. -/
def copyElement (E : ElemOps σ α) (other : Vector α) (w : σ) (v : Vector α) :
    Res σ (Vector α) :=
  ⟨(ConstructCopy E w v.data_ v.used_ (slot other.data_ v.used_)).world,
    ⟨v.size_,
      if (ConstructCopy E w v.data_ v.used_ (slot other.data_ v.used_)).status = .ok
        then v.used_ + 1 else v.used_,
      (ConstructCopy E w v.data_ v.used_ (slot other.data_ v.used_)).st⟩,
    (ConstructCopy E w v.data_ v.used_ (slot other.data_ v.used_)).status⟩

/-- The assignment `v[index] = value` through the reference that `operator[]` returns. -/
def IndexWrite (v : Vector α) (index : Nat) (value : α) : Vector α :=
  { v with data_ := v.data_.set index (some value) }

/-- A mutation of one container by a client. -/
inductive Mutation (α : Type) where
  | pushBack (value : α)
  | pushBackMove (value : α)
  | popBack
  | resize (new_size : Nat)
  | resizeValue (count : Nat) (value : Ref α)
  | clear
  | write (index : Nat) (value : α)

/-- One mutation of the vector `v`. -/
def mutate (E : ElemOps σ α) (m : Mutation α) (w : σ) (v : Vector α) : Res σ (Vector α) :=
  match m with
  | .pushBack x => PushBack E w v x
  | .pushBackMove x => PushBackMove E w v x
  | .popBack => PopBack w v
  | .resize n => Resize E w v n
  | .resizeValue n r => ResizeValue E w v n r
  | .clear => ⟨w, Clear v, .ok⟩
  | .write i x => ⟨w, IndexWrite v i x, .ok⟩

/-- The oracle state after `k` evaluations of `T{}` in a row that return, starting in
state `w`. -/
def worldAfterDefaults (E : ElemOps σ α) (w : σ) : Nat → σ
  | 0 => w
  | k + 1 => (E.defaultCtor (worldAfterDefaults E w k)).1

/-- The number of `PushBack` calls of the sequence that return, when the calls are issued
in order on `v`. -/
def returnedAppends (E : ElemOps σ α) : List (Call α) → σ → Vector α → Nat
  | [], _, _ => 0
  | c :: cs, w, v =>
    (if c.isAppend = true ∧ (runCall E c w v).status = .ok then 1 else 0) +
      returnedAppends E cs (runCall E c w v).world (runCall E c w v).st

/-- The number of `PopBack` calls of the sequence that return, when the calls are issued
in order on `v`. -/
def returnedPops (E : ElemOps σ α) : List (Call α) → σ → Vector α → Nat
  | [], _, _ => 0
  | c :: cs, w, v =>
    (if c.isAppend = false ∧ (runCall E c w v).status = .ok then 1 else 0) +
      returnedPops E cs (runCall E c w v).world (runCall E c w v).st

/-- Do all the calls of the sequence return, when they are issued in order on `v`? -/
def allReturn (E : ElemOps σ α) : List (Call α) → σ → Vector α → Bool
  | [], _, _ => true
  | c :: cs, w, v =>
    decide ((runCall E c w v).status = .ok) &&
      allReturn E cs (runCall E c w v).world (runCall E c w v).st

/-- The value a `PushBack` call appends. -/
def Call.value : Call α → Option α
  | .pushBackCopy x => some x
  | .pushBackMove x => some x
  | .popBack => none

/-- One iteration of the loop of `Vector(SizeType size)`:
`Construct(data_ + used_, T{}); used_++;`. -/
def defaultElement (E : ElemOps σ α) (w : σ) (v : Vector α) : Res σ (Vector α) :=
  ⟨(constructDefault E w (v.used_, v.data_)).world,
    ⟨v.size_, (constructDefault E w (v.used_, v.data_)).st.1,
      (constructDefault E w (v.used_, v.data_)).st.2⟩,
    (constructDefault E w (v.used_, v.data_)).status⟩

/-- One iteration of the loop of `std::uninitialized_fill`, on the pair `(first, p)`. -/
def fillElement (E : ElemOps σ α) (value : α) (w : σ) (s : Nat × List (Option α)) :
    Res σ (Nat × List (Option α)) :=
  ⟨(ConstructCopy E w s.2 s.1 (some value)).world,
    (if (ConstructCopy E w s.2 s.1 (some value)).status = .ok then s.1 + 1 else s.1,
      (ConstructCopy E w s.2 s.1 (some value)).st),
    (ConstructCopy E w s.2 s.1 (some value)).status⟩

/-- The capacity `c` is `2^k - 1` for the least `k` with `2^k - 1 >= n`. -/
def LeastPower (n c : Nat) : Prop :=
  ∃ k, c = 2 ^ k - 1 ∧ n ≤ 2 ^ k - 1 ∧ ∀ j, n ≤ 2 ^ j - 1 → k ≤ j

/-- Do `k` evaluations of `T{}` in a row all return, starting in the oracle state `w`? -/
def defaultsReturn (E : ElemOps σ α) : Nat → σ → Bool
  | 0, _ => true
  | k + 1, w => (E.defaultCtor w).2 && defaultsReturn E k (E.defaultCtor w).1

/-- Do the copies of the elements `xs`, made in order, all return, starting in the oracle
state `w`? -/
def copiesReturn (E : ElemOps σ α) : List α → σ → Bool
  | [], _ => true
  | x :: xs, w => (E.copyCtor w x).2 && copiesReturn E xs (E.copyCtor w x).1

/-- The slots of the block that `p` points to; there are none behind `nullptr` and in a
block that was released. -/
def load (h : Heap α) (p : Option Nat) : List (Option α) :=
  match p with
  | some a => (h.getD a none).getD []
  | none => []

/-- The heap after the slots of the block that `p` points to were overwritten by `block`. -/
def store (h : Heap α) (p : Option Nat) (block : List (Option α)) : Heap α :=
  match p with
  | some a => h.set a (some block)
  | none => h

/-- The call `::operator new(sizeof(T) * n)` when it returns: a block of `n` raw slots at
an address not handed out before. Returns the heap and the pointer. -/
def operatorNew (h : Heap α) (n : Nat) : Heap α × Option Nat :=
  (h ++ [some (rawBlock n)], some h.length)

/-- The call `::operator delete(p)`; on `nullptr` it does nothing. -/
def operatorDelete (h : Heap α) (p : Option Nat) : Heap α :=
  match p with
  | some a => h.set a none
  | none => h

/-- The vector that the object `v` represents in the heap `h`: its fields, with the block
that `data_` points to. -/
def contents (h : Heap α) (v : VectorRep) : Vector α :=
  ⟨v.size_, v.used_, load h v.data_⟩

/-- Constructor `VectorBuf(SizeType size = 0)`, on the heap. -/
def OnHeap.VectorBufCtor (E : ElemOps σ α) (w : σ) (h : Heap α) (size : Nat) :
    Res σ (Heap α × VectorRep) :=
  if size = 0 then ⟨w, (h, ⟨size, 0, none⟩), .ok⟩
  else
    let a := E.alloc w size
    if a.2 then ⟨a.1, ((operatorNew h size).1, ⟨size, 0, (operatorNew h size).2⟩), .ok⟩
    else ⟨a.1, (h, ⟨size, 0, none⟩), .threw .bad_alloc⟩

/-- Destructor `~VectorBuf()`: `detail::Destroy(data_, data_ + used_); ::operator delete(data_);`. -/
def OnHeap.VectorBufDtor (h : Heap α) (v : VectorRep) : Heap α :=
  operatorDelete (store h v.data_ (DestroyRange (load h v.data_) 0 v.used_)) v.data_

/-- Constructor `VectorBuf(VectorBuf &&other)`, on the heap: returns `(*this, other)`. -/
def OnHeap.VectorBufMoveCtor (other : VectorRep) : VectorRep × VectorRep :=
  (⟨other.size_, other.used_, other.data_⟩, ⟨0, 0, none⟩)

/-- Assignment `VectorBuf::operator=(VectorBuf &&other)` for `&other != this`, on the heap: the
elements of `*this` are destroyed and its block is released, then the fields are taken.
Returns the heap and `(*this, other)`. -/
def OnHeap.VectorBufMoveAssign (h : Heap α) (v other : VectorRep) :
    Heap α × VectorRep × VectorRep :=
  (operatorDelete (store h v.data_ (DestroyRange (load h v.data_) 0 v.used_)) v.data_,
    ⟨other.size_, other.used_, other.data_⟩, ⟨0, 0, none⟩)

/-- Library call `std::swap(a, b)` on two vectors, on the heap:
`T t(std::move(a)); a = std::move(b); b = std::move(t);` and the destructor of `t`.
Returns the heap and `(a, b)`. -/
def OnHeap.stdSwap (h : Heap α) (a b : VectorRep) : Heap α × VectorRep × VectorRep :=
  let t := OnHeap.VectorBufMoveCtor a
  let m1 := OnHeap.VectorBufMoveAssign h t.2 b
  let m2 := OnHeap.VectorBufMoveAssign m1.1 m1.2.2 t.1
  (OnHeap.VectorBufDtor m2.1 m2.2.2, m1.2.1, m2.2.1)

/-- One iteration of the loop of `Vector(SizeType size)`, on the heap:
`Construct(data_ + used_, T{}); used_++;`. -/
def OnHeap.defaultElement (E : ElemOps σ α) (w : σ) (s : Heap α × VectorRep) :
    Res σ (Heap α × VectorRep) :=
  ⟨(constructDefault E w (s.2.used_, load s.1 s.2.data_)).world,
    (store s.1 s.2.data_ (constructDefault E w (s.2.used_, load s.1 s.2.data_)).st.2,
      ⟨s.2.size_, (constructDefault E w (s.2.used_, load s.1 s.2.data_)).st.1, s.2.data_⟩),
    (constructDefault E w (s.2.used_, load s.1 s.2.data_)).status⟩

/-- Constructor `explicit Vector(SizeType size = 0)`, on the heap. -/
def OnHeap.VectorCtor (E : ElemOps σ α) (w : σ) (h : Heap α) (size : Nat) :
    Res σ (Heap α × VectorRep) :=
  if (OnHeap.VectorBufCtor E w h size).status = .ok then
    whileLoop (fun s : Heap α × VectorRep => decide (s.2.used_ < s.2.size_))
      (OnHeap.defaultElement E) size (OnHeap.VectorBufCtor E w h size).world
      (OnHeap.VectorBufCtor E w h size).st
  else OnHeap.VectorBufCtor E w h size

/-- One iteration of the loop of the copy constructor, on the heap:
`Construct(data_ + used_, other.data_[used_]); used_++;`. -/
def OnHeap.copyElement (E : ElemOps σ α) (other : VectorRep) (w : σ)
    (s : Heap α × VectorRep) : Res σ (Heap α × VectorRep) :=
  ⟨(ConstructCopy E w (load s.1 s.2.data_) s.2.used_
      (slot (load s.1 other.data_) s.2.used_)).world,
    (store s.1 s.2.data_ (ConstructCopy E w (load s.1 s.2.data_) s.2.used_
        (slot (load s.1 other.data_) s.2.used_)).st,
      ⟨s.2.size_,
        if (ConstructCopy E w (load s.1 s.2.data_) s.2.used_
            (slot (load s.1 other.data_) s.2.used_)).status = .ok
          then s.2.used_ + 1 else s.2.used_,
        s.2.data_⟩),
    (ConstructCopy E w (load s.1 s.2.data_) s.2.used_
      (slot (load s.1 other.data_) s.2.used_)).status⟩

/-- Constructor `Vector(const Vector &other)`, on the heap. When the status is not `ok` no
object was built, and `st` is what the destructor of the base receives. -/
def OnHeap.CopyCtor (E : ElemOps σ α) (w : σ) (h : Heap α) (other : VectorRep) :
    Res σ (Heap α × VectorRep) :=
  if (OnHeap.VectorBufCtor E w h other.used_).status = .ok then
    whileLoop (fun s : Heap α × VectorRep => decide (s.2.used_ < other.used_))
      (OnHeap.copyElement E other) other.used_ (OnHeap.VectorBufCtor E w h other.used_).world
      (OnHeap.VectorBufCtor E w h other.used_).st
  else OnHeap.VectorBufCtor E w h other.used_

/-- Assignment `Vector &operator=(const Vector &other)`, on the heap:
`Vector tmp(other); std::swap(*this, tmp);` and the destructor of `tmp`, which then holds
the old fields of `*this`. When the constructor of `tmp` throws, the destructor of its base
releases what it had built. -/
def OnHeap.CopyAssign (E : ElemOps σ α) (w : σ) (s : Heap α × VectorRep)
    (other : VectorRep) : Res σ (Heap α × VectorRep) :=
  let t := OnHeap.CopyCtor E w s.1 other
  if t.status = .ok then
    let sw := OnHeap.stdSwap t.st.1 s.2 t.st.2
    ⟨t.world, (OnHeap.VectorBufDtor sw.1 sw.2.2, sw.2.1), .ok⟩
  else ⟨t.world, (OnHeap.VectorBufDtor t.st.1 t.st.2, s.2), t.status⟩

/-- Member `Vector::Clear`, on the heap. -/
def OnHeap.Clear (s : Heap α × VectorRep) : Heap α × VectorRep :=
  (store s.1 s.2.data_ (DestroyRange (load s.1 s.2.data_) 0 s.2.used_),
    ⟨s.2.size_, 0, s.2.data_⟩)

/-- The assignment `v[index] = value` through the reference that `operator[]` returns, on
the heap. -/
def OnHeap.IndexWrite (s : Heap α × VectorRep) (index : Nat) (value : α) :
    Heap α × VectorRep :=
  (store s.1 s.2.data_ ((load s.1 s.2.data_).set index (some value)), s.2)

/-- Member `Vector::PopBack`, on the heap. -/
def OnHeap.PopBack (w : σ) (s : Heap α × VectorRep) : Res σ (Heap α × VectorRep) :=
  if s.2.used_ == 0 then ⟨w, s, .threw .underflow_error⟩
  else
    ⟨w, (store s.1 s.2.data_ (Destroy (load s.1 s.2.data_) (s.2.used_ - 1)),
      ⟨s.2.size_, s.2.used_ - 1, s.2.data_⟩), .ok⟩

/-- Member `Vector::Reserve`, on the heap: the new block is obtained, the elements are moved
into it, the old elements are destroyed and the old block is released. -/
def OnHeap.Reserve (E : ElemOps σ α) (w : σ) (s : Heap α × VectorRep) (new_cap : Nat) :
    Res σ (Heap α × VectorRep) :=
  if new_cap ≤ s.2.size_ then ⟨w, s, .ok⟩
  else
    let a := E.alloc w new_cap
    if a.2 then
      let n := operatorNew s.1 new_cap
      let m := moveAll E (load n.1 s.2.data_) (load n.1 n.2) s.2.used_
      let h1 := store (store n.1 s.2.data_ m.1) n.2 m.2
      let h2 := store h1 s.2.data_ (DestroyRange (load h1 s.2.data_) 0 s.2.used_)
      ⟨a.1, (operatorDelete h2 s.2.data_, ⟨new_cap, s.2.used_, n.2⟩), .ok⟩
    else ⟨a.1, s, .threw .bad_alloc⟩

/-- Member `Vector::NeedResizeUp`, on the heap. -/
def OnHeap.NeedResizeUp (v : VectorRep) : Bool := v.used_ == v.size_

/-- One evaluation of `tmp.PushBack(std::move(data_[tmp.used_]))` on the heap and the pair
`(*this, tmp)`; `push` is `PushBack(ValueType &&)`. The source object is moved from when the
call reaches its `Construct`. -/
def OnHeap.moveInto (E : ElemOps σ α)
    (push : σ → Heap α × VectorRep → Option α → Res σ (Heap α × VectorRep))
    (w : σ) (s : Heap α × VectorRep × VectorRep) : Res σ (Heap α × VectorRep × VectorRep) :=
  let value := slot (load s.1 s.2.1.data_) s.2.2.used_
  let r := push w (s.1, s.2.2) value
  if r.status = .ok then
    ⟨r.world,
      (store r.st.1 s.2.1.data_ ((load r.st.1 s.2.1.data_).set s.2.2.used_ (value.map E.moved)),
        s.2.1, r.st.2), .ok⟩
  else ⟨r.world, (r.st.1, s.2.1, r.st.2), r.status⟩

/-- The common text of `ResizeUp` and `ShrinkToFit`, on the heap:
`Vector tmp{}; tmp.Reserve(n); while (tmp.used_ < used_) tmp.PushBack(std::move(data_[tmp.used_]));
std::swap(*this, tmp);`, and the destructor of `tmp` on every way out. -/
def OnHeap.rebuild (E : ElemOps σ α)
    (push : σ → Heap α × VectorRep → Option α → Res σ (Heap α × VectorRep))
    (w : σ) (s : Heap α × VectorRep) (n : Nat) : Res σ (Heap α × VectorRep) :=
  let t := OnHeap.VectorCtor E w s.1 0
  if t.status = .ok then
    let r := OnHeap.Reserve E t.world t.st n
    if r.status = .ok then
      let l := whileLoop
        (fun u : Heap α × VectorRep × VectorRep => decide (u.2.2.used_ < u.2.1.used_))
        (OnHeap.moveInto E push) s.2.used_ r.world (r.st.1, s.2, r.st.2)
      if l.status = .ok then
        let sw := OnHeap.stdSwap l.st.1 l.st.2.1 l.st.2.2
        ⟨l.world, (OnHeap.VectorBufDtor sw.1 sw.2.2, sw.2.1), .ok⟩
      else ⟨l.world, (OnHeap.VectorBufDtor l.st.1 l.st.2.2, l.st.2.1), l.status⟩
    else ⟨r.world, (OnHeap.VectorBufDtor r.st.1 r.st.2, s.2), r.status⟩
  else ⟨t.world, (t.st.1, s.2), t.status⟩

/-- Member `Vector::ResizeUp`, on the heap, with the `PushBack(ValueType &&)` it calls as a
parameter. -/
def OnHeap.ResizeUpWith (E : ElemOps σ α)
    (push : σ → Heap α × VectorRep → Option α → Res σ (Heap α × VectorRep))
    (w : σ) (s : Heap α × VectorRep) : Res σ (Heap α × VectorRep) :=
  OnHeap.rebuild E push w s (2 * s.2.size_ + 1)

/-- Member `Vector::PushBack(ValueType &&value)`, on the heap, with a bound on the depth of the
recursion `PushBack -> ResizeUp -> PushBack`. -/
def OnHeap.PushBackAux (E : ElemOps σ α) :
    Nat → σ → Heap α × VectorRep → Option α → Res σ (Heap α × VectorRep)
  | 0 => fun w s _ => ⟨w, s, .diverged⟩
  | d + 1 => fun w s value =>
    let r := if OnHeap.NeedResizeUp s.2 then OnHeap.ResizeUpWith E (OnHeap.PushBackAux E d) w s
      else ⟨w, s, .ok⟩
    if r.status = .ok then
      ⟨r.world,
        (store r.st.1 r.st.2.data_ (Construct (load r.st.1 r.st.2.data_) r.st.2.used_ value),
          ⟨r.st.2.size_, r.st.2.used_ + 1, r.st.2.data_⟩), .ok⟩
    else r

/-- Member `Vector::PushBack(ValueType &&value)`, on the heap. -/
def OnHeap.PushBackMove (E : ElemOps σ α) (w : σ) (s : Heap α × VectorRep) (value : α) :
    Res σ (Heap α × VectorRep) :=
  OnHeap.PushBackAux E 3 w s (some value)

/-- Member `Vector::PushBack(ConstReference value)`, on the heap:
`auto tmp{value}; PushBack(std::move(tmp));`. -/
def OnHeap.PushBack (E : ElemOps σ α) (w : σ) (s : Heap α × VectorRep) (value : α) :
    Res σ (Heap α × VectorRep) :=
  let c := E.copyCtor w value
  if c.2 then OnHeap.PushBackMove E c.1 s value else ⟨c.1, s, .threw .element⟩

/-- The call `PushBack(value)` on the heap through a reference whose referent has the
content `x`. -/
def OnHeap.PushBackRef (E : ElemOps σ α) (w : σ) (s : Heap α × VectorRep) (x : Option α) :
    Res σ (Heap α × VectorRep) :=
  match x with
  | some a => OnHeap.PushBack E w s a
  | none => OnHeap.PushBackAux E 3 w s none

/-- The content of the storage a reference is bound to, read in the heap `h`; a reference
to an element points into the block at `p`, the value of `data_` when it was taken. -/
def Ref.readAt (value : Ref α) (h : Heap α) (p : Option Nat) : Option α :=
  match value with
  | .outside x => some x
  | .element index => slot (load h p) index

/-- The loop `while (used_ != n) { PopBack(); }` of both `Resize` overloads, on the heap. -/
def OnHeap.popLoop (n : Nat) : Nat → σ → Heap α × VectorRep → Res σ (Heap α × VectorRep) :=
  whileLoop (fun s : Heap α × VectorRep => decide (s.2.used_ ≠ n)) OnHeap.PopBack

/-- The loop `while (used_ != count) { PushBack(value); }` of `Resize(count, value)`, on the
heap; `p` is the value of `data_` when the call started. -/
def OnHeap.pushLoop (E : ElemOps σ α) (count : Nat) (value : Ref α) (p : Option Nat) :
    Nat → σ → Heap α × VectorRep → Res σ (Heap α × VectorRep) :=
  whileLoop (fun s : Heap α × VectorRep => decide (s.2.used_ ≠ count))
    (fun w s => OnHeap.PushBackRef E w s (value.readAt s.1 p))

/-- Member `Vector::Resize(SizeType new_size)`, on the heap. -/
def OnHeap.Resize (E : ElemOps σ α) (w : σ) (s : Heap α × VectorRep) (new_size : Nat) :
    Res σ (Heap α × VectorRep) :=
  if new_size ≤ s.2.used_ then
    OnHeap.popLoop new_size (s.2.used_ - new_size) w s
  else if new_size ≤ s.2.size_ then
    let l := defaultLoop E new_size (new_size - s.2.used_) w (s.2.used_, load s.1 s.2.data_)
    if l.status = .ok then
      ⟨l.world, (store s.1 s.2.data_ l.st.2, ⟨s.2.size_, new_size, s.2.data_⟩), .ok⟩
    else ⟨l.world, (store s.1 s.2.data_ (DestroyRange l.st.2 s.2.used_ l.st.1), s.2), l.status⟩
  else
    let a := E.alloc w new_size
    if a.2 then
      let n := operatorNew s.1 new_size
      let m := moveAll E (load n.1 s.2.data_) (load n.1 n.2) s.2.used_
      let l := defaultLoop E new_size (new_size - s.2.used_) a.1 (s.2.used_, m.2)
      if l.status = .ok then
        let h1 := store (store n.1 n.2 l.st.2) s.2.data_ (DestroyRange m.1 0 s.2.used_)
        ⟨l.world, (operatorDelete h1 s.2.data_, ⟨new_size, new_size, n.2⟩), .ok⟩
      else
        let back := moveAll E l.st.2 m.1 s.2.used_
        let h1 := store (store n.1 s.2.data_ back.2) n.2 (DestroyRange back.1 0 l.st.1)
        ⟨l.world, (operatorDelete h1 n.2, s.2), l.status⟩
    else ⟨a.1, s, .threw .bad_alloc⟩

/-- Member `Vector::Resize(SizeType count, ConstReference value)`, on the heap. -/
def OnHeap.ResizeValue (E : ElemOps σ α) (w : σ) (s : Heap α × VectorRep) (count : Nat)
    (value : Ref α) : Res σ (Heap α × VectorRep) :=
  if count < s.2.used_ then OnHeap.popLoop count (s.2.used_ - count) w s
  else OnHeap.pushLoop E count value s.2.data_ (count - s.2.used_) w s

/-- One mutation of the vector `s.2` in the heap `s.1`. -/
def OnHeap.mutate (E : ElemOps σ α) (m : Mutation α) (w : σ) (s : Heap α × VectorRep) :
    Res σ (Heap α × VectorRep) :=
  match m with
  | .pushBack x => OnHeap.PushBack E w s x
  | .pushBackMove x => OnHeap.PushBackMove E w s x
  | .popBack => OnHeap.PopBack w s
  | .resize n => OnHeap.Resize E w s n
  | .resizeValue n r => OnHeap.ResizeValue E w s n r
  | .clear => ⟨w, OnHeap.Clear s, .ok⟩
  | .write i x => ⟨w, OnHeap.IndexWrite s i x, .ok⟩

/-- A client that applies the mutations in order to the same vector, catching the
exception of a call that throws before it issues the next one. -/
def mutateAll (E : ElemOps σ α) : List (Mutation α) → σ → Vector α → σ × Vector α
  | [], w, v => (w, v)
  | m :: ms, w, v => mutateAll E ms (mutate E m w v).world (mutate E m w v).st

/-- The client of `mutateAll`, on the heap. -/
def OnHeap.mutateAll (E : ElemOps σ α) :
    List (Mutation α) → σ → Heap α × VectorRep → σ × (Heap α × VectorRep)
  | [], w, s => (w, s)
  | m :: ms, w, s => OnHeap.mutateAll E ms (OnHeap.mutate E m w s).world (OnHeap.mutate E m w s).st

/-- The pointer `data_` of `v` is `nullptr` or an address of the heap `h`. -/
def InHeap (h : Heap α) (v : VectorRep) : Prop :=
  ∀ a, v.data_ = some a → a < h.length

/-- A step from the vector `v` in the heap `h` to `v1` in `h1` keeps to the storage of the
vector: no address is taken back; every block of `h` other than the block of `v` is as it
was; and `data_` points into the heap afterwards, to the block it pointed to before or to
a block obtained since. -/
def Keeps (h : Heap α) (v : VectorRep) (h1 : Heap α) (v1 : VectorRep) : Prop :=
  h.length ≤ h1.length ∧
  (∀ a, a < h.length → v.data_ ≠ some a → h1[a]? = h[a]?) ∧
  (∀ a, v1.data_ = some a → a < h1.length ∧ (v.data_ = some a ∨ h.length ≤ a))

/-- The call with result `r` on the vector `v` in the heap `h` does what the call with
result `r0` on the value of the vector does, and keeps to the storage of the vector. -/
def Tracks (h : Heap α) (v : VectorRep) (r : Res σ (Heap α × VectorRep))
    (r0 : Res σ (Vector α)) : Prop :=
  r.world = r0.world ∧ r.status = r0.status ∧ contents r.st.1 r.st.2 = r0.st ∧
  Keeps h v r.st.1 r.st.2

/-- In the heap `hh`, the vector `tmp` lives beside the vector `v` of the earlier heap `h`:
no address of `h` was taken back, every block of `h` other than the block of `v` is as it
was, and the block of `tmp` was obtained after `h`. -/
def Beside (h : Heap α) (v : VectorRep) (hh : Heap α) (tmp : VectorRep) : Prop :=
  h.length ≤ hh.length ∧
  (∀ a, a < h.length → v.data_ ≠ some a → hh[a]? = h[a]?) ∧
  (∀ a, tmp.data_ = some a → a < hh.length ∧ h.length ≤ a)

/-- Do the copies of the `k` elements of `other` from index `i` on, made in index order,
all return, starting in the oracle state `w`? -/
def elementCopiesReturn (E : ElemOps σ α) (other : Vector α) : Nat → Nat → σ → Bool
  | 0, _, _ => true
  | k + 1, i, w =>
    (copyOutcome E w (slot other.data_ i)).2 &&
      elementCopiesReturn E other k (i + 1) (copyOutcome E w (slot other.data_ i)).1

/-- An example heap with two blocks: the elements `4, 5` in a block of 4 slots at address
0, and the element `7` in a block of 1 slot at address 1. -/
def exampleHeap : Heap Nat := [some [some 4, some 5, none, none], some [some 7]]

/-- The vector `A = {4, 5}` with capacity 4, which owns the block at address 0 of
`exampleHeap`. -/
def exampleA : VectorRep := ⟨4, 2, some 0⟩

/-- The vector `B = {7}` with capacity 1, which owns the block at address 1 of
`exampleHeap`. -/
def exampleB : VectorRep := ⟨1, 1, some 1⟩

/-- The calls `PushBack(6); v[0] = 9; Resize(7); PopBack(); Resize(8, 1);` of a client. -/
def exampleMutations : List (Mutation Nat) :=
  [.pushBack 6, .write 0 9, .resize 7, .popBack, .resizeValue 8 (.outside 1)]

end Defs

section Loops

variable {σ α : Type}

theorem whileLoop_zero {S : Type} (cond : S → Bool) (body : σ → S → Res σ S) (w : σ) (s : S) :
    whileLoop cond body 0 w s = if cond s then ⟨w, s, .diverged⟩ else ⟨w, s, .ok⟩ := rfl

theorem whileLoop_succ {S : Type} (cond : S → Bool) (body : σ → S → Res σ S) (n : Nat)
    (w : σ) (s : S) :
    whileLoop cond body (n + 1) w s =
      if cond s then
        if (body w s).status = .ok then whileLoop cond body n (body w s).world (body w s).st
        else body w s
      else ⟨w, s, .ok⟩ := rfl

/-- A property of the program state that every iteration keeps, whatever its status, holds
when the loop is left, whatever its status. -/
theorem whileLoop_inv {S : Type} (cond : S → Bool) (body : σ → S → Res σ S) (P : S → Prop)
    (hbody : ∀ w s, P s → cond s = true → P (body w s).st) :
    ∀ n w s, P s → P (whileLoop cond body n w s).st := by
  intro n
  induction n with
  | zero =>
    intro w s hs
    rw [whileLoop_zero]
    split <;> exact hs
  | succ n ih =>
    intro w s hs
    rw [whileLoop_succ]
    by_cases hc : cond s = true
    · rw [if_pos hc]
      by_cases hst : (body w s).status = .ok
      · rw [if_pos hst]
        exact ih _ _ (hbody w s hs hc)
      · rw [if_neg hst]
        exact hbody w s hs hc
    · rw [if_neg hc]
      exact hs

/-- Total correctness of a loop with invariant `P` and variant `m`: when the budget covers
the variant, a normal exit satisfies the invariant and the negated condition, an exit by
an exception satisfies `Q`, and the budget is not used up. -/
theorem whileLoop_spec {S : Type} (cond : S → Bool) (body : σ → S → Res σ S)
    (P : σ → S → Prop) (Q : Res σ S → Prop) (m : S → Nat)
    (hm : ∀ w s, P w s → cond s = true → 0 < m s)
    (hbody : ∀ w s, P w s → cond s = true →
      ((body w s).status = .ok → P (body w s).world (body w s).st ∧ m (body w s).st < m s) ∧
      ((body w s).status ≠ .ok → Q (body w s))) :
    ∀ n w s, P w s → m s ≤ n →
      ((whileLoop cond body n w s).status = .ok →
        P (whileLoop cond body n w s).world (whileLoop cond body n w s).st ∧
        cond (whileLoop cond body n w s).st = false) ∧
      ((whileLoop cond body n w s).status ≠ .ok → Q (whileLoop cond body n w s)) := by
  intro n
  induction n with
  | zero =>
    intro w s hs hn
    rw [whileLoop_zero]
    by_cases hc : cond s = true
    · have := hm w s hs hc
      omega
    · rw [if_neg hc]
      simp only [Bool.not_eq_true] at hc
      exact ⟨fun _ => ⟨hs, hc⟩, fun h => absurd rfl h⟩
  | succ n ih =>
    intro w s hs hn
    rw [whileLoop_succ]
    by_cases hc : cond s = true
    · rw [if_pos hc]
      have hb := hbody w s hs hc
      by_cases hst : (body w s).status = .ok
      · rw [if_pos hst]
        have h1 := hb.1 hst
        exact ih _ _ h1.1 (by omega)
      · rw [if_neg hst]
        exact ⟨fun h => absurd h hst, fun _ => hb.2 hst⟩
    · rw [if_neg hc]
      simp only [Bool.not_eq_true] at hc
      exact ⟨fun _ => ⟨hs, hc⟩, fun h => absurd rfl h⟩

end Loops

section Memory

variable {σ α : Type}

theorem slot_set (p : List (Option α)) (i j : Nat) (x : Option α) :
    slot (p.set i x) j = if i = j ∧ i < p.length then x else slot p j := by
  unfold slot
  simp only [List.getD_eq_getElem?_getD, List.getElem?_set]
  by_cases h : i = j
  · subst h
    by_cases hl : i < p.length
    · simp [hl]
    · simp [hl, List.getElem?_eq_none (Nat.le_of_not_lt hl)]
  · simp [h]

theorem slot_set_ne (p : List (Option α)) (i j : Nat) (x : Option α) (h : i ≠ j) :
    slot (p.set i x) j = slot p j := by
  rw [slot_set]; simp [h]

theorem slot_set_eq (p : List (Option α)) (i : Nat) (x : Option α) (h : i < p.length) :
    slot (p.set i x) i = x := by
  rw [slot_set]; simp [h]

theorem slot_rawBlock (n i : Nat) : slot (rawBlock n : List (Option α)) i = none := by
  unfold slot rawBlock
  simp only [List.getD_eq_getElem?_getD, List.getElem?_replicate]
  split <;> rfl

theorem slot_of_length_le (p : List (Option α)) (i : Nat) (h : p.length ≤ i) :
    slot p i = none := by
  unfold slot
  simp [List.getElem?_eq_none h]

theorem moveAll_zero (E : ElemOps σ α) (src dst : List (Option α)) :
    moveAll E src dst 0 = (src, dst) := rfl

theorem moveAll_succ (E : ElemOps σ α) (src dst : List (Option α)) (k : Nat) :
    moveAll E src dst (k + 1) =
      MoveConstruct E (moveAll E src dst k).1 (moveAll E src dst k).2 k k := by
  unfold moveAll
  rw [List.range_succ, List.foldl_append]
  rfl

/-- The moving loop: the blocks keep their lengths, the source is untouched from index `k`
on, and the destination holds the first `k` objects of the source. -/
theorem moveAll_spec (E : ElemOps σ α) (src dst : List (Option α)) (k : Nat) :
    (moveAll E src dst k).1.length = src.length ∧
    (moveAll E src dst k).2.length = dst.length ∧
    (∀ j, k ≤ j → slot (moveAll E src dst k).1 j = slot src j) ∧
    (∀ j, slot (moveAll E src dst k).2 j =
      if j < k ∧ j < dst.length then slot src j else slot dst j) := by
  induction k with
  | zero =>
    rw [moveAll_zero]
    simp
  | succ k ih =>
    obtain ⟨h1, h2, h3, h4⟩ := ih
    rw [moveAll_succ]
    unfold MoveConstruct Construct
    refine ⟨by simp [h1], by simp [h2], ?_, ?_⟩
    · intro j hj
      rw [slot_set_ne _ _ _ _ (by omega)]
      exact h3 j (by omega)
    · intro j
      simp only
      rw [slot_set, h2, h3 k (Nat.le_refl k), h4 j]
      by_cases hjk : k = j
      · subst hjk
        by_cases hl : k < dst.length
        · simp [hl]
        · simp [hl]
      · have : (j < k + 1 ∧ j < dst.length) ↔ (j < k ∧ j < dst.length) := by omega
        simp only [hjk, false_and, if_false, this]

end Memory

section Growth

variable {σ α : Type}

theorem VectorCtor_zero (E : ElemOps σ α) (w : σ) :
    VectorCtor E w 0 = ⟨w, ⟨0, 0, []⟩, .ok⟩ := by
  simp [VectorCtor, VectorBufCtor, whileLoop_zero]

theorem stdSwap_eq (a b : Vector α) : stdSwap a b = (b, a) := rfl

/-- Spec of `Reserve` on the empty vector `tmp` built by `Vector tmp{}`. -/
theorem Reserve_empty (E : ElemOps σ α) (w : σ) (n : Nat) :
    Reserve E w (⟨0, 0, []⟩ : Vector α) n =
      if n = 0 then ⟨w, ⟨0, 0, []⟩, .ok⟩
      else if (E.alloc w n).2 then ⟨(E.alloc w n).1, ⟨n, 0, rawBlock n⟩, .ok⟩
      else ⟨(E.alloc w n).1, ⟨0, 0, []⟩, .threw .bad_alloc⟩ := by
  unfold Reserve
  by_cases h : n = 0
  · simp [h]
  · have h2 : ¬ n ≤ 0 := by omega
    simp only [h2, h, if_false, moveAll_zero]

/-- Spec of `PushBack(ValueType &&)` when `used_ != size_`: no growth, the element is constructed
at index `used_`. -/
theorem PushBackAux_fits (E : ElemOps σ α) (d : Nat) (w : σ) (v : Vector α) (x : Option α)
    (h : v.used_ ≠ v.size_) :
    PushBackAux E (d + 1) w v x =
      ⟨w, { v with data_ := Construct v.data_ v.used_ x, used_ := v.used_ + 1 }, .ok⟩ := by
  simp [PushBackAux, NeedResizeUp, h]

theorem moveInto_RebuildInv (E : ElemOps σ α) (d : Nat) (v : Vector α) (n : Nat) (w0 w : σ)
    (s : Vector α × Vector α) (hn : v.used_ ≤ n) (hP : RebuildInv v n w0 w s)
    (hc : decide (s.2.used_ < s.1.used_) = true) :
    (moveInto E (PushBackAux E (d + 1)) w s).status = .ok ∧
    RebuildInv v n w0 (moveInto E (PushBackAux E (d + 1)) w s).world
      (moveInto E (PushBackAux E (d + 1)) w s).st ∧
    v.used_ - (moveInto E (PushBackAux E (d + 1)) w s).st.2.used_ < v.used_ - s.2.used_ := by
  obtain ⟨hw, h1, h2, h3, h4, h5, h6, h7⟩ := hP
  simp only [decide_eq_true_eq] at hc
  have hne : s.2.used_ ≠ s.2.size_ := by omega
  have hm : moveInto E (PushBackAux E (d + 1)) w s =
      ⟨w, ({ s.1 with data_ := s.1.data_.set s.2.used_ ((slot s.1.data_ s.2.used_).map E.moved) },
        { s.2 with data_ := Construct s.2.data_ s.2.used_ (slot s.1.data_ s.2.used_),
                   used_ := s.2.used_ + 1 }), .ok⟩ := by
    simp [moveInto, PushBackAux_fits E d w s.2 _ hne]
  rw [hm]
  refine ⟨rfl, ⟨hw, h1, h2, h3, ?_, ?_, ?_, ?_⟩, ?_⟩
  · show s.2.used_ + 1 ≤ v.used_
    omega
  · show (Construct s.2.data_ s.2.used_ (slot s.1.data_ s.2.used_)).length = n
    simp [Construct, h5]
  rotate_left
  rotate_left
  · show v.used_ - (s.2.used_ + 1) < v.used_ - s.2.used_
    omega
  · intro i hi
    simp only [Construct] at hi ⊢
    by_cases hiu : i = s.2.used_
    · subst hiu
      rw [slot_set_eq _ _ _ (by omega)]
      exact (h7 _ (Nat.le_refl _)).2
    · rw [slot_set_ne _ _ _ _ (fun h => hiu h.symm)]
      exact h6 i (by omega)
  · intro i hi
    simp only [Construct] at hi ⊢
    rw [slot_set_ne _ _ _ _ (by omega), slot_set_ne _ _ _ _ (by omega)]
    exact h7 i (by omega)

/-- What `Vector tmp{}; tmp.Reserve(n); while ... tmp.PushBack(std::move(...)); std::swap`
does when `used_ <= n`: it fails only on the allocation, then `*this` is untouched;
otherwise `*this` gets capacity `n` (0 when `n` is 0), the same length and elements. -/
theorem rebuild_spec (E : ElemOps σ α) (d : Nat) (w : σ) (v : Vector α) (n : Nat)
    (hn : v.used_ ≤ n) :
    (n = 0 → rebuild E (PushBackAux E (d + 1)) w v n = ⟨w, ⟨0, 0, []⟩, .ok⟩) ∧
    (0 < n → (E.alloc w n).2 = false →
      rebuild E (PushBackAux E (d + 1)) w v n = ⟨(E.alloc w n).1, v, .threw .bad_alloc⟩) ∧
    (0 < n → (E.alloc w n).2 = true →
      (rebuild E (PushBackAux E (d + 1)) w v n).world = (E.alloc w n).1 ∧
      (rebuild E (PushBackAux E (d + 1)) w v n).status = .ok ∧
      (rebuild E (PushBackAux E (d + 1)) w v n).st.size_ = n ∧
      (rebuild E (PushBackAux E (d + 1)) w v n).st.used_ = v.used_ ∧
      (rebuild E (PushBackAux E (d + 1)) w v n).st.data_.length = n ∧
      (∀ i, i < v.used_ →
        slot (rebuild E (PushBackAux E (d + 1)) w v n).st.data_ i = slot v.data_ i) ∧
      (∀ i, v.used_ ≤ i →
        slot (rebuild E (PushBackAux E (d + 1)) w v n).st.data_ i = none)) := by
  refine ⟨?_, ?_, ?_⟩
  · intro h0
    subst h0
    have hu : v.used_ = 0 := by omega
    simp [rebuild, VectorCtor_zero, Reserve_empty, hu, whileLoop_zero, stdSwap_eq]
  · intro h0 ha
    have hn0 : n ≠ 0 := by omega
    simp [rebuild, VectorCtor_zero, Reserve_empty, hn0, ha]
  · intro h0 ha
    have hn0 : n ≠ 0 := by omega
    have hloop := whileLoop_spec (fun s : Vector α × Vector α => decide (s.2.used_ < s.1.used_))
      (moveInto E (PushBackAux E (d + 1))) (RebuildInv v n (E.alloc w n).1) (fun _ => False)
      (fun s => v.used_ - s.2.used_)
      (by
        intro w1 s hP hc
        obtain ⟨_, _, h2, _, _, _, _, _⟩ := hP
        simp only [decide_eq_true_eq] at hc
        show 0 < v.used_ - s.2.used_
        omega)
      (by
        intro w1 s hP hc
        have := moveInto_RebuildInv E d v n _ w1 s hn hP hc
        exact ⟨fun _ => ⟨this.2.1, this.2.2⟩, fun h => absurd this.1 h⟩)
      v.used_ (E.alloc w n).1 (v, ⟨n, 0, rawBlock n⟩)
      (by
        refine ⟨rfl, rfl, rfl, rfl, Nat.zero_le _, by simp [rawBlock], ?_, ?_⟩
        · intro i hi
          simp at hi
        · intro i _
          exact ⟨slot_rawBlock n i, rfl⟩)
      (by simp)
    have hok : (whileLoop (fun s : Vector α × Vector α => decide (s.2.used_ < s.1.used_))
        (moveInto E (PushBackAux E (d + 1))) v.used_ (E.alloc w n).1
        (v, ⟨n, 0, rawBlock n⟩)).status = .ok := by
      by_contra hne
      exact hloop.2 hne
    obtain ⟨⟨hw, h1, h2, h3, h4, h5, h6, h7⟩, hc⟩ := hloop.1 hok
    simp only [decide_eq_false_iff_not, h2, Nat.not_lt] at hc
    have hu : (whileLoop (fun s : Vector α × Vector α => decide (s.2.used_ < s.1.used_))
        (moveInto E (PushBackAux E (d + 1))) v.used_ (E.alloc w n).1
        (v, ⟨n, 0, rawBlock n⟩)).st.2.used_ = v.used_ := by omega
    simp only [rebuild, VectorCtor_zero, Reserve_empty, hn0, ha, if_true, if_false, hok,
      stdSwap_eq]
    refine ⟨hw, trivial, h3, hu, h5, ?_, ?_⟩
    · intro i hi
      exact h6 i (by omega)
    · intro i hi
      exact (h7 i (by omega)).1

/-- Spec of `PushBack(ValueType &&)` on a full vector (`used_ == size_`): it fails only when the
allocation of `2 * size_ + 1` slots fails, leaving `*this` untouched; otherwise the
capacity is `2 * size_ + 1`, the old elements are kept and the new one is at `used_`. -/
theorem PushBackAux_full (E : ElemOps σ α) (d : Nat) (w : σ) (v : Vector α) (x : Option α)
    (h : v.used_ = v.size_) :
    ((E.alloc w (2 * v.size_ + 1)).2 = false →
      PushBackAux E (d + 2) w v x = ⟨(E.alloc w (2 * v.size_ + 1)).1, v, .threw .bad_alloc⟩) ∧
    ((E.alloc w (2 * v.size_ + 1)).2 = true →
      (PushBackAux E (d + 2) w v x).world = (E.alloc w (2 * v.size_ + 1)).1 ∧
      (PushBackAux E (d + 2) w v x).status = .ok ∧
      (PushBackAux E (d + 2) w v x).st.size_ = 2 * v.size_ + 1 ∧
      (PushBackAux E (d + 2) w v x).st.used_ = v.used_ + 1 ∧
      (PushBackAux E (d + 2) w v x).st.data_.length = 2 * v.size_ + 1 ∧
      (∀ i, i < v.used_ → slot (PushBackAux E (d + 2) w v x).st.data_ i = slot v.data_ i) ∧
      slot (PushBackAux E (d + 2) w v x).st.data_ v.used_ = x ∧
      (∀ i, v.used_ < i → slot (PushBackAux E (d + 2) w v x).st.data_ i = none)) := by
  have hr := rebuild_spec E d w v (2 * v.size_ + 1) (by omega)
  have hunf : PushBackAux E (d + 2) w v x =
      if (rebuild E (PushBackAux E (d + 1)) w v (2 * v.size_ + 1)).status = .ok then
        ⟨(rebuild E (PushBackAux E (d + 1)) w v (2 * v.size_ + 1)).world,
          { (rebuild E (PushBackAux E (d + 1)) w v (2 * v.size_ + 1)).st with
            data_ := Construct (rebuild E (PushBackAux E (d + 1)) w v (2 * v.size_ + 1)).st.data_
              (rebuild E (PushBackAux E (d + 1)) w v (2 * v.size_ + 1)).st.used_ x,
            used_ := (rebuild E (PushBackAux E (d + 1)) w v (2 * v.size_ + 1)).st.used_ + 1 },
          .ok⟩
      else rebuild E (PushBackAux E (d + 1)) w v (2 * v.size_ + 1) := by
    simp [PushBackAux, NeedResizeUp, h, ResizeUpWith]
  rw [hunf]
  refine ⟨?_, ?_⟩
  · intro ha
    rw [hr.2.1 (by omega) ha]
    simp
  · intro ha
    obtain ⟨hw, hs, hsz, hu, hl, hlo, hhi⟩ := hr.2.2 (by omega) ha
    rw [if_pos hs]
    refine ⟨hw, rfl, hsz, by simp only [hu], by simp [Construct, hl], ?_, ?_, ?_⟩
    · intro i hi
      simp only [Construct, hu]
      rw [slot_set_ne _ _ _ _ (by omega)]
      exact hlo i hi
    · simp only [Construct, hu]
      rw [slot_set_eq _ _ _ (by omega)]
    · intro i hi
      simp only [Construct, hu]
      rw [slot_set_ne _ _ _ _ (by omega)]
      exact hhi i (by omega)

end Growth

section Invariant

variable {σ α : Type}

theorem PushBackAux_inv (E : ElemOps σ α) (d : Nat) (w : σ) (v : Vector α) (x : Option α)
    (hv : v.used_ ≤ v.size_) :
    (PushBackAux E (d + 2) w v x).st.used_ ≤ (PushBackAux E (d + 2) w v x).st.size_ := by
  by_cases h : v.used_ = v.size_
  · have hf := PushBackAux_full E d w v x h
    cases ha : (E.alloc w (2 * v.size_ + 1)).2 with
    | false => rw [hf.1 ha]; exact hv
    | true =>
      obtain ⟨_, _, hsz, hu, _⟩ := hf.2 ha
      omega
  · rw [PushBackAux_fits E (d + 1) w v x h]
    show v.used_ + 1 ≤ v.size_
    omega

theorem PushBackMove_inv (E : ElemOps σ α) (w : σ) (v : Vector α) (x : α)
    (hv : v.used_ ≤ v.size_) :
    (PushBackMove E w v x).st.used_ ≤ (PushBackMove E w v x).st.size_ :=
  PushBackAux_inv E 1 w v (some x) hv

theorem PushBack_inv (E : ElemOps σ α) (w : σ) (v : Vector α) (x : α)
    (hv : v.used_ ≤ v.size_) :
    (PushBack E w v x).st.used_ ≤ (PushBack E w v x).st.size_ := by
  unfold PushBack
  by_cases hc : (E.copyCtor w x).2 = true
  · simp only [hc, if_true]
    exact PushBackMove_inv E _ v x hv
  · simp only [hc, if_false]
    exact hv

theorem PopBack_inv (w : σ) (v : Vector α) (hv : v.used_ ≤ v.size_) :
    (PopBack w v).st.used_ ≤ (PopBack w v).st.size_ := by
  unfold PopBack
  split
  · exact hv
  · show v.used_ - 1 ≤ v.size_
    omega

theorem ResizeUp_inv (E : ElemOps σ α) (w : σ) (v : Vector α) (hv : v.used_ ≤ v.size_) :
    (ResizeUp E w v).st.used_ ≤ (ResizeUp E w v).st.size_ ∧
    ((ResizeUp E w v).status = .ok → (ResizeUp E w v).st.used_ < (ResizeUp E w v).st.size_) := by
  have hr := rebuild_spec E 1 w v (2 * v.size_ + 1) (by omega)
  simp only [Nat.reduceAdd] at hr
  unfold ResizeUp ResizeUpWith
  cases ha : (E.alloc w (2 * v.size_ + 1)).2 with
  | false =>
    rw [hr.2.1 (by omega) ha]
    exact ⟨hv, fun h => by simp at h⟩
  | true =>
    obtain ⟨_, _, hsz, hu, _⟩ := hr.2.2 (by omega) ha
    exact ⟨by omega, fun _ => by omega⟩

theorem EmplaceBack_inv (E : ElemOps σ α) (ctor : σ → σ × Option α) (w : σ) (v : Vector α)
    (hv : v.used_ ≤ v.size_) :
    (EmplaceBack E ctor w v).st.used_ ≤ (EmplaceBack E ctor w v).st.size_ := by
  have hR := ResizeUp_inv E w v hv
  unfold EmplaceBack
  by_cases hn : NeedResizeUp v = true
  · simp only [hn, if_true]
    by_cases hs : (ResizeUp E w v).status = .ok
    · simp only [hs, if_true]
      have := hR.2 hs
      split
      · show (ResizeUp E w v).st.used_ + 1 ≤ (ResizeUp E w v).st.size_
        omega
      · exact hR.1
    · simp only [hs, if_false]
      exact hR.1
  · simp only [hn, Bool.false_eq_true, ↓reduceIte]
    simp only [NeedResizeUp, beq_iff_eq] at hn
    split
    · show v.used_ + 1 ≤ v.size_
      omega
    · exact hv

theorem Reserve_eq (E : ElemOps σ α) (w : σ) (v : Vector α) (n : Nat) :
    Reserve E w v n =
      if n ≤ v.size_ then ⟨w, v, .ok⟩
      else if (E.alloc w n).2 then
        ⟨(E.alloc w n).1, ⟨n, v.used_, (moveAll E v.data_ (rawBlock n) v.used_).2⟩, .ok⟩
      else ⟨(E.alloc w n).1, v, .threw .bad_alloc⟩ := rfl

theorem Reserve_inv (E : ElemOps σ α) (w : σ) (v : Vector α) (n : Nat)
    (hv : v.used_ ≤ v.size_) :
    (Reserve E w v n).st.used_ ≤ (Reserve E w v n).st.size_ := by
  rw [Reserve_eq]
  split
  · exact hv
  · split
    · show v.used_ ≤ n
      omega
    · exact hv

theorem ShrinkToFit_inv (E : ElemOps σ α) (w : σ) (v : Vector α) (hv : v.used_ ≤ v.size_) :
    (ShrinkToFit E w v).st.used_ ≤ (ShrinkToFit E w v).st.size_ := by
  unfold ShrinkToFit
  split
  · exact hv
  · have hr := rebuild_spec E 2 w v v.used_ (Nat.le_refl _)
    simp only [Nat.reduceAdd] at hr
    by_cases h0 : v.used_ = 0
    · have := hr.1 h0
      rw [this]
    · cases ha : (E.alloc w v.used_).2 with
      | false => rw [hr.2.1 (by omega) ha]; exact hv
      | true =>
        obtain ⟨_, _, hsz, hu, _⟩ := hr.2.2 (by omega) ha
        omega

theorem VectorBufCtor_used (E : ElemOps σ α) (w : σ) (n : Nat) :
    (VectorBufCtor E w n).st.used_ = 0 := by
  unfold VectorBufCtor
  simp only []
  split
  · rfl
  · split <;> rfl

theorem VectorBufCtor_size (E : ElemOps σ α) (w : σ) (n : Nat) :
    (VectorBufCtor E w n).st.size_ = n := by
  unfold VectorBufCtor
  simp only []
  split
  · rfl
  · split <;> rfl

theorem VectorCtor_inv (E : ElemOps σ α) (w : σ) (n : Nat) :
    (VectorCtor E w n).st.used_ ≤ (VectorCtor E w n).st.size_ := by
  have hb : (VectorBufCtor E w n).st.used_ ≤ (VectorBufCtor E w n).st.size_ := by
    rw [VectorBufCtor_used]; exact Nat.zero_le _
  unfold VectorCtor
  simp only []
  split
  · refine whileLoop_inv _ _ (fun u : Vector α => u.used_ ≤ u.size_) ?_ _ _ _ hb
    intro w1 u hu hc
    simp only [decide_eq_true_eq] at hc
    unfold constructDefault
    simp only []
    split
    · show u.used_ + 1 ≤ u.size_
      omega
    · exact hu
  · exact hb

theorem VectorCtorFill_inv (E : ElemOps σ α) (w : σ) (n : Nat) (x : α) :
    (VectorCtorFill E w n x).st.used_ ≤ (VectorCtorFill E w n x).st.size_ := by
  have hb : (VectorBufCtor E w n).st.used_ ≤ (VectorBufCtor E w n).st.size_ := by
    rw [VectorBufCtor_used]; exact Nat.zero_le _
  unfold VectorCtorFill
  simp only []
  split
  · split
    · exact Nat.le_refl _
    · exact hb
  · exact hb

theorem VectorCtorRange_inv (E : ElemOps σ α) (w : σ) (xs : List α) :
    (VectorCtorRange E w xs).st.used_ ≤ (VectorCtorRange E w xs).st.size_ := by
  have hb : (VectorBufCtor E w xs.length).st.used_ ≤ (VectorBufCtor E w xs.length).st.size_ := by
    rw [VectorBufCtor_used]; exact Nat.zero_le _
  unfold VectorCtorRange
  simp only []
  split
  · split
    · exact Nat.le_refl _
    · exact hb
  · exact hb

theorem CopyCtor_inv (E : ElemOps σ α) (w : σ) (other : Vector α) :
    (CopyCtor E w other).st.used_ ≤ (CopyCtor E w other).st.size_ := by
  have hb : (VectorBufCtor E w other.used_).st.used_ ≤ (VectorBufCtor E w other.used_).st.size_ ∧
      (VectorBufCtor E w other.used_).st.size_ = other.used_ := by
    rw [VectorBufCtor_used, VectorBufCtor_size]; exact ⟨Nat.zero_le _, rfl⟩
  unfold CopyCtor
  simp only []
  split
  · refine (whileLoop_inv _ _ (fun u : Vector α => u.used_ ≤ u.size_ ∧ u.size_ = other.used_)
      ?_ _ _ _ hb).1
    intro w1 u hu hc
    simp only [decide_eq_true_eq] at hc
    obtain ⟨hu1, hu2⟩ := hu
    refine ⟨?_, hu2⟩
    simp only []
    split
    · show u.used_ + 1 ≤ u.size_
      omega
    · exact hu1
  · exact hb.1

theorem CopyAssign_inv (E : ElemOps σ α) (w : σ) (v other : Vector α)
    (hv : v.used_ ≤ v.size_) :
    (CopyAssign E w v other).st.used_ ≤ (CopyAssign E w v other).st.size_ := by
  unfold CopyAssign
  simp only []
  split
  · exact CopyCtor_inv E w other
  · exact hv

theorem Resize_inv (E : ElemOps σ α) (w : σ) (v : Vector α) (n : Nat)
    (hv : v.used_ ≤ v.size_) :
    (Resize E w v n).st.used_ ≤ (Resize E w v n).st.size_ := by
  unfold Resize
  simp only []
  split
  · exact whileLoop_inv _ _ (fun u : Vector α => u.used_ ≤ u.size_)
      (fun w1 u hu _ => PopBack_inv w1 u hu) _ _ _ hv
  · split
    · split
      · show n ≤ v.size_
        omega
      · exact hv
    · split
      · split
        · exact Nat.le_refl _
        · exact hv
      · exact hv

theorem PushBackRef_inv (E : ElemOps σ α) (w : σ) (v : Vector α) (x : Option α)
    (hv : v.used_ ≤ v.size_) :
    (PushBackRef E w v x).st.used_ ≤ (PushBackRef E w v x).st.size_ := by
  cases x with
  | none => exact PushBackAux_inv E 1 w v none hv
  | some a => exact PushBack_inv E w v a hv

theorem ResizeValue_inv (E : ElemOps σ α) (w : σ) (v : Vector α) (n : Nat) (r : Ref α)
    (hv : v.used_ ≤ v.size_) :
    (ResizeValue E w v n r).st.used_ ≤ (ResizeValue E w v n r).st.size_ := by
  unfold ResizeValue
  split
  · exact whileLoop_inv _ _ (fun u : Vector α => u.used_ ≤ u.size_)
      (fun w1 u hu _ => PopBack_inv w1 u hu) _ _ _ hv
  · exact whileLoop_inv _ _ (fun s : Vector α × Bool => s.1.used_ ≤ s.1.size_)
      (fun w1 s hs _ => PushBackRef_inv E w1 s.1 _ hs) _ _ (v, false) hv

end Invariant

section Append

variable {σ α : Type}

/-- Spec of `PushBack(ValueType &&)` on a vector with `used_ <= size_` whose block has `size_`
slots: it returns normally or throws `bad_alloc`; on an exception `*this` is untouched, on
normal return the element is appended and the vector is again of that form. -/
theorem PushBackAux_spec (E : ElemOps σ α) (d : Nat) (w : σ) (v : Vector α) (x : Option α)
    (hinv : v.used_ ≤ v.size_) (hblock : v.data_.length = v.size_) :
    ((PushBackAux E (d + 2) w v x).status = .ok ∨
      (PushBackAux E (d + 2) w v x).status = .threw .bad_alloc) ∧
    ((PushBackAux E (d + 2) w v x).status ≠ .ok → (PushBackAux E (d + 2) w v x).st = v) ∧
    ((PushBackAux E (d + 2) w v x).status = .ok →
      (PushBackAux E (d + 2) w v x).st.used_ = v.used_ + 1 ∧
      (PushBackAux E (d + 2) w v x).st.used_ ≤ (PushBackAux E (d + 2) w v x).st.size_ ∧
      (PushBackAux E (d + 2) w v x).st.data_.length = (PushBackAux E (d + 2) w v x).st.size_ ∧
      (∀ i, i < v.used_ → slot (PushBackAux E (d + 2) w v x).st.data_ i = slot v.data_ i) ∧
      slot (PushBackAux E (d + 2) w v x).st.data_ v.used_ = x) := by
  by_cases h : v.used_ = v.size_
  · have hf := PushBackAux_full E d w v x h
    cases ha : (E.alloc w (2 * v.size_ + 1)).2 with
    | false =>
      rw [hf.1 ha]
      exact ⟨Or.inr rfl, fun _ => rfl, fun hs => by simp at hs⟩
    | true =>
      obtain ⟨_, hs, hsz, hu, hl, hlo, hx, _⟩ := hf.2 ha
      exact ⟨Or.inl hs, fun hne => absurd hs hne, fun _ => ⟨hu, by omega, by omega, hlo, hx⟩⟩
  · rw [PushBackAux_fits E (d + 1) w v x h]
    refine ⟨Or.inl rfl, fun hne => absurd rfl hne, fun _ => ⟨rfl, ?_, ?_, ?_, ?_⟩⟩
    · show v.used_ + 1 ≤ v.size_
      omega
    · show (Construct v.data_ v.used_ x).length = v.size_
      simp [Construct, hblock]
    · intro i hi
      show slot (Construct v.data_ v.used_ x) i = slot v.data_ i
      exact slot_set_ne _ _ _ _ (by omega)
    · show slot (Construct v.data_ v.used_ x) v.used_ = x
      exact slot_set_eq _ _ _ (by omega)

/-- Spec of `PushBack(ConstReference)`: as `PushBack(ValueType &&)`, after a copy that may throw. -/
theorem PushBack_spec (E : ElemOps σ α) (w : σ) (v : Vector α) (x : α)
    (hinv : v.used_ ≤ v.size_) (hblock : v.data_.length = v.size_) :
    ((PushBack E w v x).status = .ok ∨ (PushBack E w v x).status = .threw .bad_alloc ∨
      (PushBack E w v x).status = .threw .element) ∧
    ((PushBack E w v x).status ≠ .ok → (PushBack E w v x).st = v) ∧
    ((PushBack E w v x).status = .ok →
      (PushBack E w v x).st.used_ = v.used_ + 1 ∧
      (PushBack E w v x).st.used_ ≤ (PushBack E w v x).st.size_ ∧
      (PushBack E w v x).st.data_.length = (PushBack E w v x).st.size_ ∧
      (∀ i, i < v.used_ → slot (PushBack E w v x).st.data_ i = slot v.data_ i) ∧
      slot (PushBack E w v x).st.data_ v.used_ = some x) := by
  unfold PushBack
  by_cases hc : (E.copyCtor w x).2 = true
  · simp only [hc, if_true]
    have h := PushBackAux_spec E 1 (E.copyCtor w x).1 v (some x) hinv hblock
    exact ⟨h.1.elim Or.inl (fun h2 => Or.inr (Or.inl h2)), h.2.1, h.2.2⟩
  · simp only [hc, if_false]
    exact ⟨Or.inr (Or.inr rfl), fun _ => rfl, fun hs => by simp at hs⟩

theorem Reserve_ok_counters (E : ElemOps σ α) (w : σ) (v : Vector α) (n : Nat)
    (hs : (Reserve E w v n).status = .ok) :
    (Reserve E w v n).st.used_ = v.used_ ∧ n ≤ (Reserve E w v n).st.size_ := by
  rw [Reserve_eq] at hs ⊢
  by_cases h : n ≤ v.size_
  · rw [if_pos h]
    exact ⟨rfl, h⟩
  · rw [if_neg h] at hs ⊢
    by_cases ha : (E.alloc w n).2 = true
    · rw [if_pos ha]
      exact ⟨rfl, Nat.le_refl _⟩
    · rw [if_neg ha] at hs
      exact absurd hs (by simp)

/-- A `PushBack` on a vector that is not full keeps the capacity and does not allocate. -/
theorem runCall_append_fit (E : ElemOps σ α) (c : Call α) (w : σ) (u : Vector α)
    (hc : c.isAppend = true) (hlt : u.used_ < u.size_) :
    (runCall E c w u).st.size_ = u.size_ ∧
    (runCall E c w u).st.used_ ≤ u.used_ + 1 ∧
    (runCall E c w u).status ≠ .threw .bad_alloc := by
  have hfits : ∀ w1 : σ, ∀ x : α, PushBackMove E w1 u x =
      ⟨w1, { u with data_ := Construct u.data_ u.used_ (some x), used_ := u.used_ + 1 }, .ok⟩ :=
    fun w1 x => PushBackAux_fits E 2 w1 u (some x) (by omega)
  cases c with
  | popBack => simp [Call.isAppend] at hc
  | pushBackMove x =>
    show (PushBackMove E w u x).st.size_ = u.size_ ∧ (PushBackMove E w u x).st.used_ ≤ u.used_ + 1 ∧
      (PushBackMove E w u x).status ≠ .threw .bad_alloc
    rw [hfits]
    exact ⟨rfl, Nat.le_refl _, by simp⟩
  | pushBackCopy x =>
    show (PushBack E w u x).st.size_ = u.size_ ∧ (PushBack E w u x).st.used_ ≤ u.used_ + 1 ∧
      (PushBack E w u x).status ≠ .threw .bad_alloc
    unfold PushBack
    by_cases hcp : (E.copyCtor w x).2 = true
    · simp only [hcp, if_true]
      rw [hfits]
      exact ⟨rfl, Nat.le_refl _, by simp⟩
    · simp only [hcp, if_false]
      exact ⟨rfl, Nat.le_succ _, by simp⟩

/-- A sequence of `PushBack` calls that fits below the capacity keeps the capacity. -/
theorem runCalls_appends_fit (E : ElemOps σ α) (ps : List (Call α)) :
    ∀ (w : σ) (u : Vector α), (∀ a ∈ ps, a.isAppend = true) →
      u.used_ + ps.length ≤ u.size_ →
      (runCalls E ps w u).2.size_ = u.size_ ∧
      (runCalls E ps w u).2.used_ ≤ u.used_ + ps.length := by
  induction ps with
  | nil =>
    intro w u _ _
    exact ⟨rfl, Nat.le_refl _⟩
  | cons c cs ih =>
    intro w u happ hlen
    simp only [List.length_cons] at hlen
    have hc := runCall_append_fit E c w u (happ c (by simp)) (by omega)
    have := ih (runCall E c w u).world (runCall E c w u).st
      (fun a ha => happ a (List.mem_cons_of_mem _ ha)) (by omega)
    show (runCalls E cs (runCall E c w u).world (runCall E c w u).st).2.size_ = u.size_ ∧
      (runCalls E cs (runCall E c w u).world (runCall E c w u).st).2.used_ ≤
        u.used_ + (cs.length + 1)
    exact ⟨by rw [this.1, hc.1], by omega⟩

end Append

section Resizing

variable {σ α : Type}

theorem PopBack_nonempty (w : σ) (u : Vector α) (h : u.used_ ≠ 0) :
    PopBack w u =
      ⟨w, { u with used_ := u.used_ - 1, data_ := Destroy u.data_ (u.used_ - 1) }, .ok⟩ := by
  simp [PopBack, Empty, h]

/-- The loop `while (used_ != n) PopBack();` started with `n <= used_`: it returns, the
length is `n`, the block is the same one and the elements below `n` are untouched. -/
theorem popLoop_spec (w : σ) (v : Vector α) (n : Nat) (hn : n ≤ v.used_) :
    (popLoop n (v.used_ - n) w v).status
      = .ok ∧
    (popLoop n (v.used_ - n) w v).world
      = w ∧
    (popLoop n (v.used_ - n) w v).st.used_
      = n ∧
    (popLoop n (v.used_ - n) w v).st.size_
      = v.size_ ∧
    (popLoop n (v.used_ - n) w v).st.data_.length = v.data_.length ∧
    (∀ i, i < n →
      slot (popLoop n (v.used_ - n) w v).st.data_ i = slot v.data_ i) := by
  have hloop := whileLoop_spec (fun u : Vector α => decide (u.used_ ≠ n)) PopBack
    (fun w1 u => w1 = w ∧ u.size_ = v.size_ ∧ n ≤ u.used_ ∧ u.data_.length = v.data_.length ∧
      ∀ i, i < n → slot u.data_ i = slot v.data_ i)
    (fun _ => False) (fun u => u.used_ - n)
    (by
      intro w1 u hP hc
      obtain ⟨_, _, h3, _, _⟩ := hP
      simp only [decide_eq_true_eq] at hc
      show 0 < u.used_ - n
      omega)
    (by
      intro w1 u hP hc
      obtain ⟨h1, h2, h3, h4, h5⟩ := hP
      simp only [decide_eq_true_eq] at hc
      rw [PopBack_nonempty w1 u (by omega)]
      refine ⟨fun _ => ⟨⟨h1, h2, ?_, ?_, ?_⟩, ?_⟩, fun h => absurd rfl h⟩
      · show n ≤ u.used_ - 1
        omega
      · show (Destroy u.data_ (u.used_ - 1)).length = v.data_.length
        simp [Destroy, h4]
      · intro i hi
        show slot (Destroy u.data_ (u.used_ - 1)) i = slot v.data_ i
        rw [Destroy, slot_set_ne _ _ _ _ (by omega)]
        exact h5 i hi
      · show u.used_ - 1 - n < u.used_ - n
        omega)
    (v.used_ - n) w v ⟨rfl, rfl, hn, rfl, fun _ _ => rfl⟩ (Nat.le_refl _)
  unfold popLoop
  generalize whileLoop (fun u : Vector α => decide (u.used_ ≠ n)) PopBack
      (v.used_ - n) w v = R at hloop ⊢
  have hok : R.status = .ok := by
    by_contra hne
    exact hloop.2 hne
  obtain ⟨⟨h1, h2, h3, h4, h5⟩, hc⟩ := hloop.1 hok
  simp only [ne_eq, decide_not, Bool.not_eq_false', decide_eq_true_eq] at hc
  exact ⟨hok, h1, hc, h2, h4, h5⟩

/-- The default-constructing loop of `Resize`, started at `(i0, p0)` with `i0 <= n` and
`n` slots in the block: it returns or throws the exception of `T{}`; on normal return
`i == n`; in both cases the slots below `i0` and from `i` on are untouched and the slots
in between hold the default value. -/
theorem defaultLoop_spec (E : ElemOps σ α) (w : σ) (i0 n : Nat) (p0 : List (Option α))
    (h0 : i0 ≤ n) (hlen : n ≤ p0.length) :
    ((defaultLoop E n (n - i0) w (i0, p0)).status = .ok ∨
      (defaultLoop E n (n - i0) w (i0, p0)).status = .threw .element) ∧
    DefaultLoopInv E i0 n p0
      (defaultLoop E n (n - i0) w (i0, p0)).st ∧
    ((defaultLoop E n (n - i0) w (i0, p0)).status = .ok →
      (defaultLoop E n (n - i0) w (i0, p0)).st.1 = n) := by
  have hloop := whileLoop_spec (fun s : Nat × List (Option α) => decide (s.1 < n))
    (constructDefault E) (fun _ s => DefaultLoopInv E i0 n p0 s)
    (fun r => r.status = .threw .element ∧ DefaultLoopInv E i0 n p0 r.st)
    (fun s => n - s.1)
    (by
      intro w1 s _ hc
      simp only [decide_eq_true_eq] at hc
      show 0 < n - s.1
      omega)
    (by
      intro w1 s hP hc
      obtain ⟨h1, h2, h3, h4, h5, h6⟩ := hP
      simp only [decide_eq_true_eq] at hc
      unfold constructDefault
      by_cases hd : (E.defaultCtor w1).2 = true
      · simp only [hd, if_true]
        refine ⟨fun _ => ⟨⟨?_, ?_, ?_, ?_, ?_, ?_⟩, ?_⟩, fun h => absurd rfl h⟩
        · show i0 ≤ s.1 + 1
          omega
        · show s.1 + 1 ≤ n
          omega
        · show (Construct s.2 s.1 (some E.defaultValue)).length = p0.length
          simp [Construct, h3]
        · intro j hj
          show slot (Construct s.2 s.1 (some E.defaultValue)) j = slot p0 j
          rw [Construct, slot_set_ne _ _ _ _ (by omega)]
          exact h4 j hj
        · intro j hj1 hj2
          show slot (Construct s.2 s.1 (some E.defaultValue)) j = some E.defaultValue
          have hj3 : j < s.1 + 1 := hj2
          by_cases hjs : j = s.1
          · subst hjs
            rw [Construct, slot_set_eq _ _ _ (by omega)]
          · rw [Construct, slot_set_ne _ _ _ _ (fun h => hjs h.symm)]
            exact h5 j hj1 (by omega)
        · intro j hj
          show slot (Construct s.2 s.1 (some E.defaultValue)) j = slot p0 j
          have hj3 : s.1 + 1 ≤ j := hj
          rw [Construct, slot_set_ne _ _ _ _ (by omega)]
          exact h6 j (by omega)
        · show n - (s.1 + 1) < n - s.1
          omega
      · simp only [hd, if_false]
        exact ⟨fun h => by simp at h, fun _ => ⟨rfl, h1, h2, h3, h4, h5, h6⟩⟩)
    (n - i0) w (i0, p0)
    ⟨Nat.le_refl _, h0, rfl, fun _ _ => rfl, fun j h1 h2 => by
      have h3 : j < i0 := h2
      omega, fun _ _ => rfl⟩
    (Nat.le_refl _)
  by_cases hs : (defaultLoop E n (n - i0) w (i0, p0)).status = .ok
  · obtain ⟨hP, hc⟩ := hloop.1 hs
    simp only [decide_eq_false_iff_not, Nat.not_lt] at hc
    exact ⟨Or.inl hs, hP, fun _ => Nat.le_antisymm hP.2.1 hc⟩
  · obtain ⟨h1, h2⟩ := hloop.2 hs
    exact ⟨Or.inr h1, h2, fun h => absurd h hs⟩

theorem Resize_shrink (E : ElemOps σ α) (w : σ) (v : Vector α) (n : Nat) (h1 : n ≤ v.used_) :
    Resize E w v n = popLoop n (v.used_ - n) w v := by
  unfold Resize
  rw [if_pos h1]

theorem Resize_inplace (E : ElemOps σ α) (w : σ) (v : Vector α) (n : Nat)
    (h1 : ¬ n ≤ v.used_) (h2 : n ≤ v.size_) :
    Resize E w v n =
      if (defaultLoop E n (n - v.used_) w (v.used_, v.data_)).status = .ok then
        ⟨(defaultLoop E n (n - v.used_) w (v.used_, v.data_)).world,
          ⟨v.size_, n, (defaultLoop E n (n - v.used_) w (v.used_, v.data_)).st.2⟩, .ok⟩
      else
        ⟨(defaultLoop E n (n - v.used_) w (v.used_, v.data_)).world,
          ⟨v.size_, v.used_,
            DestroyRange (defaultLoop E n (n - v.used_) w (v.used_, v.data_)).st.2 v.used_
              (defaultLoop E n (n - v.used_) w (v.used_, v.data_)).st.1⟩,
          (defaultLoop E n (n - v.used_) w (v.used_, v.data_)).status⟩ := by
  unfold Resize
  rw [if_neg h1, if_pos h2]

theorem Resize_grow (E : ElemOps σ α) (w : σ) (v : Vector α) (n : Nat)
    (h1 : ¬ n ≤ v.used_) (h2 : ¬ n ≤ v.size_) :
    Resize E w v n =
      if (E.alloc w n).2 = true then
        if (defaultLoop E n (n - v.used_) (E.alloc w n).1
            (v.used_, (moveAll E v.data_ (rawBlock n) v.used_).2)).status = .ok then
          ⟨(defaultLoop E n (n - v.used_) (E.alloc w n).1
              (v.used_, (moveAll E v.data_ (rawBlock n) v.used_).2)).world,
            ⟨n, n, (defaultLoop E n (n - v.used_) (E.alloc w n).1
              (v.used_, (moveAll E v.data_ (rawBlock n) v.used_).2)).st.2⟩, .ok⟩
        else
          ⟨(defaultLoop E n (n - v.used_) (E.alloc w n).1
              (v.used_, (moveAll E v.data_ (rawBlock n) v.used_).2)).world,
            ⟨v.size_, v.used_,
              (moveAll E (defaultLoop E n (n - v.used_) (E.alloc w n).1
                  (v.used_, (moveAll E v.data_ (rawBlock n) v.used_).2)).st.2
                (moveAll E v.data_ (rawBlock n) v.used_).1 v.used_).2⟩,
            (defaultLoop E n (n - v.used_) (E.alloc w n).1
              (v.used_, (moveAll E v.data_ (rawBlock n) v.used_).2)).status⟩
      else ⟨(E.alloc w n).1, v, .threw .bad_alloc⟩ := by
  unfold Resize
  rw [if_neg h1, if_neg h2]

/-- Spec of `Resize(new_size)` on a vector with `used_ <= size_` whose block has `size_` slots: it
never uses up the loop budget; when it returns, the length is `n`, the old elements below
`min(used_, n)` are kept, the new ones hold the default value, the block has `size_`
slots again, and the capacity is the old one when `n <= size_` and `n` otherwise. -/
theorem Resize_spec (E : ElemOps σ α) (w : σ) (v : Vector α) (n : Nat)
    (hinv : v.used_ ≤ v.size_) (hblock : v.data_.length = v.size_) :
    (Resize E w v n).status ≠ .diverged ∧
    (n ≤ v.used_ → (Resize E w v n).status = .ok) ∧
    ((Resize E w v n).status = .ok →
      (Resize E w v n).st.used_ = n ∧
      (Resize E w v n).st.data_.length = (Resize E w v n).st.size_ ∧
      (∀ i, i < v.used_ → i < n → slot (Resize E w v n).st.data_ i = slot v.data_ i) ∧
      (∀ i, v.used_ ≤ i → i < n → slot (Resize E w v n).st.data_ i = some E.defaultValue) ∧
      (n ≤ v.size_ → (Resize E w v n).st.size_ = v.size_) ∧
      (v.size_ < n → (Resize E w v n).st.size_ = n)) := by
  by_cases h1 : n ≤ v.used_
  · obtain ⟨hs, _, hu, hsz, hl, hlo⟩ := popLoop_spec w v n h1
    rw [Resize_shrink E w v n h1]
    refine ⟨by rw [hs]; simp, fun _ => hs, fun _ => ⟨hu, by omega, fun i _ hi => hlo i hi,
      fun i hi1 hi2 => by omega, fun _ => hsz, fun h => by omega⟩⟩
  · by_cases h2 : n ≤ v.size_
    · have hspec := defaultLoop_spec E w v.used_ n v.data_ (by omega) (by omega)
      rw [Resize_inplace E w v n h1 h2]
      generalize defaultLoop E n (n - v.used_) w (v.used_, v.data_) = L at hspec ⊢
      obtain ⟨hst, ⟨_, _, hl, hlo, hmid, _⟩, hi⟩ := hspec
      by_cases hs : L.status = .ok
      · rw [if_pos hs]
        have hin := hi hs
        refine ⟨by simp, fun h => absurd h h1, fun _ => ⟨rfl, ?_, ?_, ?_, fun _ => rfl,
          fun h => by omega⟩⟩
        · show L.st.2.length = v.size_
          omega
        · intro i hi1 _
          exact hlo i hi1
        · intro i hi1 hi2
          exact hmid i hi1 (by omega)
      · rw [if_neg hs]
        refine ⟨?_, fun h => absurd h h1, fun h => absurd h hs⟩
        show L.status ≠ .diverged
        cases hst with
        | inl h => exact absurd h hs
        | inr h => rw [h]; simp
    · have hm := moveAll_spec E v.data_ (rawBlock n) v.used_
      have hspec := defaultLoop_spec E (E.alloc w n).1 v.used_ n
        (moveAll E v.data_ (rawBlock n) v.used_).2 (by omega)
        (by rw [hm.2.1]; simp [rawBlock])
      rw [Resize_grow E w v n h1 h2]
      generalize defaultLoop E n (n - v.used_) (E.alloc w n).1
        (v.used_, (moveAll E v.data_ (rawBlock n) v.used_).2) = L at hspec ⊢
      obtain ⟨hst, ⟨_, _, hl, hlo, hmid, _⟩, hi⟩ := hspec
      by_cases ha : (E.alloc w n).2 = true
      · rw [if_pos ha]
        by_cases hs : L.status = .ok
        · rw [if_pos hs]
          refine ⟨by simp, fun h => absurd h h1, fun _ => ⟨rfl, ?_, ?_, ?_, fun h => absurd h h2,
            fun _ => rfl⟩⟩
          · show L.st.2.length = n
            rw [hl, hm.2.1]
            simp [rawBlock]
          · intro i hi1 hi2
            show slot L.st.2 i = slot v.data_ i
            rw [hlo i hi1, hm.2.2.2 i]
            have : i < v.used_ ∧ i < (rawBlock n : List (Option α)).length := by
              simp only [rawBlock, List.length_replicate]
              omega
            rw [if_pos this]
          · intro i hi1 hi2
            exact hmid i hi1 (by rw [hi hs]; exact hi2)
        · rw [if_neg hs]
          refine ⟨?_, fun h => absurd h h1, fun h => absurd h hs⟩
          show L.status ≠ .diverged
          cases hst with
          | inl h => exact absurd h hs
          | inr h => rw [h]; simp
      · rw [if_neg ha]
        exact ⟨by simp, fun h => absurd h h1, fun h => by simp at h⟩

/-- The appending loop of `Resize(count, value)` with `value` bound to an object `x` outside
the vector, started with `used_ <= count`: it returns or throws `bad_alloc` or the exception
of the copy constructor; on normal return the length is `count`; in every case the old
elements are kept and the appended ones equal `x`. -/
theorem pushLoop_spec (E : ElemOps σ α) (w : σ) (v : Vector α) (n : Nat) (x : α) (b : Bool)
    (hinv : v.used_ ≤ v.size_) (hblock : v.data_.length = v.size_) (hn : v.used_ ≤ n) :
    ((pushLoop E n (.outside x) (n - v.used_) w (v, b)).status = .ok ∨
      (pushLoop E n (.outside x) (n - v.used_) w (v, b)).status = .threw .bad_alloc ∨
      (pushLoop E n (.outside x) (n - v.used_) w (v, b)).status = .threw .element) ∧
    PushLoopInv v n x (pushLoop E n (.outside x) (n - v.used_) w (v, b)).st.1 ∧
    ((pushLoop E n (.outside x) (n - v.used_) w (v, b)).status = .ok →
      (pushLoop E n (.outside x) (n - v.used_) w (v, b)).st.1.used_ = n) := by
  have hloop := whileLoop_spec (fun s : Vector α × Bool => decide (s.1.used_ ≠ n))
    (pushRef E (.outside x)) (fun _ s => PushLoopInv v n x s.1)
    (fun r => (r.status = .threw .bad_alloc ∨ r.status = .threw .element) ∧
      PushLoopInv v n x r.st.1)
    (fun s => n - s.1.used_)
    (by
      intro w1 s hP hc
      obtain ⟨_, _, _, h4, _, _⟩ := hP
      simp only [decide_eq_true_eq] at hc
      show 0 < n - s.1.used_
      omega)
    (by
      intro w1 s hP hc
      obtain ⟨h1, h2, h3, h4, h5, h6⟩ := hP
      simp only [decide_eq_true_eq] at hc
      obtain ⟨hst, hfail, hok⟩ := PushBack_spec E w1 s.1 x h1 h2
      have hb : (pushRef E (.outside x) w1 s).status = (PushBack E w1 s.1 x).status ∧
          (pushRef E (.outside x) w1 s).st.1 = (PushBack E w1 s.1 x).st := ⟨rfl, rfl⟩
      beta_reduce
      rw [hb.1, hb.2]
      refine ⟨fun hs => ?_, fun hs => ⟨?_, ?_⟩⟩
      · obtain ⟨hu, hinv2, hl2, hlo, hx⟩ := hok hs
        refine ⟨⟨hinv2, hl2, by omega, by omega, ?_, ?_⟩, ?_⟩
        · intro i hi
          rw [hlo i (by omega)]
          exact h5 i hi
        · intro i hi1 hi2
          by_cases hiu : i = s.1.used_
          · subst hiu
            exact hx
          · rw [hlo i (by omega)]
            exact h6 i hi1 (by omega)
        · show n - (PushBack E w1 s.1 x).st.used_ < n - s.1.used_
          omega
      · cases hst with
        | inl h => exact absurd h hs
        | inr h => exact h
      · rw [hfail hs]
        exact ⟨h1, h2, h3, h4, h5, h6⟩)
    (n - v.used_) w (v, b)
    ⟨hinv, hblock, Nat.le_refl _, hn, fun _ _ => rfl, fun i h1 h2 => by
      have h3 : i < v.used_ := h2
      omega⟩
    (Nat.le_refl _)
  unfold pushLoop
  generalize whileLoop (fun s : Vector α × Bool => decide (s.1.used_ ≠ n))
    (pushRef E (.outside x)) (n - v.used_) w (v, b) = R at hloop ⊢
  by_cases hs : R.status = .ok
  · obtain ⟨hP, hc⟩ := hloop.1 hs
    simp only [ne_eq, decide_not, Bool.not_eq_false', decide_eq_true_eq] at hc
    exact ⟨Or.inl hs, hP, fun _ => hc⟩
  · obtain ⟨h1, h2⟩ := hloop.2 hs
    exact ⟨Or.inr h1, h2, fun h => absurd h hs⟩

/-- Spec of `Resize(n, value)` with `value` bound to an object `x` outside the vector, on a
vector with `used_ <= size_` whose block has `size_` slots: the call ends with a status (it
returns whenever `n < used_`), and when it returns the length is `n`, the elements below
`min(used_, n)` are the old ones and the elements from the old length up to `n` equal `x`. -/
theorem ResizeValue_outside_spec (E : ElemOps σ α) (w : σ) (v : Vector α) (n : Nat) (x : α)
    (hinv : v.used_ ≤ v.size_) (hblock : v.data_.length = v.size_) :
    (ResizeValue E w v n (.outside x)).status ≠ .diverged ∧
    (n < v.used_ → (ResizeValue E w v n (.outside x)).status = .ok) ∧
    ((ResizeValue E w v n (.outside x)).status = .ok →
      (ResizeValue E w v n (.outside x)).st.used_ = n ∧
      (∀ i, i < min v.used_ n → slot (ResizeValue E w v n (.outside x)).st.data_ i = slot v.data_ i) ∧
      (∀ i, v.used_ ≤ i → i < n →
        slot (ResizeValue E w v n (.outside x)).st.data_ i = some x)) := by
  by_cases h1 : n < v.used_
  · have hR : ResizeValue E w v n (.outside x) = popLoop n (v.used_ - n) w v := by
      unfold ResizeValue
      rw [if_pos h1]
    obtain ⟨hs, _, hu, _, _, hlo⟩ := popLoop_spec w v n (by omega)
    rw [hR]
    exact ⟨by rw [hs]; simp, fun _ => hs, fun _ => ⟨hu, fun i hi => hlo i (by omega),
      fun i hi1 hi2 => by omega⟩⟩
  · have hR : ResizeValue E w v n (.outside x) =
        ⟨(pushLoop E n (.outside x) (n - v.used_) w (v, false)).world,
          (pushLoop E n (.outside x) (n - v.used_) w (v, false)).st.1,
          (pushLoop E n (.outside x) (n - v.used_) w (v, false)).status⟩ := by
      unfold ResizeValue
      rw [if_neg h1]
    obtain ⟨hst, ⟨_, _, _, _, hlo, hmid⟩, hu⟩ :=
      pushLoop_spec E w v n x false hinv hblock (by omega)
    rw [hR]
    refine ⟨?_, fun h => absurd h h1, fun hs => ⟨hu hs, fun i hi => hlo i (by omega),
      fun i hi1 hi2 => hmid i hi1 (by rw [hu hs]; exact hi2)⟩⟩
    show (pushLoop E n (.outside x) (n - v.used_) w (v, false)).status ≠ .diverged
    rcases hst with h | h | h <;> rw [h] <;> simp

/-- Spec of `ShrinkToFit` when `used_ != size_`, through `rebuild_spec`. -/
theorem ShrinkToFit_spec (E : ElemOps σ α) (w : σ) (v : Vector α) (hne : v.used_ ≠ v.size_) :
    (v.used_ = 0 → ShrinkToFit E w v = ⟨w, ⟨0, 0, []⟩, .ok⟩) ∧
    (0 < v.used_ → (E.alloc w v.used_).2 = false →
      ShrinkToFit E w v = ⟨(E.alloc w v.used_).1, v, .threw .bad_alloc⟩) ∧
    (0 < v.used_ → (E.alloc w v.used_).2 = true →
      (ShrinkToFit E w v).status = .ok ∧
      (ShrinkToFit E w v).st.size_ = v.used_ ∧
      (ShrinkToFit E w v).st.used_ = v.used_ ∧
      (ShrinkToFit E w v).st.data_.length = v.used_ ∧
      (∀ i, i < v.used_ → slot (ShrinkToFit E w v).st.data_ i = slot v.data_ i)) := by
  have hr := rebuild_spec E 2 w v v.used_ (Nat.le_refl _)
  simp only [Nat.reduceAdd] at hr
  have hS : ShrinkToFit E w v = rebuild E (PushBackAux E 3) w v v.used_ := by
    unfold ShrinkToFit
    rw [if_neg hne]
  rw [hS]
  refine ⟨fun h0 => ?_, hr.2.1, fun h0 ha => ?_⟩
  · have := hr.1 h0
    rw [h0] at this ⊢
    exact this
  · obtain ⟨_, hs, hsz, hu, hl, hlo, _⟩ := hr.2.2 h0 ha
    exact ⟨hs, hsz, hu, hl, hlo⟩

end Resizing

section Ordering

variable {α : Type}

theorem compareLoop_zero (C : ElemCmp α) (pick : α → α → Bool) (a b : Vector α) (fin : Bool)
    (i : Nat) : compareLoop C pick a b fin 0 i = fin := rfl

theorem compareLoop_succ (C : ElemCmp α) (pick : α → α → Bool) (a b : Vector α) (fin : Bool)
    (n i : Nat) :
    compareLoop C pick a b fin (n + 1) i =
      if slotCmp C.ne (slot a.data_ i) (slot b.data_ i) then
        slotCmp pick (slot a.data_ i) (slot b.data_ i)
      else compareLoop C pick a b fin n (i + 1) := rfl

/-- The comparison loop answers `true` exactly when the first pair that differs under `!=`
satisfies `pick`, or no pair differs and the comparison of the lengths is `true`. -/
theorem compareLoop_true_iff (C : ElemCmp α) (pick : α → α → Bool) (a b : Vector α)
    (fin : Bool) : ∀ n i,
    compareLoop C pick a b fin n i = true ↔
      (∃ k, i ≤ k ∧ k < i + n ∧
        (∀ j, i ≤ j → j < k → slotCmp C.ne (slot a.data_ j) (slot b.data_ j) = false) ∧
        slotCmp C.ne (slot a.data_ k) (slot b.data_ k) = true ∧
        slotCmp pick (slot a.data_ k) (slot b.data_ k) = true) ∨
      ((∀ j, i ≤ j → j < i + n → slotCmp C.ne (slot a.data_ j) (slot b.data_ j) = false) ∧
        fin = true) := by
  intro n
  induction n with
  | zero =>
    intro i
    rw [compareLoop_zero]
    constructor
    · intro h
      exact Or.inr ⟨fun j h1 h2 => by omega, h⟩
    · rintro (⟨k, h1, h2, _⟩ | ⟨_, h⟩)
      · omega
      · exact h
  | succ n ih =>
    intro i
    rw [compareLoop_succ]
    by_cases hne : slotCmp C.ne (slot a.data_ i) (slot b.data_ i) = true
    · rw [if_pos hne]
      constructor
      · intro h
        exact Or.inl ⟨i, Nat.le_refl _, by omega, fun j h1 h2 => by omega, hne, h⟩
      · rintro (⟨k, h1, h2, h3, h4, h5⟩ | ⟨h3, _⟩)
        · by_cases hk : k = i
          · subst hk
            exact h5
          · have := h3 i (Nat.le_refl _) (by omega)
            rw [this] at hne
            exact absurd hne (by simp)
        · have := h3 i (Nat.le_refl _) (by omega)
          rw [this] at hne
          exact absurd hne (by simp)
    · rw [if_neg hne, ih (i + 1)]
      simp only [Bool.not_eq_true] at hne
      constructor
      · rintro (⟨k, h1, h2, h3, h4, h5⟩ | ⟨h3, h4⟩)
        · refine Or.inl ⟨k, by omega, by omega, fun j hj1 hj2 => ?_, h4, h5⟩
          by_cases hj : j = i
          · subst hj
            exact hne
          · exact h3 j (by omega) hj2
        · refine Or.inr ⟨fun j hj1 hj2 => ?_, h4⟩
          by_cases hj : j = i
          · subst hj
            exact hne
          · exact h3 j (by omega) (by omega)
      · rintro (⟨k, h1, h2, h3, h4, h5⟩ | ⟨h3, h4⟩)
        · have hk : k ≠ i := by
            intro hk
            subst hk
            rw [hne] at h4
            exact absurd h4 (by simp)
          exact Or.inl ⟨k, by omega, by omega, fun j hj1 hj2 => h3 j (by omega) hj2, h4, h5⟩
        · exact Or.inr ⟨fun j hj1 hj2 => h3 j (by omega) (by omega), h4⟩

theorem compareLoop_congr (C C2 : ElemCmp α) (pick pick2 : α → α → Bool)
    (a b a2 b2 : Vector α) (fin : Bool)
    (hne : ∀ j, slotCmp C.ne (slot a.data_ j) (slot b.data_ j) =
      slotCmp C2.ne (slot a2.data_ j) (slot b2.data_ j))
    (hpick : ∀ j, slotCmp pick (slot a.data_ j) (slot b.data_ j) =
      slotCmp pick2 (slot a2.data_ j) (slot b2.data_ j)) :
    ∀ n i, compareLoop C pick a b fin n i = compareLoop C2 pick2 a2 b2 fin n i := by
  intro n
  induction n with
  | zero => intro i; rfl
  | succ n ih =>
    intro i
    rw [compareLoop_succ, compareLoop_succ, hne i, hpick i, ih (i + 1)]

/-- What `operator<` computes, for any element type. -/
theorem operatorLt_true_iff (C : ElemCmp α) (a b : Vector α) :
    operatorLt C a b = true ↔
      (∃ k, k < min a.used_ b.used_ ∧
        (∀ j, j < k → slotCmp C.ne (slot a.data_ j) (slot b.data_ j) = false) ∧
        slotCmp C.ne (slot a.data_ k) (slot b.data_ k) = true ∧
        slotCmp C.lt (slot a.data_ k) (slot b.data_ k) = true) ∨
      ((∀ j, j < min a.used_ b.used_ →
          slotCmp C.ne (slot a.data_ j) (slot b.data_ j) = false) ∧
        a.used_ < b.used_) := by
  unfold operatorLt
  rw [compareLoop_true_iff]
  constructor
  · rintro (⟨k, _, h2, h3, h4, h5⟩ | ⟨h3, h4⟩)
    · exact Or.inl ⟨k, by omega, fun j hj => h3 j (Nat.zero_le _) hj, h4, h5⟩
    · exact Or.inr ⟨fun j hj => h3 j (Nat.zero_le _) (by omega), by simpa using h4⟩
  · rintro (⟨k, h2, h3, h4, h5⟩ | ⟨h3, h4⟩)
    · exact Or.inl ⟨k, Nat.zero_le _, by omega, fun j _ hj => h3 j hj, h4, h5⟩
    · exact Or.inr ⟨fun j _ hj => h3 j (by omega), by simpa using h4⟩

/-- What `operator>` computes, for any element type. -/
theorem operatorGt_true_iff (C : ElemCmp α) (a b : Vector α) :
    operatorGt C a b = true ↔
      (∃ k, k < min a.used_ b.used_ ∧
        (∀ j, j < k → slotCmp C.ne (slot a.data_ j) (slot b.data_ j) = false) ∧
        slotCmp C.ne (slot a.data_ k) (slot b.data_ k) = true ∧
        slotCmp C.gt (slot a.data_ k) (slot b.data_ k) = true) ∨
      ((∀ j, j < min a.used_ b.used_ →
          slotCmp C.ne (slot a.data_ j) (slot b.data_ j) = false) ∧
        b.used_ < a.used_) := by
  unfold operatorGt
  rw [compareLoop_true_iff]
  constructor
  · rintro (⟨k, _, h2, h3, h4, h5⟩ | ⟨h3, h4⟩)
    · exact Or.inl ⟨k, by omega, fun j hj => h3 j (Nat.zero_le _) hj, h4, h5⟩
    · exact Or.inr ⟨fun j hj => h3 j (Nat.zero_le _) (by omega), by simpa using h4⟩
  · rintro (⟨k, h2, h3, h4, h5⟩ | ⟨h3, h4⟩)
    · exact Or.inl ⟨k, Nat.zero_le _, by omega, fun j _ hj => h3 j hj, h4, h5⟩
    · exact Or.inr ⟨fun j _ hj => h3 j (by omega), by simpa using h4⟩

/-- On constructed objects, `!=` of an element type whose `!=` is inequality answers
`false` exactly when the two slots hold the same value. -/
theorem slotCmp_ne_false_iff (f : α → α → Bool) (hf : ∀ x y, f x y = true ↔ x ≠ y)
    (sa sb : Option α) (ha : ∃ x, sa = some x) (hb : ∃ y, sb = some y) :
    slotCmp f sa sb = false ↔ sa = sb := by
  obtain ⟨x, rfl⟩ := ha
  obtain ⟨y, rfl⟩ := hb
  simp only [slotCmp, Option.some.injEq]
  constructor
  · intro h
    by_contra hxy
    rw [(hf x y).2 hxy] at h
    exact absurd h (by simp)
  · intro h
    cases hfx : f x y with
    | false => rfl
    | true => exact absurd h ((hf x y).1 hfx)

/-- What `operator==` computes, for any element type: the lengths are equal and no pair
differs under `!=`, or the first pair that differs under `!=` is neither `>` nor `<`. -/
theorem operatorEq_true_iff (C : ElemCmp α) (a b : Vector α) :
    operatorEq C a b = true ↔
      ((∀ j, j < min a.used_ b.used_ →
          slotCmp C.ne (slot a.data_ j) (slot b.data_ j) = false) ∧
        a.used_ = b.used_) ∨
      (∃ k, k < min a.used_ b.used_ ∧
        (∀ j, j < k → slotCmp C.ne (slot a.data_ j) (slot b.data_ j) = false) ∧
        slotCmp C.ne (slot a.data_ k) (slot b.data_ k) = true ∧
        slotCmp C.gt (slot a.data_ k) (slot b.data_ k) = false ∧
        slotCmp C.lt (slot a.data_ k) (slot b.data_ k) = false) := by
  have hEq : operatorEq C a b = true ↔
      ¬ operatorGt C a b = true ∧ ¬ operatorLt C a b = true := by
    unfold operatorEq
    cases operatorGt C a b <;> cases operatorLt C a b <;> simp
  rw [hEq, operatorGt_true_iff, operatorLt_true_iff]
  constructor
  · rintro ⟨hg, hl⟩
    by_cases hex : ∃ k, k < min a.used_ b.used_ ∧
        slotCmp C.ne (slot a.data_ k) (slot b.data_ k) = true
    · have hk := Nat.find_spec hex
      have hmin : ∀ j, j < Nat.find hex →
          slotCmp C.ne (slot a.data_ j) (slot b.data_ j) = false := by
        intro j hj
        have := Nat.find_min hex hj
        by_contra hcon
        simp only [Bool.not_eq_false] at hcon
        exact this ⟨by omega, hcon⟩
      refine Or.inr ⟨Nat.find hex, hk.1, hmin, hk.2, ?_, ?_⟩
      · by_contra hcon
        simp only [Bool.not_eq_false] at hcon
        exact hg (Or.inl ⟨_, hk.1, hmin, hk.2, hcon⟩)
      · by_contra hcon
        simp only [Bool.not_eq_false] at hcon
        exact hl (Or.inl ⟨_, hk.1, hmin, hk.2, hcon⟩)
    · have hno : ∀ j, j < min a.used_ b.used_ →
          slotCmp C.ne (slot a.data_ j) (slot b.data_ j) = false := by
        intro j hj
        by_contra hcon
        simp only [Bool.not_eq_false] at hcon
        exact hex ⟨j, hj, hcon⟩
      have h1 : ¬ b.used_ < a.used_ := fun h => hg (Or.inr ⟨hno, h⟩)
      have h2 : ¬ a.used_ < b.used_ := fun h => hl (Or.inr ⟨hno, h⟩)
      exact Or.inl ⟨hno, by omega⟩
  · rintro (⟨hno, hlen⟩ | ⟨k, hk, hmin, hne, hgt, hlt⟩)
    · constructor
      · rintro (⟨k, h1, _, h3, _⟩ | ⟨_, h⟩)
        · rw [hno k h1] at h3
          exact absurd h3 (by simp)
        · omega
      · rintro (⟨k, h1, _, h3, _⟩ | ⟨_, h⟩)
        · rw [hno k h1] at h3
          exact absurd h3 (by simp)
        · omega
    · have huniq : ∀ k2, k2 < min a.used_ b.used_ →
          (∀ j, j < k2 → slotCmp C.ne (slot a.data_ j) (slot b.data_ j) = false) →
          slotCmp C.ne (slot a.data_ k2) (slot b.data_ k2) = true → k2 = k := by
        intro k2 _ hmin2 hne2
        by_contra hcon
        by_cases hlt2 : k2 < k
        · rw [hmin k2 hlt2] at hne2
          exact absurd hne2 (by simp)
        · rw [hmin2 k (by omega)] at hne
          exact absurd hne (by simp)
      constructor
      · rintro (⟨k2, h1, h2, h3, h4⟩ | ⟨hno, _⟩)
        · have := huniq k2 h1 h2 h3
          subst this
          rw [hgt] at h4
          exact absurd h4 (by simp)
        · rw [hno k hk] at hne
          exact absurd hne (by simp)
      · rintro (⟨k2, h1, h2, h3, h4⟩ | ⟨hno, _⟩)
        · have := huniq k2 h1 h2 h3
          subst this
          rw [hlt] at h4
          exact absurd h4 (by simp)
        · rw [hno k hk] at hne
          exact absurd hne (by simp)

end Ordering

section Copying

variable {σ α : Type}

theorem ConstructCopy_outcome (E : ElemOps σ α) (w : σ) (p : List (Option α)) (i : Nat)
    (x : Option α) :
    (ConstructCopy E w p i x).world = (copyOutcome E w x).1 ∧
    ((copyOutcome E w x).2 = true →
      (ConstructCopy E w p i x).status = .ok ∧ (ConstructCopy E w p i x).st = p.set i x) ∧
    ((copyOutcome E w x).2 = false → (ConstructCopy E w p i x).status = .threw .element) := by
  cases x with
  | none =>
    simp [ConstructCopy, copyOutcome]
  | some a =>
    unfold ConstructCopy copyOutcome
    cases h : (E.copyCtor w a).2 <;> simp [h]

/-- The constructor `VectorBuf(size)` when the allocation succeeds. -/
theorem VectorBufCtor_ok (E : ElemOps σ α) (w : σ) (n : Nat) (h0 : n ≠ 0)
    (ha : (E.alloc w n).2 = true) :
    VectorBufCtor E w n = ⟨(E.alloc w n).1, ⟨n, 0, rawBlock n⟩, .ok⟩ := by
  simp [VectorBufCtor, h0, ha]

/-- The copy constructor throws the exception of the element copy that fails: if the
allocation succeeds, the copies of the elements below index `k` return and the copy of
the element at `k` throws, the status is that exception. -/
theorem CopyCtor_fails_at (E : ElemOps σ α) (w : σ) (a : Vector α) (k : Nat)
    (hk : k < a.used_) (halloc : (E.alloc w a.used_).2 = true)
    (hfirst : ∀ j, j < k →
      (copyOutcome E (worldAfterCopies E a (E.alloc w a.used_).1 j) (slot a.data_ j)).2 = true)
    (hfail :
      (copyOutcome E (worldAfterCopies E a (E.alloc w a.used_).1 k) (slot a.data_ k)).2
        = false) :
    (CopyCtor E w a).status = .threw .element := by
  have hloop := whileLoop_spec (fun v : Vector α => decide (v.used_ < a.used_))
    (fun w1 v =>
      (⟨(ConstructCopy E w1 v.data_ v.used_ (slot a.data_ v.used_)).world,
        { v with
          data_ := (ConstructCopy E w1 v.data_ v.used_ (slot a.data_ v.used_)).st,
          used_ := if (ConstructCopy E w1 v.data_ v.used_ (slot a.data_ v.used_)).status = .ok
            then v.used_ + 1 else v.used_ },
        (ConstructCopy E w1 v.data_ v.used_ (slot a.data_ v.used_)).status⟩ :
        Res σ (Vector α)))
    (fun w1 s => s.used_ ≤ k ∧ w1 = worldAfterCopies E a (E.alloc w a.used_).1 s.used_)
    (fun r => r.status = .threw .element)
    (fun s => a.used_ - s.used_)
    (by
      intro w1 s _ hc
      simp only [decide_eq_true_eq] at hc
      show 0 < a.used_ - s.used_
      omega)
    (by
      intro w1 s hP hc
      obtain ⟨h1, h2⟩ := hP
      simp only [decide_eq_true_eq] at hc
      obtain ⟨hw, hok, hbad⟩ := ConstructCopy_outcome E w1 s.data_ s.used_ (slot a.data_ s.used_)
      beta_reduce
      by_cases hsk : s.used_ < k
      · have hgood := hfirst s.used_ hsk
        rw [← h2] at hgood
        obtain ⟨hst, _⟩ := hok hgood
        refine ⟨fun _ => ⟨⟨?_, ?_⟩, ?_⟩, fun h => absurd hst h⟩
        · show (if _ then s.used_ + 1 else s.used_) ≤ k
          rw [if_pos hst]
          omega
        · show _ = worldAfterCopies E a _ (if _ then s.used_ + 1 else s.used_)
          rw [if_pos hst, hw, h2]
          rfl
        · show a.used_ - (if _ then s.used_ + 1 else s.used_) < a.used_ - s.used_
          rw [if_pos hst]
          omega
      · have hsk2 : s.used_ = k := by omega
        have hbad2 := hfail
        rw [← hsk2, ← h2] at hbad2
        have hst := hbad hbad2
        exact ⟨fun h => by rw [hst] at h; exact absurd h (by simp), fun _ => hst⟩)
    a.used_ (E.alloc w a.used_).1 ⟨a.used_, 0, rawBlock a.used_⟩
    ⟨Nat.zero_le _, rfl⟩ (Nat.le_refl _)
  have hC : CopyCtor E w a = whileLoop (fun v : Vector α => decide (v.used_ < a.used_))
      (fun w1 v =>
        (⟨(ConstructCopy E w1 v.data_ v.used_ (slot a.data_ v.used_)).world,
          { v with
            data_ := (ConstructCopy E w1 v.data_ v.used_ (slot a.data_ v.used_)).st,
            used_ := if (ConstructCopy E w1 v.data_ v.used_ (slot a.data_ v.used_)).status = .ok
              then v.used_ + 1 else v.used_ },
          (ConstructCopy E w1 v.data_ v.used_ (slot a.data_ v.used_)).status⟩ :
          Res σ (Vector α)))
      a.used_ (E.alloc w a.used_).1 ⟨a.used_, 0, rawBlock a.used_⟩ := by
    unfold CopyCtor
    rw [VectorBufCtor_ok E w a.used_ (by omega) halloc]
    rfl
  rw [hC]
  apply hloop.2
  intro hs
  obtain ⟨⟨h1, _⟩, hc⟩ := hloop.1 hs
  simp only [decide_eq_false_iff_not, Nat.not_lt] at hc
  omega

theorem CopyCtor_eq_loop (E : ElemOps σ α) (w : σ) (a : Vector α) :
    CopyCtor E w a =
      if (VectorBufCtor E w a.used_).status = .ok then
        whileLoop (fun v : Vector α => decide (v.used_ < a.used_)) (copyElement E a)
          a.used_ (VectorBufCtor E w a.used_).world (VectorBufCtor E w a.used_).st
      else VectorBufCtor E w a.used_ := rfl

/-- The constructor `VectorBuf(size)`: it returns with a block of `size` raw slots, or
throws `bad_alloc`, which happens exactly when `size != 0` and the allocation fails. -/
theorem VectorBufCtor_spec (E : ElemOps σ α) (w : σ) (n : Nat) :
    ((VectorBufCtor E w n).status = .ok ∨ (VectorBufCtor E w n).status = .threw .bad_alloc) ∧
    ((VectorBufCtor E w n).status = .ok →
      (VectorBufCtor E w n).st = ⟨n, 0, rawBlock n⟩) ∧
    ((VectorBufCtor E w n).status = .ok ↔ (n = 0 ∨ (E.alloc w n).2 = true)) := by
  unfold VectorBufCtor
  by_cases h0 : n = 0
  · subst h0
    simp [rawBlock]
  · cases ha : (E.alloc w n).2 <;> simp [h0, ha]

/-- The copy constructor: it returns, throws `bad_alloc` or throws the exception of an
element copy; when it returns, the new vector has capacity and length `other.used_`, a
block of that many slots, and the elements of `other`. -/
theorem CopyCtor_spec (E : ElemOps σ α) (w : σ) (a : Vector α) :
    ((CopyCtor E w a).status = .ok ∨ (CopyCtor E w a).status = .threw .bad_alloc ∨
      (CopyCtor E w a).status = .threw .element) ∧
    ((CopyCtor E w a).status = .ok →
      (CopyCtor E w a).st.size_ = a.used_ ∧
      (CopyCtor E w a).st.used_ = a.used_ ∧
      (CopyCtor E w a).st.data_.length = a.used_ ∧
      ∀ i, i < a.used_ → slot (CopyCtor E w a).st.data_ i = slot a.data_ i) := by
  obtain ⟨hb1, hb2, _⟩ := VectorBufCtor_spec E w a.used_
  rw [CopyCtor_eq_loop]
  by_cases hbs : (VectorBufCtor E w a.used_).status = .ok
  · rw [if_pos hbs, hb2 hbs]
    have hloop := whileLoop_spec (fun v : Vector α => decide (v.used_ < a.used_))
      (copyElement E a)
      (fun _ s => s.size_ = a.used_ ∧ s.used_ ≤ a.used_ ∧ s.data_.length = a.used_ ∧
        ∀ i, i < s.used_ → slot s.data_ i = slot a.data_ i)
      (fun r => r.status = .threw .element)
      (fun s => a.used_ - s.used_)
      (by
        intro w1 s _ hc
        simp only [decide_eq_true_eq] at hc
        show 0 < a.used_ - s.used_
        omega)
      (by
        intro w1 s hP hc
        obtain ⟨h1, h2, h3, h4⟩ := hP
        simp only [decide_eq_true_eq] at hc
        obtain ⟨_, hok, hbad⟩ :=
          ConstructCopy_outcome E w1 s.data_ s.used_ (slot a.data_ s.used_)
        unfold copyElement
        cases hco : (copyOutcome E w1 (slot a.data_ s.used_)).2 with
        | true =>
          obtain ⟨hst, hdata⟩ := hok hco
          refine ⟨fun _ => ⟨⟨h1, ?_, ?_, ?_⟩, ?_⟩, fun h => absurd hst h⟩
          · show (if _ then s.used_ + 1 else s.used_) ≤ a.used_
            rw [if_pos hst]
            omega
          · show (ConstructCopy E w1 s.data_ s.used_ (slot a.data_ s.used_)).st.length = a.used_
            rw [hdata]
            simp [h3]
          · intro i hi
            have hi2 : i < s.used_ + 1 := by
              have : i < (if (ConstructCopy E w1 s.data_ s.used_
                  (slot a.data_ s.used_)).status = .ok then s.used_ + 1 else s.used_) := hi
              rwa [if_pos hst] at this
            show slot (ConstructCopy E w1 s.data_ s.used_ (slot a.data_ s.used_)).st i = _
            rw [hdata]
            by_cases his : i = s.used_
            · subst his
              rw [slot_set_eq _ _ _ (by omega)]
            · rw [slot_set_ne _ _ _ _ (fun h => his h.symm)]
              exact h4 i (by omega)
          · show a.used_ - (if _ then s.used_ + 1 else s.used_) < a.used_ - s.used_
            rw [if_pos hst]
            omega
        | false =>
          have hst := hbad hco
          exact ⟨fun h => by
            have h2 : (ConstructCopy E w1 s.data_ s.used_ (slot a.data_ s.used_)).status
              = .ok := h
            rw [hst] at h2
            exact absurd h2 (by simp), fun _ => hst⟩)
      a.used_ (VectorBufCtor E w a.used_).world ⟨a.used_, 0, rawBlock a.used_⟩
      ⟨rfl, Nat.zero_le _, by simp [rawBlock], fun i hi => by
        have : i < 0 := hi
        omega⟩
      (Nat.le_refl _)
    generalize whileLoop (fun v : Vector α => decide (v.used_ < a.used_)) (copyElement E a)
      a.used_ (VectorBufCtor E w a.used_).world ⟨a.used_, 0, rawBlock a.used_⟩ = R at hloop ⊢
    by_cases hs : R.status = .ok
    · obtain ⟨⟨h1, h2, h3, h4⟩, hc⟩ := hloop.1 hs
      simp only [decide_eq_false_iff_not, Nat.not_lt] at hc
      have hu : R.st.used_ = a.used_ := by omega
      exact ⟨Or.inl hs, fun _ => ⟨h1, hu, h3, fun i hi => h4 i (by omega)⟩⟩
    · exact ⟨Or.inr (Or.inr (hloop.2 hs)), fun h => absurd h hs⟩
  · rw [if_neg hbs]
    cases hb1 with
    | inl h => exact absurd h hbs
    | inr h => exact ⟨Or.inr (Or.inl h), fun h2 => absurd h2 hbs⟩

end Copying

section Rollback

variable {σ α : Type}

/-- Destroying the range `[first, last)` leaves the slots below `first` as they were. -/
theorem DestroyRange_below (p : List (Option α)) (first last j : Nat) (hj : j < first) :
    slot (DestroyRange p first last) j = slot p j := by
  unfold DestroyRange
  generalize last - first = m
  induction m with
  | zero => rfl
  | succ m ih =>
    rw [List.range_succ, List.foldl_append]
    show slot (Destroy _ (first + m)) j = slot p j
    rw [Destroy, slot_set_ne _ _ _ _ (by omega)]
    exact ih

/-- The default-constructing loop throws the exception of the evaluation of `T{}` that
fails: if the first `k` evaluations return and the next one throws, with `k` new elements
still below `n`, the status of the loop is that exception. -/
theorem defaultLoop_fails_at (E : ElemOps σ α) (w : σ) (i0 n : Nat) (p0 : List (Option α))
    (k : Nat) (hk : i0 + k < n)
    (hfirst : ∀ j, j < k → (E.defaultCtor (worldAfterDefaults E w j)).2 = true)
    (hfail : (E.defaultCtor (worldAfterDefaults E w k)).2 = false) :
    (defaultLoop E n (n - i0) w (i0, p0)).status = .threw .element := by
  have hloop := whileLoop_spec (fun s : Nat × List (Option α) => decide (s.1 < n))
    (constructDefault E)
    (fun w1 s => i0 ≤ s.1 ∧ s.1 ≤ i0 + k ∧ w1 = worldAfterDefaults E w (s.1 - i0))
    (fun r => r.status = .threw .element)
    (fun s => n - s.1)
    (by
      intro w1 s _ hc
      simp only [decide_eq_true_eq] at hc
      show 0 < n - s.1
      omega)
    (by
      intro w1 s hP hc
      obtain ⟨h1, h2, h3⟩ := hP
      simp only [decide_eq_true_eq] at hc
      unfold constructDefault
      by_cases hsk : s.1 < i0 + k
      · have hgood := hfirst (s.1 - i0) (by omega)
        rw [← h3] at hgood
        simp only [hgood, if_true]
        refine ⟨fun _ => ⟨⟨?_, ?_, ?_⟩, ?_⟩, fun h => absurd rfl h⟩
        · show i0 ≤ s.1 + 1
          omega
        · show s.1 + 1 ≤ i0 + k
          omega
        · show (E.defaultCtor w1).1 = worldAfterDefaults E w (s.1 + 1 - i0)
          have : s.1 + 1 - i0 = (s.1 - i0) + 1 := by omega
          rw [this, h3]
          rfl
        · show n - (s.1 + 1) < n - s.1
          omega
      · have hsk2 : s.1 - i0 = k := by omega
        have hbad := hfail
        rw [← hsk2, ← h3] at hbad
        simp only [hbad]
        exact ⟨fun h => by simp at h, fun _ => rfl⟩)
    (n - i0) w (i0, p0) ⟨Nat.le_refl _, by omega, by simp [worldAfterDefaults]⟩
    (Nat.le_refl _)
  unfold defaultLoop
  apply hloop.2
  intro hs
  obtain ⟨⟨_, h2, _⟩, hc⟩ := hloop.1 hs
  simp only [decide_eq_false_iff_not, Nat.not_lt] at hc
  omega

/-- A `Resize(new_size)` that grows and does not return leaves the length, the capacity
and the elements as they were, and its status is an exception. -/
theorem Resize_failure (E : ElemOps σ α) (w : σ) (v : Vector α) (n : Nat)
    (hinv : v.used_ ≤ v.size_) (hblock : v.data_.length = v.size_) (hn : v.used_ < n)
    (hs : (Resize E w v n).status ≠ .ok) :
    ((Resize E w v n).status = .threw .element ∨
      (Resize E w v n).status = .threw .bad_alloc) ∧
    (Resize E w v n).st.used_ = v.used_ ∧
    (Resize E w v n).st.size_ = v.size_ ∧
    ∀ i, i < v.used_ → slot (Resize E w v n).st.data_ i = slot v.data_ i := by
  have h1 : ¬ n ≤ v.used_ := by omega
  by_cases h2 : n ≤ v.size_
  · have hspec := defaultLoop_spec E w v.used_ n v.data_ (by omega) (by omega)
    rw [Resize_inplace E w v n h1 h2] at hs ⊢
    generalize defaultLoop E n (n - v.used_) w (v.used_, v.data_) = L at hspec hs ⊢
    obtain ⟨hst, ⟨_, _, _, hlo, _, _⟩, _⟩ := hspec
    by_cases hL : L.status = .ok
    · rw [if_pos hL] at hs
      exact absurd rfl hs
    · rw [if_neg hL]
      refine ⟨?_, rfl, rfl, ?_⟩
      · cases hst with
        | inl h => exact absurd h hL
        | inr h => exact Or.inl h
      · intro i hi
        show slot (DestroyRange L.st.2 v.used_ L.st.1) i = slot v.data_ i
        rw [DestroyRange_below _ _ _ _ hi]
        exact hlo i hi
  · have hm := moveAll_spec E v.data_ (rawBlock n) v.used_
    have hspec := defaultLoop_spec E (E.alloc w n).1 v.used_ n
      (moveAll E v.data_ (rawBlock n) v.used_).2 (by omega)
      (by rw [hm.2.1]; simp [rawBlock])
    rw [Resize_grow E w v n h1 h2] at hs ⊢
    generalize defaultLoop E n (n - v.used_) (E.alloc w n).1
      (v.used_, (moveAll E v.data_ (rawBlock n) v.used_).2) = L at hspec hs ⊢
    obtain ⟨hst, ⟨_, _, _, hlo, _, _⟩, _⟩ := hspec
    by_cases ha : (E.alloc w n).2 = true
    · rw [if_pos ha] at hs ⊢
      by_cases hL : L.status = .ok
      · rw [if_pos hL] at hs
        exact absurd rfl hs
      · rw [if_neg hL]
        refine ⟨?_, rfl, rfl, ?_⟩
        · cases hst with
          | inl h => exact absurd h hL
          | inr h => exact Or.inl h
        · intro i hi
          show slot (moveAll E L.st.2 (moveAll E v.data_ (rawBlock n) v.used_).1 v.used_).2 i
            = slot v.data_ i
          rw [(moveAll_spec E L.st.2 (moveAll E v.data_ (rawBlock n) v.used_).1
            v.used_).2.2.2 i, hm.1]
          rw [if_pos ⟨hi, by omega⟩, hlo i hi, hm.2.2.2 i]
          have : i < v.used_ ∧ i < (rawBlock n : List (Option α)).length := by
            simp only [rawBlock, List.length_replicate]
            omega
          rw [if_pos this]
    · rw [if_neg ha]
      exact ⟨Or.inr rfl, rfl, rfl, fun _ _ => rfl⟩

end Rollback

section Sequences

variable {σ α : Type}

/-- One `PushBack` or `PopBack` on a vector with `used_ <= size_` whose block has `size_`
slots: the vector is again of that form; a `PushBack` that returns adds one to the length
and one that throws changes nothing; a `PopBack` that returns takes one off the length and
one that throws changes nothing and found the vector empty. -/
theorem runCall_step (E : ElemOps σ α) (c : Call α) (w : σ) (u : Vector α)
    (hinv : u.used_ ≤ u.size_) (hblock : u.data_.length = u.size_) :
    (runCall E c w u).st.used_ ≤ (runCall E c w u).st.size_ ∧
    (runCall E c w u).st.data_.length = (runCall E c w u).st.size_ ∧
    (c.isAppend = true →
      ((runCall E c w u).status = .ok → (runCall E c w u).st.used_ = u.used_ + 1) ∧
      ((runCall E c w u).status ≠ .ok → (runCall E c w u).st = u)) ∧
    (c.isAppend = false →
      ((runCall E c w u).status = .ok → (runCall E c w u).st.used_ + 1 = u.used_) ∧
      ((runCall E c w u).status ≠ .ok → (runCall E c w u).st = u ∧ u.used_ = 0)) := by
  cases c with
  | pushBackCopy x =>
    rw [show runCall E (Call.pushBackCopy x) w u = PushBack E w u x from rfl]
    obtain ⟨_, hfail, hok⟩ := PushBack_spec E w u x hinv hblock
    refine ⟨?_, ?_, fun _ => ⟨fun hs => (hok hs).1, hfail⟩, fun h => by simp [Call.isAppend] at h⟩
    · by_cases hs : (PushBack E w u x).status = .ok
      · exact (hok hs).2.1
      · rw [hfail hs]; exact hinv
    · by_cases hs : (PushBack E w u x).status = .ok
      · exact (hok hs).2.2.1
      · rw [hfail hs]; exact hblock
  | pushBackMove x =>
    rw [show runCall E (Call.pushBackMove x) w u = PushBackMove E w u x from rfl]
    obtain ⟨_, hfail, hok⟩ := PushBackAux_spec E 1 w u (some x) hinv hblock
    simp only [Nat.reduceAdd] at hfail hok
    refine ⟨?_, ?_, fun _ => ⟨fun hs => (hok hs).1, hfail⟩, fun h => by simp [Call.isAppend] at h⟩
    · by_cases hs : (PushBackMove E w u x).status = .ok
      · exact (hok hs).2.1
      · have := hfail hs
        unfold PushBackMove
        rw [this]; exact hinv
    · by_cases hs : (PushBackMove E w u x).status = .ok
      · exact (hok hs).2.2.1
      · have := hfail hs
        unfold PushBackMove
        rw [this]; exact hblock
  | popBack =>
    rw [show runCall E (Call.popBack : Call α) w u = PopBack w u from rfl]
    by_cases h0 : u.used_ = 0
    · have he : PopBack w u = ⟨w, u, .threw .underflow_error⟩ := by
        simp [PopBack, Empty, h0]
      rw [he]
      exact ⟨hinv, hblock, fun h => by simp [Call.isAppend] at h,
        fun _ => ⟨fun hs => by simp at hs, fun _ => ⟨rfl, h0⟩⟩⟩
    · rw [PopBack_nonempty w u h0]
      refine ⟨?_, ?_, fun h => by simp [Call.isAppend] at h,
        fun _ => ⟨fun _ => ?_, fun hs => absurd rfl hs⟩⟩
      · show u.used_ - 1 ≤ u.size_
        omega
      · show (Destroy u.data_ (u.used_ - 1)).length = u.size_
        simp [Destroy, hblock]
      · show u.used_ - 1 + 1 = u.used_
        omega

/-- Along a sequence of `PushBack` and `PopBack` calls the length grows by the number of
`PushBack` calls that returned and shrinks by the number of `PopBack` calls that
returned, and the vector keeps `used_ <= size_` and a block of `size_` slots. -/
theorem runCalls_length (E : ElemOps σ α) (cs : List (Call α)) :
    ∀ (w : σ) (u : Vector α), u.used_ ≤ u.size_ → u.data_.length = u.size_ →
      (runCalls E cs w u).2.used_ ≤ (runCalls E cs w u).2.size_ ∧
      (runCalls E cs w u).2.data_.length = (runCalls E cs w u).2.size_ ∧
      (runCalls E cs w u).2.used_ + returnedPops E cs w u =
        u.used_ + returnedAppends E cs w u := by
  induction cs with
  | nil =>
    intro w u hinv hblock
    exact ⟨hinv, hblock, rfl⟩
  | cons c cs ih =>
    intro w u hinv hblock
    obtain ⟨h1, h2, happ, hpop⟩ := runCall_step E c w u hinv hblock
    obtain ⟨i1, i2, i3⟩ := ih (runCall E c w u).world (runCall E c w u).st h1 h2
    refine ⟨i1, i2, ?_⟩
    show (runCalls E cs (runCall E c w u).world (runCall E c w u).st).2.used_ +
        ((if c.isAppend = false ∧ (runCall E c w u).status = .ok then 1 else 0) +
          returnedPops E cs (runCall E c w u).world (runCall E c w u).st) =
      u.used_ + ((if c.isAppend = true ∧ (runCall E c w u).status = .ok then 1 else 0) +
          returnedAppends E cs (runCall E c w u).world (runCall E c w u).st)
    cases hc : c.isAppend with
    | true =>
      obtain ⟨hok, hfail⟩ := happ hc
      by_cases hs : (runCall E c w u).status = .ok
      · have := hok hs
        simp only [hs, and_true, if_true]
        simp only [Bool.true_eq_false, if_false]
        omega
      · have := hfail hs
        rw [this] at i3 ⊢
        simp only [hs, and_false, if_false]
        omega
    | false =>
      obtain ⟨hok, hfail⟩ := hpop hc
      by_cases hs : (runCall E c w u).status = .ok
      · have := hok hs
        simp only [hs, and_true, if_true]
        simp only [Bool.false_eq_true, if_false]
        omega
      · have := (hfail hs).1
        rw [this] at i3 ⊢
        simp only [hs, and_false, if_false]
        omega

/-- With an element type whose copies never throw and an allocator that never fails, every
`PushBack` returns. -/
theorem append_returns (E : ElemOps σ α) (hcopy : ∀ w x, (E.copyCtor w x).2 = true)
    (halloc : ∀ w n, (E.alloc w n).2 = true) (c : Call α) (hc : c.isAppend = true) (w : σ)
    (u : Vector α) : (runCall E c w u).status = .ok := by
  have hmove : ∀ (w1 : σ) (x : α), (PushBackMove E w1 u x).status = .ok := by
    intro w1 x
    by_cases h : u.used_ = u.size_
    · exact ((PushBackAux_full E 1 w1 u (some x) h).2 (halloc _ _)).2.1
    · show (PushBackAux E (2 + 1) w1 u (some x)).status = .ok
      rw [PushBackAux_fits E 2 w1 u (some x) h]
  cases c with
  | popBack => simp [Call.isAppend] at hc
  | pushBackMove x => exact hmove w x
  | pushBackCopy x =>
    show (PushBack E w u x).status = .ok
    unfold PushBack
    simp only [hcopy w x, if_true]
    exact hmove _ x

theorem returnedAppends_all (E : ElemOps σ α) (hcopy : ∀ w x, (E.copyCtor w x).2 = true)
    (halloc : ∀ w n, (E.alloc w n).2 = true) (cs : List (Call α)) :
    ∀ (w : σ) (u : Vector α),
      returnedAppends E cs w u = (cs.filter Call.isAppend).length := by
  induction cs with
  | nil => intro w u; rfl
  | cons c cs ih =>
    intro w u
    show (if c.isAppend = true ∧ (runCall E c w u).status = .ok then 1 else 0) +
        returnedAppends E cs (runCall E c w u).world (runCall E c w u).st = _
    rw [ih]
    cases hc : c.isAppend with
    | true =>
      have := append_returns E hcopy halloc c hc w u
      simp [this, List.filter_cons, hc]
      omega
    | false =>
      simp [List.filter_cons, hc]

end Sequences

section Constructors

variable {σ α : Type}

theorem constructDefault_ok (E : ElemOps σ α) (w : σ) (s : Nat × List (Option α))
    (h : (E.defaultCtor w).2 = true) :
    constructDefault E w s =
      ⟨(E.defaultCtor w).1, (s.1 + 1, Construct s.2 s.1 (some E.defaultValue)), .ok⟩ := by
  simp [constructDefault, h]

theorem constructDefault_fail (E : ElemOps σ α) (w : σ) (s : Nat × List (Option α))
    (h : (E.defaultCtor w).2 = false) :
    constructDefault E w s = ⟨(E.defaultCtor w).1, s, .threw .element⟩ := by
  simp [constructDefault, h]

theorem VectorCtor_eq_loop (E : ElemOps σ α) (w : σ) (n : Nat) :
    VectorCtor E w n =
      if (VectorBufCtor E w n).status = .ok then
        whileLoop (fun v : Vector α => decide (v.used_ < v.size_)) (defaultElement E)
          n (VectorBufCtor E w n).world (VectorBufCtor E w n).st
      else VectorBufCtor E w n := rfl

/-- The constructor `Vector(size)`: it returns, throws `bad_alloc` or throws the exception
of `T{}`; when it returns, capacity and length are `size`, the block has `size` slots and
every element is the default value. -/
theorem VectorCtor_spec (E : ElemOps σ α) (w : σ) (n : Nat) :
    ((VectorCtor E w n).status = .ok ∨ (VectorCtor E w n).status = .threw .bad_alloc ∨
      (VectorCtor E w n).status = .threw .element) ∧
    ((VectorCtor E w n).status = .ok →
      (VectorCtor E w n).st.size_ = n ∧
      (VectorCtor E w n).st.used_ = n ∧
      (VectorCtor E w n).st.data_.length = n ∧
      ∀ i, i < n → slot (VectorCtor E w n).st.data_ i = some E.defaultValue) := by
  obtain ⟨hb1, hb2, _⟩ := VectorBufCtor_spec E w n
  rw [VectorCtor_eq_loop]
  by_cases hbs : (VectorBufCtor E w n).status = .ok
  · rw [if_pos hbs, hb2 hbs]
    have hloop := whileLoop_spec (fun v : Vector α => decide (v.used_ < v.size_))
      (defaultElement E)
      (fun _ s => s.size_ = n ∧ s.used_ ≤ n ∧ s.data_.length = n ∧
        ∀ i, i < s.used_ → slot s.data_ i = some E.defaultValue)
      (fun r => r.status = .threw .element)
      (fun s => n - s.used_)
      (by
        intro w1 s hP hc
        simp only [decide_eq_true_eq] at hc
        show 0 < n - s.used_
        have := hP.1
        omega)
      (by
        intro w1 s hP hc
        obtain ⟨h1, h2, h3, h4⟩ := hP
        simp only [decide_eq_true_eq] at hc
        unfold defaultElement
        cases hd : (E.defaultCtor w1).2 with
        | true =>
          rw [constructDefault_ok E w1 _ hd]
          refine ⟨fun _ => ⟨⟨h1, ?_, ?_, ?_⟩, ?_⟩, fun h => absurd rfl h⟩
          · show s.used_ + 1 ≤ n
            omega
          · show (Construct s.data_ s.used_ (some E.defaultValue)).length = n
            simp [Construct, h3]
          · intro i hi
            have hi2 : i < s.used_ + 1 := hi
            show slot (Construct s.data_ s.used_ (some E.defaultValue)) i = _
            by_cases his : i = s.used_
            · subst his
              rw [Construct, slot_set_eq _ _ _ (by omega)]
            · rw [Construct, slot_set_ne _ _ _ _ (fun h => his h.symm)]
              exact h4 i (by omega)
          · show n - (s.used_ + 1) < n - s.used_
            omega
        | false =>
          rw [constructDefault_fail E w1 _ hd]
          exact ⟨fun h => by simp at h, fun _ => rfl⟩)
      n (VectorBufCtor E w n).world ⟨n, 0, rawBlock n⟩
      ⟨rfl, Nat.zero_le _, by simp [rawBlock], fun i hi => by
        have : i < 0 := hi
        omega⟩
      (Nat.le_refl _)
    generalize whileLoop (fun v : Vector α => decide (v.used_ < v.size_)) (defaultElement E)
      n (VectorBufCtor E w n).world ⟨n, 0, rawBlock n⟩ = R at hloop ⊢
    by_cases hs : R.status = .ok
    · obtain ⟨⟨h1, h2, h3, h4⟩, hc⟩ := hloop.1 hs
      simp only [decide_eq_false_iff_not, Nat.not_lt] at hc
      have hu : R.st.used_ = n := by omega
      exact ⟨Or.inl hs, fun _ => ⟨h1, hu, h3, fun i hi => h4 i (by omega)⟩⟩
    · exact ⟨Or.inr (Or.inr (hloop.2 hs)), fun h => absurd h hs⟩
  · rw [if_neg hbs]
    cases hb1 with
    | inl h => exact absurd h hbs
    | inr h => exact ⟨Or.inr (Or.inl h), fun h2 => absurd h2 hbs⟩

theorem uninitializedFill_eq_loop (E : ElemOps σ α) (w : σ) (p : List (Option α))
    (first last : Nat) (value : α) :
    uninitializedFill E w p first last value =
      if (whileLoop (fun s : Nat × List (Option α) => decide (s.1 ≠ last))
          (fillElement E value) (last - first) w (first, p)).status = .ok then
        ⟨(whileLoop (fun s : Nat × List (Option α) => decide (s.1 ≠ last))
            (fillElement E value) (last - first) w (first, p)).world,
          (whileLoop (fun s : Nat × List (Option α) => decide (s.1 ≠ last))
            (fillElement E value) (last - first) w (first, p)).st.2, .ok⟩
      else
        ⟨(whileLoop (fun s : Nat × List (Option α) => decide (s.1 ≠ last))
            (fillElement E value) (last - first) w (first, p)).world,
          DestroyRange (whileLoop (fun s : Nat × List (Option α) => decide (s.1 ≠ last))
              (fillElement E value) (last - first) w (first, p)).st.2 first
            (whileLoop (fun s : Nat × List (Option α) => decide (s.1 ≠ last))
              (fillElement E value) (last - first) w (first, p)).st.1,
          (whileLoop (fun s : Nat × List (Option α) => decide (s.1 ≠ last))
            (fillElement E value) (last - first) w (first, p)).status⟩ := rfl

/-- The library call `std::uninitialized_fill(p, p + n, value)` on a block of `n` slots: it
returns or throws the exception of a copy; when it returns, the block has `n` slots that
all hold `value`. -/
theorem uninitializedFill_spec (E : ElemOps σ α) (w : σ) (p : List (Option α)) (n : Nat)
    (value : α) (hp : p.length = n) :
    ((uninitializedFill E w p 0 n value).status = .ok ∨
      (uninitializedFill E w p 0 n value).status = .threw .element) ∧
    ((uninitializedFill E w p 0 n value).status = .ok →
      (uninitializedFill E w p 0 n value).st.length = n ∧
      ∀ i, i < n → slot (uninitializedFill E w p 0 n value).st i = some value) := by
  have hloop := whileLoop_spec (fun s : Nat × List (Option α) => decide (s.1 ≠ n))
    (fillElement E value)
    (fun _ s => s.1 ≤ n ∧ s.2.length = n ∧ ∀ i, i < s.1 → slot s.2 i = some value)
    (fun r => r.status = .threw .element)
    (fun s => n - s.1)
    (by
      intro w1 s hP hc
      simp only [decide_eq_true_eq] at hc
      show 0 < n - s.1
      have := hP.1
      omega)
    (by
      intro w1 s hP hc
      obtain ⟨h1, h2, h3⟩ := hP
      simp only [decide_eq_true_eq] at hc
      obtain ⟨_, hok, hbad⟩ := ConstructCopy_outcome E w1 s.2 s.1 (some value)
      unfold fillElement
      cases hco : (copyOutcome E w1 (some value)).2 with
      | true =>
        obtain ⟨hst, hdata⟩ := hok hco
        refine ⟨fun _ => ⟨⟨?_, ?_, ?_⟩, ?_⟩, fun h => absurd hst h⟩
        · show (if _ then s.1 + 1 else s.1) ≤ n
          rw [if_pos hst]
          omega
        · show (ConstructCopy E w1 s.2 s.1 (some value)).st.length = n
          rw [hdata]
          simp [h2]
        · intro i hi
          have hi2 : i < s.1 + 1 := by
            have : i < (if (ConstructCopy E w1 s.2 s.1 (some value)).status = .ok
                then s.1 + 1 else s.1) := hi
            rwa [if_pos hst] at this
          show slot (ConstructCopy E w1 s.2 s.1 (some value)).st i = _
          rw [hdata]
          by_cases his : i = s.1
          · subst his
            rw [slot_set_eq _ _ _ (by omega)]
          · rw [slot_set_ne _ _ _ _ (fun h => his h.symm)]
            exact h3 i (by omega)
        · show n - (if _ then s.1 + 1 else s.1) < n - s.1
          rw [if_pos hst]
          omega
      | false =>
        have hst := hbad hco
        exact ⟨fun h => by
          have h2 : (ConstructCopy E w1 s.2 s.1 (some value)).status = .ok := h
          rw [hst] at h2
          exact absurd h2 (by simp), fun _ => hst⟩)
    (n - 0) w (0, p)
    ⟨Nat.zero_le _, hp, fun i hi => by
      have : i < 0 := hi
      omega⟩
    (by simp)
  rw [uninitializedFill_eq_loop]
  generalize whileLoop (fun s : Nat × List (Option α) => decide (s.1 ≠ n))
    (fillElement E value) (n - 0) w (0, p) = R at hloop ⊢
  by_cases hs : R.status = .ok
  · obtain ⟨⟨h1, h2, h3⟩, hc⟩ := hloop.1 hs
    simp only [ne_eq, decide_not, Bool.not_eq_false', decide_eq_true_eq] at hc
    rw [if_pos hs]
    exact ⟨Or.inl rfl, fun _ => ⟨h2, fun i hi => h3 i (by omega)⟩⟩
  · rw [if_neg hs]
    exact ⟨Or.inr (hloop.2 hs), fun h => absurd h hs⟩

/-- The constructor `Vector(size, value)`: it returns, throws `bad_alloc` or throws the
exception of a copy; when it returns, capacity and length are `size`, the block has `size`
slots and every element is `value`. -/
theorem VectorCtorFill_spec (E : ElemOps σ α) (w : σ) (n : Nat) (x : α) :
    ((VectorCtorFill E w n x).status = .ok ∨ (VectorCtorFill E w n x).status = .threw .bad_alloc ∨
      (VectorCtorFill E w n x).status = .threw .element) ∧
    ((VectorCtorFill E w n x).status = .ok →
      (VectorCtorFill E w n x).st.size_ = n ∧
      (VectorCtorFill E w n x).st.used_ = n ∧
      (VectorCtorFill E w n x).st.data_.length = n ∧
      ∀ i, i < n → slot (VectorCtorFill E w n x).st.data_ i = some x) := by
  obtain ⟨hb1, hb2, _⟩ := VectorBufCtor_spec E w n
  have hV : VectorCtorFill E w n x =
      if (VectorBufCtor E w n).status = .ok then
        if (uninitializedFill E (VectorBufCtor E w n).world (VectorBufCtor E w n).st.data_ 0
            (VectorBufCtor E w n).st.size_ x).status = .ok then
          ⟨(uninitializedFill E (VectorBufCtor E w n).world (VectorBufCtor E w n).st.data_ 0
              (VectorBufCtor E w n).st.size_ x).world,
            ⟨(VectorBufCtor E w n).st.size_, (VectorBufCtor E w n).st.size_,
              (uninitializedFill E (VectorBufCtor E w n).world (VectorBufCtor E w n).st.data_ 0
                (VectorBufCtor E w n).st.size_ x).st⟩, .ok⟩
        else
          ⟨(uninitializedFill E (VectorBufCtor E w n).world (VectorBufCtor E w n).st.data_ 0
              (VectorBufCtor E w n).st.size_ x).world,
            ⟨(VectorBufCtor E w n).st.size_, (VectorBufCtor E w n).st.used_,
              (uninitializedFill E (VectorBufCtor E w n).world (VectorBufCtor E w n).st.data_ 0
                (VectorBufCtor E w n).st.size_ x).st⟩,
            (uninitializedFill E (VectorBufCtor E w n).world (VectorBufCtor E w n).st.data_ 0
              (VectorBufCtor E w n).st.size_ x).status⟩
      else VectorBufCtor E w n := rfl
  rw [hV]
  by_cases hbs : (VectorBufCtor E w n).status = .ok
  · rw [if_pos hbs, hb2 hbs]
    have hf := uninitializedFill_spec E (VectorBufCtor E w n).world (rawBlock n) n x
      (by simp [rawBlock])
    generalize uninitializedFill E (VectorBufCtor E w n).world (rawBlock n) 0 n x = F at hf ⊢
    show ((if F.status = .ok then (⟨F.world, ⟨n, n, F.st⟩, .ok⟩ : Res σ (Vector α))
        else ⟨F.world, ⟨n, 0, F.st⟩, F.status⟩).status = .ok ∨ _ ∨ _) ∧ _
    by_cases hs : F.status = .ok
    · rw [if_pos hs]
      exact ⟨Or.inl rfl, fun _ => ⟨rfl, rfl, (hf.2 hs).1, (hf.2 hs).2⟩⟩
    · rw [if_neg hs]
      cases hf.1 with
      | inl h => exact absurd h hs
      | inr h => exact ⟨Or.inr (Or.inr h), fun h2 => absurd h2 hs⟩
  · rw [if_neg hbs]
    cases hb1 with
    | inl h => exact absurd h hbs
    | inr h => exact ⟨Or.inr (Or.inl h), fun h2 => absurd h2 hbs⟩

theorem uninitializedCopyLoop_nil (E : ElemOps σ α) (w : σ) (s : Nat × List (Option α)) :
    uninitializedCopyLoop E [] w s = ⟨w, s, .ok⟩ := rfl

theorem uninitializedCopyLoop_cons (E : ElemOps σ α) (x : α) (xs : List α) (w : σ)
    (s : Nat × List (Option α)) :
    uninitializedCopyLoop E (x :: xs) w s =
      if (ConstructCopy E w s.2 s.1 (some x)).status = .ok then
        uninitializedCopyLoop E xs (ConstructCopy E w s.2 s.1 (some x)).world
          (s.1 + 1, (ConstructCopy E w s.2 s.1 (some x)).st)
      else
        ⟨(ConstructCopy E w s.2 s.1 (some x)).world,
          (s.1, (ConstructCopy E w s.2 s.1 (some x)).st),
          (ConstructCopy E w s.2 s.1 (some x)).status⟩ := rfl

/-- The loop of `std::uninitialized_copy` into a block with room for the range: it
returns or throws the exception of a copy; when it returns, the destination index has
advanced by the length of the range, the slots below the start are untouched and the slots
from the start on hold the elements of the range in order. -/
theorem uninitializedCopyLoop_spec (E : ElemOps σ α) (xs : List α) :
    ∀ (w : σ) (s : Nat × List (Option α)), s.1 + xs.length ≤ s.2.length →
      ((uninitializedCopyLoop E xs w s).status = .ok ∨
        (uninitializedCopyLoop E xs w s).status = .threw .element) ∧
      ((uninitializedCopyLoop E xs w s).status = .ok →
        (uninitializedCopyLoop E xs w s).st.2.length = s.2.length ∧
        (∀ i, i < s.1 → slot (uninitializedCopyLoop E xs w s).st.2 i = slot s.2 i) ∧
        (∀ i, i < xs.length →
          slot (uninitializedCopyLoop E xs w s).st.2 (s.1 + i) = xs[i]?)) := by
  induction xs with
  | nil =>
    intro w s _
    rw [uninitializedCopyLoop_nil]
    exact ⟨Or.inl rfl, fun _ => ⟨rfl, fun _ _ => rfl, fun i hi => by simp at hi⟩⟩
  | cons x xs ih =>
    intro w s hlen
    simp only [List.length_cons] at hlen
    obtain ⟨_, hok, hbad⟩ := ConstructCopy_outcome E w s.2 s.1 (some x)
    rw [uninitializedCopyLoop_cons]
    cases hco : (copyOutcome E w (some x)).2 with
    | true =>
      obtain ⟨hst, hdata⟩ := hok hco
      rw [if_pos hst]
      obtain ⟨i1, i2⟩ := ih (ConstructCopy E w s.2 s.1 (some x)).world
        (s.1 + 1, (ConstructCopy E w s.2 s.1 (some x)).st)
        (by
          show s.1 + 1 + xs.length ≤ (ConstructCopy E w s.2 s.1 (some x)).st.length
          rw [hdata]
          simp only [List.length_set]
          omega)
      refine ⟨i1, fun hs => ?_⟩
      obtain ⟨j1, j2, j3⟩ := i2 hs
      refine ⟨?_, ?_, ?_⟩
      · rw [j1]
        show (ConstructCopy E w s.2 s.1 (some x)).st.length = s.2.length
        rw [hdata]
        simp
      · intro i hi
        rw [j2 i (by show i < s.1 + 1; omega)]
        show slot (ConstructCopy E w s.2 s.1 (some x)).st i = slot s.2 i
        rw [hdata, slot_set_ne _ _ _ _ (by omega)]
      · intro i hi
        cases i with
        | zero =>
          have h0 := j2 s.1 (by show s.1 < s.1 + 1; omega)
          show slot _ s.1 = _
          rw [h0]
          show slot (ConstructCopy E w s.2 s.1 (some x)).st s.1 = _
          rw [hdata, slot_set_eq _ _ _ (by omega)]
          simp
        | succ i =>
          have := j3 i (by simp only [List.length_cons] at hi; omega)
          have h2 : s.1 + (i + 1) = s.1 + 1 + i := by omega
          rw [h2]
          simpa using this
    | false =>
      have hst := hbad hco
      rw [if_neg (by rw [hst]; simp)]
      exact ⟨Or.inr hst, fun h => by
        have h2 : (ConstructCopy E w s.2 s.1 (some x)).status = .ok := h
        rw [hst] at h2
        exact absurd h2 (by simp)⟩

/-- The constructor `Vector(first, last)` on a range with elements `xs`: it returns, throws
`bad_alloc` or throws the exception of a copy; when it returns, capacity and length are
the length of the range, and the elements are those of the range in order. -/
theorem VectorCtorRange_spec (E : ElemOps σ α) (w : σ) (xs : List α) :
    ((VectorCtorRange E w xs).status = .ok ∨
      (VectorCtorRange E w xs).status = .threw .bad_alloc ∨
      (VectorCtorRange E w xs).status = .threw .element) ∧
    ((VectorCtorRange E w xs).status = .ok →
      (VectorCtorRange E w xs).st.size_ = xs.length ∧
      (VectorCtorRange E w xs).st.used_ = xs.length ∧
      (VectorCtorRange E w xs).st.data_.length = xs.length ∧
      ∀ i, i < xs.length → slot (VectorCtorRange E w xs).st.data_ i = xs[i]?) := by
  obtain ⟨hb1, hb2, _⟩ := VectorBufCtor_spec E w xs.length
  have hV : VectorCtorRange E w xs =
      if (VectorBufCtor E w xs.length).status = .ok then
        if (uninitializedCopyLoop E xs (VectorBufCtor E w xs.length).world
            (0, (VectorBufCtor E w xs.length).st.data_)).status = .ok then
          ⟨(uninitializedCopyLoop E xs (VectorBufCtor E w xs.length).world
              (0, (VectorBufCtor E w xs.length).st.data_)).world,
            ⟨(VectorBufCtor E w xs.length).st.size_, (VectorBufCtor E w xs.length).st.size_,
              (uninitializedCopyLoop E xs (VectorBufCtor E w xs.length).world
                (0, (VectorBufCtor E w xs.length).st.data_)).st.2⟩, .ok⟩
        else
          ⟨(uninitializedCopyLoop E xs (VectorBufCtor E w xs.length).world
              (0, (VectorBufCtor E w xs.length).st.data_)).world,
            ⟨(VectorBufCtor E w xs.length).st.size_, (VectorBufCtor E w xs.length).st.used_,
              DestroyRange (uninitializedCopyLoop E xs (VectorBufCtor E w xs.length).world
                  (0, (VectorBufCtor E w xs.length).st.data_)).st.2 0
                (uninitializedCopyLoop E xs (VectorBufCtor E w xs.length).world
                  (0, (VectorBufCtor E w xs.length).st.data_)).st.1⟩,
            (uninitializedCopyLoop E xs (VectorBufCtor E w xs.length).world
              (0, (VectorBufCtor E w xs.length).st.data_)).status⟩
      else VectorBufCtor E w xs.length := by
    unfold VectorCtorRange uninitializedCopy
    simp only []
    by_cases hbs : (VectorBufCtor E w xs.length).status = .ok
    · rw [if_pos hbs, if_pos hbs]
      by_cases hl : (uninitializedCopyLoop E xs (VectorBufCtor E w xs.length).world
          (0, (VectorBufCtor E w xs.length).st.data_)).status = .ok
      · simp only [hl, if_true]
      · simp only [hl, if_false]
    · rw [if_neg hbs, if_neg hbs]
  rw [hV]
  by_cases hbs : (VectorBufCtor E w xs.length).status = .ok
  · rw [if_pos hbs, hb2 hbs]
    have hf := uninitializedCopyLoop_spec E xs (VectorBufCtor E w xs.length).world
      (0, rawBlock xs.length) (by simp [rawBlock])
    generalize uninitializedCopyLoop E xs (VectorBufCtor E w xs.length).world
      (0, rawBlock xs.length) = F at hf ⊢
    show ((if F.status = .ok then (⟨F.world, ⟨xs.length, xs.length, F.st.2⟩, .ok⟩ :
          Res σ (Vector α))
        else ⟨F.world, ⟨xs.length, 0, DestroyRange F.st.2 0 F.st.1⟩, F.status⟩).status = .ok
      ∨ _ ∨ _) ∧ _
    by_cases hs : F.status = .ok
    · rw [if_pos hs]
      obtain ⟨j1, _, j3⟩ := hf.2 hs
      refine ⟨Or.inl rfl, fun _ => ⟨rfl, rfl, ?_, ?_⟩⟩
      · show F.st.2.length = xs.length
        rw [j1]
        simp [rawBlock]
      · intro i hi
        have := j3 i hi
        simpa using this
    · rw [if_neg hs]
      cases hf.1 with
      | inl h => exact absurd h hs
      | inr h => exact ⟨Or.inr (Or.inr h), fun h2 => absurd h2 hs⟩
  · rw [if_neg hbs]
    cases hb1 with
    | inl h => exact absurd h hbs
    | inr h => exact ⟨Or.inr (Or.inl h), fun h2 => absurd h2 hbs⟩

/-- The loop of `Vector(size)` returns exactly when the default constructions it still has
to make all return. -/
theorem VectorCtor_loop_returns (E : ElemOps σ α) (n : Nat) (w : σ) (v : Vector α)
    (hsz : v.size_ = n) (hu : v.used_ ≤ n) :
    (whileLoop (fun v : Vector α => decide (v.used_ < v.size_)) (defaultElement E)
        (n - v.used_) w v).status = .ok ↔ defaultsReturn E (n - v.used_) w = true := by
  have hloop := whileLoop_spec (fun v : Vector α => decide (v.used_ < v.size_))
    (defaultElement E)
    (fun w1 s => s.size_ = n ∧ s.used_ ≤ n ∧
      defaultsReturn E (n - s.used_) w1 = defaultsReturn E (n - v.used_) w)
    (fun _ => defaultsReturn E (n - v.used_) w = false)
    (fun s => n - s.used_)
    (by
      intro w1 s hP hc
      simp only [decide_eq_true_eq] at hc
      show 0 < n - s.used_
      have := hP.1
      omega)
    (by
      intro w1 s hP hc
      obtain ⟨h1, h2, h3⟩ := hP
      simp only [decide_eq_true_eq] at hc
      have hk : n - s.used_ = (n - (s.used_ + 1)) + 1 := by omega
      rw [hk, defaultsReturn] at h3
      unfold defaultElement
      cases hd : (E.defaultCtor w1).2 with
      | true =>
        rw [constructDefault_ok E w1 _ hd]
        rw [hd, Bool.true_and] at h3
        refine ⟨fun _ => ⟨⟨h1, ?_, h3⟩, ?_⟩, fun h => absurd rfl h⟩
        · show s.used_ + 1 ≤ n
          omega
        · show n - (s.used_ + 1) < n - s.used_
          omega
      | false =>
        rw [constructDefault_fail E w1 _ hd]
        rw [hd, Bool.false_and] at h3
        exact ⟨fun h => by simp at h, fun _ => h3.symm⟩)
    (n - v.used_) w v ⟨hsz, hu, rfl⟩ (Nat.le_refl _)
  generalize whileLoop (fun v : Vector α => decide (v.used_ < v.size_)) (defaultElement E)
    (n - v.used_) w v = R at hloop ⊢
  constructor
  · intro hs
    obtain ⟨⟨h1, h2, h3⟩, hc⟩ := hloop.1 hs
    simp only [decide_eq_false_iff_not, Nat.not_lt] at hc
    have hz : n - R.st.used_ = 0 := by omega
    rw [hz] at h3
    rw [← h3]
    rfl
  · intro hd
    by_cases hs : R.status = .ok
    · exact hs
    · have := hloop.2 hs
      rw [hd] at this
      exact absurd this (by simp)

/-- The constructor `Vector(size)` returns exactly when its block is obtained and the
`size` default constructions all return. -/
theorem VectorCtor_returns (E : ElemOps σ α) (w : σ) (n : Nat) :
    (VectorCtor E w n).status = .ok ↔
      (n = 0 ∨ (E.alloc w n).2 = true) ∧
        defaultsReturn E n (VectorBufCtor E w n).world = true := by
  obtain ⟨_, hb2, hb3⟩ := VectorBufCtor_spec E w n
  rw [VectorCtor_eq_loop]
  by_cases hbs : (VectorBufCtor E w n).status = .ok
  · rw [if_pos hbs, hb2 hbs]
    have h := VectorCtor_loop_returns E n (VectorBufCtor E w n).world ⟨n, 0, rawBlock n⟩ rfl
      (Nat.zero_le _)
    have h0 : n - (⟨n, 0, rawBlock n⟩ : Vector α).used_ = n := Nat.sub_zero n
    rw [h0] at h
    rw [h]
    exact ⟨fun hd => ⟨hb3.1 hbs, hd⟩, fun hd => hd.2⟩
  · rw [if_neg hbs]
    exact ⟨fun h => absurd h hbs, fun h => absurd (hb3.2 h.1) hbs⟩

/-- The loop of `std::uninitialized_fill` returns exactly when the copies of `value` it
still has to make all return. -/
theorem fillLoop_returns (E : ElemOps σ α) (value : α) (n : Nat) (w : σ)
    (s : Nat × List (Option α)) (hs1 : s.1 ≤ n) :
    (whileLoop (fun s : Nat × List (Option α) => decide (s.1 ≠ n)) (fillElement E value)
        (n - s.1) w s).status = .ok ↔
      copiesReturn E (List.replicate (n - s.1) value) w = true := by
  have hloop := whileLoop_spec (fun s : Nat × List (Option α) => decide (s.1 ≠ n))
    (fillElement E value)
    (fun w1 t => t.1 ≤ n ∧
      copiesReturn E (List.replicate (n - t.1) value) w1 =
        copiesReturn E (List.replicate (n - s.1) value) w)
    (fun _ => copiesReturn E (List.replicate (n - s.1) value) w = false)
    (fun t => n - t.1)
    (by
      intro w1 t hP hc
      simp only [decide_eq_true_eq] at hc
      show 0 < n - t.1
      have := hP.1
      omega)
    (by
      intro w1 t hP hc
      obtain ⟨h1, h3⟩ := hP
      simp only [decide_eq_true_eq] at hc
      have hk : n - t.1 = (n - (t.1 + 1)) + 1 := by omega
      rw [hk, List.replicate_succ, copiesReturn] at h3
      obtain ⟨hw, hok, hbad⟩ := ConstructCopy_outcome E w1 t.2 t.1 (some value)
      have hco : copyOutcome E w1 (some value) = E.copyCtor w1 value := rfl
      rw [hco] at hw hok hbad
      unfold fillElement
      cases hd : (E.copyCtor w1 value).2 with
      | true =>
        obtain ⟨hst, _⟩ := hok hd
        rw [hd, Bool.true_and] at h3
        refine ⟨fun _ => ⟨⟨?_, ?_⟩, ?_⟩, fun h => absurd hst h⟩
        · show (if _ then t.1 + 1 else t.1) ≤ n
          rw [if_pos hst]
          omega
        · show copiesReturn E (List.replicate (n - (if _ then t.1 + 1 else t.1)) value)
            (ConstructCopy E w1 t.2 t.1 (some value)).world = _
          rw [if_pos hst, hw]
          exact h3
        · show n - (if _ then t.1 + 1 else t.1) < n - t.1
          rw [if_pos hst]
          omega
      | false =>
        have hst := hbad hd
        rw [hd, Bool.false_and] at h3
        exact ⟨fun h => by
          have h2 : (ConstructCopy E w1 t.2 t.1 (some value)).status = .ok := h
          rw [hst] at h2
          exact absurd h2 (by simp), fun _ => h3.symm⟩)
    (n - s.1) w s ⟨hs1, rfl⟩ (Nat.le_refl _)
  generalize whileLoop (fun s : Nat × List (Option α) => decide (s.1 ≠ n)) (fillElement E value)
    (n - s.1) w s = R at hloop ⊢
  constructor
  · intro hs
    obtain ⟨⟨h1, h3⟩, hc⟩ := hloop.1 hs
    simp only [ne_eq, decide_not, Bool.not_eq_false', decide_eq_true_eq] at hc
    have hz : n - R.st.1 = 0 := by omega
    rw [hz] at h3
    rw [← h3]
    rfl
  · intro hd
    by_cases hs : R.status = .ok
    · exact hs
    · have := hloop.2 hs
      rw [hd] at this
      exact absurd this (by simp)

/-- The constructor `Vector(size, value)` returns exactly when its block is obtained and
the `size` copies of `value` all return. -/
theorem VectorCtorFill_returns (E : ElemOps σ α) (w : σ) (n : Nat) (x : α) :
    (VectorCtorFill E w n x).status = .ok ↔
      (n = 0 ∨ (E.alloc w n).2 = true) ∧
        copiesReturn E (List.replicate n x) (VectorBufCtor E w n).world = true := by
  obtain ⟨_, hb2, hb3⟩ := VectorBufCtor_spec E w n
  have hV : (VectorCtorFill E w n x).status =
      if (VectorBufCtor E w n).status = .ok then
        if (uninitializedFill E (VectorBufCtor E w n).world (VectorBufCtor E w n).st.data_ 0
            (VectorBufCtor E w n).st.size_ x).status = .ok then .ok
        else (uninitializedFill E (VectorBufCtor E w n).world (VectorBufCtor E w n).st.data_ 0
            (VectorBufCtor E w n).st.size_ x).status
      else (VectorBufCtor E w n).status := by
    unfold VectorCtorFill
    simp only []
    split
    · split <;> rfl
    · rfl
  rw [hV]
  by_cases hbs : (VectorBufCtor E w n).status = .ok
  · rw [if_pos hbs, hb2 hbs]
    have h := fillLoop_returns E x n (VectorBufCtor E w n).world (0, rawBlock n) (Nat.zero_le _)
    have hF : (uninitializedFill E (VectorBufCtor E w n).world (rawBlock n) 0 n x).status = .ok ↔
        (whileLoop (fun s : Nat × List (Option α) => decide (s.1 ≠ n)) (fillElement E x)
          (n - 0) (VectorBufCtor E w n).world (0, rawBlock n)).status = .ok := by
      rw [uninitializedFill_eq_loop]
      split
      · rename_i h1
        exact ⟨fun _ => h1, fun _ => rfl⟩
      · rename_i h1
        exact ⟨fun h2 => h2, fun h2 => absurd h2 h1⟩
    show (if (uninitializedFill E (VectorBufCtor E w n).world (rawBlock n) 0 n x).status = .ok
        then Status.ok
        else (uninitializedFill E (VectorBufCtor E w n).world (rawBlock n) 0 n x).status) = .ok
      ↔ _
    have h2 : (if (uninitializedFill E (VectorBufCtor E w n).world (rawBlock n) 0 n x).status
          = .ok then Status.ok
        else (uninitializedFill E (VectorBufCtor E w n).world (rawBlock n) 0 n x).status) = .ok
        ↔ (uninitializedFill E (VectorBufCtor E w n).world (rawBlock n) 0 n x).status = .ok := by
      split
      · rename_i h1
        exact ⟨fun _ => h1, fun _ => rfl⟩
      · exact Iff.rfl
    rw [h2, hF]
    have h0 : n - (0, (rawBlock n : List (Option α))).1 = n := Nat.sub_zero n
    rw [h0] at h
    rw [Nat.sub_zero, h]
    exact ⟨fun hd => ⟨hb3.1 hbs, hd⟩, fun hd => hd.2⟩
  · rw [if_neg hbs]
    exact ⟨fun h => absurd h hbs, fun h => absurd (hb3.2 h.1) hbs⟩

/-- The loop of `std::uninitialized_copy` returns exactly when the copies of the elements
of the range all return. -/
theorem uninitializedCopyLoop_returns (E : ElemOps σ α) (xs : List α) :
    ∀ (w : σ) (s : Nat × List (Option α)),
      (uninitializedCopyLoop E xs w s).status = .ok ↔ copiesReturn E xs w = true := by
  induction xs with
  | nil =>
    intro w s
    rw [uninitializedCopyLoop_nil]
    exact ⟨fun _ => rfl, fun _ => rfl⟩
  | cons x xs ih =>
    intro w s
    obtain ⟨hw, hok, hbad⟩ := ConstructCopy_outcome E w s.2 s.1 (some x)
    have hco : copyOutcome E w (some x) = E.copyCtor w x := rfl
    rw [hco] at hw hok hbad
    rw [uninitializedCopyLoop_cons, copiesReturn]
    cases hd : (E.copyCtor w x).2 with
    | true =>
      rw [if_pos (hok hd).1, ih, hw, Bool.true_and]
    | false =>
      have hst := hbad hd
      rw [if_neg (by rw [hst]; simp), Bool.false_and]
      show (ConstructCopy E w s.2 s.1 (some x)).status = .ok ↔ _
      rw [hst]
      simp

/-- The constructor `Vector(first, last)` returns exactly when its block is obtained and
the copies of the elements of the range all return. -/
theorem VectorCtorRange_returns (E : ElemOps σ α) (w : σ) (xs : List α) :
    (VectorCtorRange E w xs).status = .ok ↔
      (xs.length = 0 ∨ (E.alloc w xs.length).2 = true) ∧
        copiesReturn E xs (VectorBufCtor E w xs.length).world = true := by
  obtain ⟨_, _, hb3⟩ := VectorBufCtor_spec E w xs.length
  have hV : (VectorCtorRange E w xs).status =
      if (VectorBufCtor E w xs.length).status = .ok then
        if (uninitializedCopyLoop E xs (VectorBufCtor E w xs.length).world
            (0, (VectorBufCtor E w xs.length).st.data_)).status = .ok then .ok
        else (uninitializedCopyLoop E xs (VectorBufCtor E w xs.length).world
            (0, (VectorBufCtor E w xs.length).st.data_)).status
      else (VectorBufCtor E w xs.length).status := by
    unfold VectorCtorRange uninitializedCopy
    simp only []
    by_cases hbs : (VectorBufCtor E w xs.length).status = .ok
    · rw [if_pos hbs, if_pos hbs]
      by_cases hl : (uninitializedCopyLoop E xs (VectorBufCtor E w xs.length).world
          (0, (VectorBufCtor E w xs.length).st.data_)).status = .ok
      · simp only [hl, if_true]
      · simp only [hl, if_false]
    · rw [if_neg hbs, if_neg hbs]
  rw [hV]
  by_cases hbs : (VectorBufCtor E w xs.length).status = .ok
  · rw [if_pos hbs]
    have h := uninitializedCopyLoop_returns E xs (VectorBufCtor E w xs.length).world
      (0, (VectorBufCtor E w xs.length).st.data_)
    by_cases hl : (uninitializedCopyLoop E xs (VectorBufCtor E w xs.length).world
        (0, (VectorBufCtor E w xs.length).st.data_)).status = .ok
    · rw [if_pos hl]
      exact ⟨fun _ => ⟨hb3.1 hbs, h.1 hl⟩, fun _ => rfl⟩
    · rw [if_neg hl]
      exact ⟨fun h2 => absurd h2 hl, fun h2 => absurd (h.2 h2.2) hl⟩
  · rw [if_neg hbs]
    exact ⟨fun h => absurd h hbs, fun h => absurd (hb3.2 h.1) hbs⟩

end Constructors

section GrowthLaw

variable {σ α : Type}

theorem LeastPower_zero : LeastPower 0 0 :=
  ⟨0, by simp, by simp, fun _ _ => Nat.zero_le _⟩

theorem LeastPower_fits (n c : Nat) (h : LeastPower n c) (hlt : n < c) :
    LeastPower (n + 1) c := by
  obtain ⟨k, hc, _, hmin⟩ := h
  exact ⟨k, hc, by omega, fun j hj => hmin j (by omega)⟩

theorem LeastPower_grow (c : Nat) (h : LeastPower c c) : LeastPower (c + 1) (2 * c + 1) := by
  obtain ⟨k, hc, _, _⟩ := h
  have hpos : 1 ≤ 2 ^ k := Nat.one_le_two_pow
  have hsucc : 2 ^ (k + 1) = 2 * 2 ^ k := by rw [Nat.pow_succ]; omega
  refine ⟨k + 1, by omega, by omega, fun j hj => ?_⟩
  by_contra hcon
  have hjk : j ≤ k := by omega
  have := Nat.pow_le_pow_right (by decide : 0 < 2) hjk
  omega

/-- A `PushBack` that returns, on a vector with `used_ <= size_` whose block has `size_`
slots: the appended value is at the old length, the old elements are kept, and the
capacity is `2 * size_ + 1` if the vector was full and `size_` otherwise. -/
theorem append_step (E : ElemOps σ α) (c : Call α) (x : α) (w : σ) (u : Vector α)
    (hv : c.value = some x) (hinv : u.used_ ≤ u.size_) (hblock : u.data_.length = u.size_)
    (hs : (runCall E c w u).status = .ok) :
    (runCall E c w u).st.used_ = u.used_ + 1 ∧
    (∀ i, i < u.used_ → slot (runCall E c w u).st.data_ i = slot u.data_ i) ∧
    slot (runCall E c w u).st.data_ u.used_ = some x ∧
    (u.used_ = u.size_ → (runCall E c w u).st.size_ = 2 * u.size_ + 1) ∧
    (u.used_ ≠ u.size_ → (runCall E c w u).st.size_ = u.size_) := by
  have hmove : ∀ w1 : σ, (PushBackMove E w1 u x).status = .ok →
      (PushBackMove E w1 u x).st.used_ = u.used_ + 1 ∧
      (∀ i, i < u.used_ → slot (PushBackMove E w1 u x).st.data_ i = slot u.data_ i) ∧
      slot (PushBackMove E w1 u x).st.data_ u.used_ = some x ∧
      (u.used_ = u.size_ → (PushBackMove E w1 u x).st.size_ = 2 * u.size_ + 1) ∧
      (u.used_ ≠ u.size_ → (PushBackMove E w1 u x).st.size_ = u.size_) := by
    intro w1 hs1
    obtain ⟨_, _, hok⟩ := PushBackAux_spec E 1 w1 u (some x) hinv hblock
    simp only [Nat.reduceAdd] at hok
    obtain ⟨h1, _, _, h4, h5⟩ := hok hs1
    refine ⟨h1, h4, h5, fun heq => ?_, fun hne => ?_⟩
    · have hf := PushBackAux_full E 1 w1 u (some x) heq
      simp only [Nat.reduceAdd] at hf
      cases ha : (E.alloc w1 (2 * u.size_ + 1)).2 with
      | false =>
        have h2 : (PushBackMove E w1 u x).status = .threw .bad_alloc := by
          unfold PushBackMove
          rw [hf.1 ha]
        rw [h2] at hs1
        exact absurd hs1 (by simp)
      | true => exact (hf.2 ha).2.2.1
    · show (PushBackAux E (2 + 1) w1 u (some x)).st.size_ = u.size_
      rw [PushBackAux_fits E 2 w1 u (some x) hne]
  cases c with
  | popBack => simp [Call.value] at hv
  | pushBackMove y =>
    have hxy : y = x := by simpa [Call.value] using hv
    subst hxy
    exact hmove w hs
  | pushBackCopy y =>
    have hxy : y = x := by simpa [Call.value] using hv
    subst hxy
    rw [show runCall E (Call.pushBackCopy y) w u = PushBack E w u y from rfl] at hs ⊢
    have hP : PushBack E w u y =
        if (E.copyCtor w y).2 = true then PushBackMove E (E.copyCtor w y).1 u y
        else ⟨(E.copyCtor w y).1, u, .threw .element⟩ := rfl
    rw [hP] at hs ⊢
    by_cases hc : (E.copyCtor w y).2 = true
    · rw [if_pos hc] at hs ⊢
      exact hmove _ hs
    · rw [if_neg hc] at hs
      exact absurd hs (by simp)

/-- A sequence of `PushBack` calls that all return, started on a vector that obeys the
growth law: the law holds at the end, the length has grown by the number of calls, the old
elements are kept and the appended values follow in call order. -/
theorem runCalls_growth (E : ElemOps σ α) (cs : List (Call α)) :
    ∀ (w : σ) (u : Vector α), u.used_ ≤ u.size_ → u.data_.length = u.size_ →
      LeastPower u.used_ u.size_ → (∀ c ∈ cs, c.isAppend = true) →
      allReturn E cs w u = true →
      LeastPower (runCalls E cs w u).2.used_ (runCalls E cs w u).2.size_ ∧
      (runCalls E cs w u).2.used_ = u.used_ + cs.length ∧
      (∀ i, i < u.used_ → slot (runCalls E cs w u).2.data_ i = slot u.data_ i) ∧
      (∀ i, i < cs.length →
        slot (runCalls E cs w u).2.data_ (u.used_ + i) = (cs[i]?).bind Call.value) := by
  induction cs with
  | nil =>
    intro w u _ _ hlaw _ _
    exact ⟨hlaw, rfl, fun _ _ => rfl, fun i hi => by simp at hi⟩
  | cons c cs ih =>
    intro w u hinv hblock hlaw happ hall
    have hca : c.isAppend = true := happ c (by simp)
    obtain ⟨x, hx⟩ : ∃ x, c.value = some x := by
      cases c with
      | popBack => simp [Call.isAppend] at hca
      | pushBackMove y => exact ⟨y, rfl⟩
      | pushBackCopy y => exact ⟨y, rfl⟩
    have hall2 : (runCall E c w u).status = .ok ∧
        allReturn E cs (runCall E c w u).world (runCall E c w u).st = true := by
      have : (decide ((runCall E c w u).status = .ok) &&
          allReturn E cs (runCall E c w u).world (runCall E c w u).st) = true := hall
      simpa using this
    obtain ⟨hs, hrest⟩ := hall2
    obtain ⟨s1, s2, _, _⟩ := runCall_step E c w u hinv hblock
    obtain ⟨a1, a2, a3, a4, a5⟩ := append_step E c x w u hx hinv hblock hs
    have hlaw2 : LeastPower (runCall E c w u).st.used_ (runCall E c w u).st.size_ := by
      rw [a1]
      by_cases heq : u.used_ = u.size_
      · rw [a4 heq, heq]
        rw [heq] at hlaw
        exact LeastPower_grow _ hlaw
      · rw [a5 heq]
        exact LeastPower_fits _ _ hlaw (by omega)
    obtain ⟨i1, i2, i3, i4⟩ := ih (runCall E c w u).world (runCall E c w u).st s1 s2 hlaw2
      (fun c2 hc2 => happ c2 (List.mem_cons_of_mem _ hc2)) hrest
    show LeastPower (runCalls E cs (runCall E c w u).world (runCall E c w u).st).2.used_
        (runCalls E cs (runCall E c w u).world (runCall E c w u).st).2.size_ ∧
      (runCalls E cs (runCall E c w u).world (runCall E c w u).st).2.used_ =
        u.used_ + (cs.length + 1) ∧
      (∀ i, i < u.used_ →
        slot (runCalls E cs (runCall E c w u).world (runCall E c w u).st).2.data_ i =
          slot u.data_ i) ∧
      (∀ i, i < cs.length + 1 →
        slot (runCalls E cs (runCall E c w u).world (runCall E c w u).st).2.data_
          (u.used_ + i) = ((c :: cs)[i]?).bind Call.value)
    refine ⟨i1, by omega, fun i hi => ?_, fun i hi => ?_⟩
    · rw [i3 i (by omega)]
      exact a2 i hi
    · cases i with
      | zero =>
        show slot _ u.used_ = _
        rw [i3 u.used_ (by omega), a3]
        simp [hx]
      | succ i =>
        have := i4 i (by omega)
        rw [a1] at this
        have h2 : u.used_ + (i + 1) = u.used_ + 1 + i := by omega
        rw [h2, this]
        simp

end GrowthLaw

section Storage

variable {σ α : Type}

theorem length_store (h : Heap α) (p : Option Nat) (b : List (Option α)) :
    (store h p b).length = h.length := by
  cases p <;> simp [store]

theorem length_operatorDelete (h : Heap α) (p : Option Nat) :
    (operatorDelete h p).length = h.length := by
  cases p <;> simp [operatorDelete]

theorem length_operatorNew (h : Heap α) (n : Nat) :
    (operatorNew h n).1.length = h.length + 1 := by
  simp [operatorNew]

theorem getElem?_store (h : Heap α) (p : Option Nat) (b : List (Option α)) (a : Nat)
    (hne : p ≠ some a) : (store h p b)[a]? = h[a]? := by
  cases p with
  | none => rfl
  | some c =>
    have hca : c ≠ a := fun e => hne (by rw [e])
    simp [store, List.getElem?_set_ne hca]

theorem getElem?_operatorDelete (h : Heap α) (p : Option Nat) (a : Nat) (hne : p ≠ some a) :
    (operatorDelete h p)[a]? = h[a]? := by
  cases p with
  | none => rfl
  | some c =>
    have hca : c ≠ a := fun e => hne (by rw [e])
    simp [operatorDelete, List.getElem?_set_ne hca]

theorem getElem?_operatorNew (h : Heap α) (n a : Nat) (ha : a < h.length) :
    (operatorNew h n).1[a]? = h[a]? := by
  simp [operatorNew, List.getElem?_append_left ha]

theorem load_congr (h h1 : Heap α) (a : Nat) (he : h1[a]? = h[a]?) :
    load h1 (some a) = load h (some a) := by
  simp [load, List.getD_eq_getElem?_getD, he]

/-- Reading back the block just written: the pointer is an address of the heap, or it is
`nullptr` and nothing was there to write. -/
theorem load_store (h : Heap α) (p : Option Nat) (b : List (Option α))
    (hp : ∀ a, p = some a → a < h.length) (hb : p = none → b = []) :
    load (store h p b) p = b := by
  cases p with
  | none => exact (hb rfl).symm
  | some a =>
    have := hp a rfl
    simp [load, store, List.getD_eq_getElem?_getD, List.getElem?_set_self this]

theorem load_operatorNew (h : Heap α) (n : Nat) :
    load (operatorNew h n).1 (operatorNew h n).2 = rawBlock n := by
  simp [load, operatorNew, List.getD_eq_getElem?_getD]

/-- A block other than the one written is read as before. -/
theorem load_store_ne (h : Heap α) (p q : Option Nat) (b : List (Option α))
    (hne : p = none ∨ q ≠ p) : load (store h q b) p = load h p := by
  cases p with
  | none => rfl
  | some a =>
    rcases hne with e | e
    · exact absurd e (by simp)
    · exact load_congr _ _ a (getElem?_store h q b a e)

theorem load_operatorDelete_ne (h : Heap α) (p q : Option Nat) (hne : p = none ∨ q ≠ p) :
    load (operatorDelete h q) p = load h p := by
  cases p with
  | none => rfl
  | some a =>
    rcases hne with e | e
    · exact absurd e (by simp)
    · exact load_congr _ _ a (getElem?_operatorDelete h q a e)

theorem load_operatorNew_old (h : Heap α) (n : Nat) (p : Option Nat)
    (hp : ∀ a, p = some a → a < h.length) :
    load (operatorNew h n).1 p = load h p := by
  cases p with
  | none => rfl
  | some a => exact load_congr _ _ a (getElem?_operatorNew h n a (hp a rfl))

theorem Keeps_refl (h : Heap α) (v : VectorRep) (hv : InHeap h v) : Keeps h v h v :=
  ⟨Nat.le_refl _, fun _ _ _ => rfl, fun a ha => ⟨hv a ha, Or.inl ha⟩⟩

theorem Keeps_trans (h h1 h2 : Heap α) (v v1 v2 : VectorRep)
    (k1 : Keeps h v h1 v1) (k2 : Keeps h1 v1 h2 v2) : Keeps h v h2 v2 := by
  obtain ⟨a1, a2, a3⟩ := k1
  obtain ⟨b1, b2, b3⟩ := k2
  refine ⟨by omega, fun a ha hne => ?_, fun a ha => ?_⟩
  · have hne1 : v1.data_ ≠ some a := by
      intro e
      rcases (a3 a e).2 with e2 | e2
      · exact hne e2
      · omega
    rw [b2 a (by omega) hne1, a2 a ha hne]
  · obtain ⟨c1, c2⟩ := b3 a ha
    refine ⟨c1, ?_⟩
    rcases c2 with e | e
    · exact (a3 a e).2
    · exact Or.inr (by omega)

theorem Keeps_inHeap (h h1 : Heap α) (v v1 : VectorRep) (k : Keeps h v h1 v1) :
    InHeap h1 v1 := fun a ha => (k.2.2 a ha).1

/-- A block that is not the block of the vector, and was in the heap before the step, is
read as before after the step. -/
theorem Keeps_load (h h1 : Heap α) (v v1 : VectorRep) (k : Keeps h v h1 v1)
    (p : Option Nat) (hp : ∀ a, p = some a → a < h.length) (hne : p = none ∨ v.data_ ≠ p) :
    load h1 p = load h p := by
  cases p with
  | none => rfl
  | some a =>
    rcases hne with e | e
    · exact absurd e (by simp)
    · exact load_congr _ _ a (k.2.1 a (hp a rfl) e)

/-- Writing the block of the vector in place keeps to the storage of the vector. -/
theorem Keeps_store (h : Heap α) (v : VectorRep) (hv : InHeap h v) (b : List (Option α))
    (s u : Nat) : Keeps h v (store h v.data_ b) ⟨s, u, v.data_⟩ := by
  refine ⟨by rw [length_store], fun a _ hne => getElem?_store h _ b a hne, fun a ha => ?_⟩
  rw [length_store]
  exact ⟨hv a ha, Or.inl ha⟩

/-- Two loops whose states are related by `R`, with bodies that keep `R` and agree on the
oracle state and the status, end in related states with the same oracle state and status. -/
theorem whileLoop_sim {S T : Type} (R : S → T → Prop) (c1 : S → Bool) (c2 : T → Bool)
    (b1 : σ → S → Res σ S) (b2 : σ → T → Res σ T)
    (hc : ∀ s t, R s t → c1 s = c2 t)
    (hb : ∀ w s t, R s t → c1 s = true →
      (b1 w s).world = (b2 w t).world ∧ (b1 w s).status = (b2 w t).status ∧
      R (b1 w s).st (b2 w t).st) :
    ∀ n w s t, R s t →
      (whileLoop c1 b1 n w s).world = (whileLoop c2 b2 n w t).world ∧
      (whileLoop c1 b1 n w s).status = (whileLoop c2 b2 n w t).status ∧
      R (whileLoop c1 b1 n w s).st (whileLoop c2 b2 n w t).st := by
  intro n
  induction n with
  | zero =>
    intro w s t hR
    rw [whileLoop_zero, whileLoop_zero, ← hc s t hR]
    by_cases h : c1 s = true
    · rw [if_pos h, if_pos h]
      exact ⟨rfl, rfl, hR⟩
    · rw [if_neg h, if_neg h]
      exact ⟨rfl, rfl, hR⟩
  | succ n ih =>
    intro w s t hR
    rw [whileLoop_succ, whileLoop_succ, ← hc s t hR]
    by_cases h : c1 s = true
    · obtain ⟨e1, e2, e3⟩ := hb w s t hR h
      rw [if_pos h, if_pos h, ← e2]
      by_cases hs : (b1 w s).status = .ok
      · rw [if_pos hs, if_pos hs, ← e1]
        exact ih _ _ _ e3
      · rw [if_neg hs, if_neg hs]
        exact ⟨e1, e2, e3⟩
    · rw [if_neg h, if_neg h]
      exact ⟨rfl, rfl, hR⟩

theorem DestroyRange_length (p : List (Option α)) (first last : Nat) :
    (DestroyRange p first last).length = p.length := by
  unfold DestroyRange
  generalize List.range (last - first) = ks
  induction ks generalizing p with
  | nil => rfl
  | cons k ks ih =>
    rw [List.foldl_cons, ih]
    simp [Destroy]

theorem PopBack_tracks (w : σ) (h : Heap α) (v : VectorRep) (hv : InHeap h v) :
    Tracks h v (OnHeap.PopBack w (h, v)) (PopBack w (contents h v)) := by
  unfold OnHeap.PopBack PopBack Empty Tracks
  by_cases h0 : v.used_ = 0
  · simp [h0, contents, Keeps_refl h v hv]
  · simp only [contents, beq_iff_eq, h0, if_false]
    refine ⟨trivial, trivial, ?_, Keeps_store h v hv _ _ _⟩
    show (⟨_, _, _⟩ : Vector α) = ⟨_, _, _⟩
    rw [load_store h v.data_ _ hv (fun e => by rw [e]; simp [load, Destroy])]

theorem Clear_tracks (h : Heap α) (v : VectorRep) (hv : InHeap h v) :
    contents (OnHeap.Clear (h, v)).1 (OnHeap.Clear (h, v)).2 = Clear (contents h v) ∧
    Keeps h v (OnHeap.Clear (h, v)).1 (OnHeap.Clear (h, v)).2 := by
  unfold OnHeap.Clear Clear
  refine ⟨?_, Keeps_store h v hv _ _ _⟩
  show (⟨_, _, _⟩ : Vector α) = ⟨_, _, _⟩
  rw [load_store h v.data_ _ hv (fun e => by
    rw [e]
    exact List.length_eq_zero.mp (by rw [DestroyRange_length]; rfl))]
  rfl

theorem IndexWrite_tracks (h : Heap α) (v : VectorRep) (hv : InHeap h v) (i : Nat) (x : α) :
    contents (OnHeap.IndexWrite (h, v) i x).1 (OnHeap.IndexWrite (h, v) i x).2 =
      IndexWrite (contents h v) i x ∧
    Keeps h v (OnHeap.IndexWrite (h, v) i x).1 (OnHeap.IndexWrite (h, v) i x).2 := by
  unfold OnHeap.IndexWrite IndexWrite
  refine ⟨?_, Keeps_store h v hv _ v.size_ v.used_⟩
  show (⟨_, _, _⟩ : Vector α) = ⟨_, _, _⟩
  rw [load_store h v.data_ _ hv (fun e => by rw [e]; simp [load])]
  rfl

end Storage

section Tracking

variable {σ α : Type}

theorem VectorBufCtor_tracks (E : ElemOps σ α) (w : σ) (h : Heap α) (n : Nat) :
    Tracks h ⟨0, 0, none⟩ (OnHeap.VectorBufCtor E w h n) (VectorBufCtor E w n) := by
  have hk : Keeps h ⟨0, 0, none⟩ h ⟨n, 0, none⟩ :=
    ⟨Nat.le_refl _, fun _ _ _ => rfl, fun a ha => by simp at ha⟩
  unfold OnHeap.VectorBufCtor VectorBufCtor Tracks
  by_cases h0 : n = 0
  · simp only [h0, if_true]
    subst h0
    exact ⟨trivial, trivial, rfl, hk⟩
  · simp only [h0, if_false]
    by_cases ha : (E.alloc w n).2 = true
    · simp only [ha, if_true]
      refine ⟨trivial, trivial, ?_, ?_, fun a ha1 _ => getElem?_operatorNew h n a ha1,
        fun a ha1 => ?_⟩
      · show (⟨_, _, _⟩ : Vector α) = ⟨_, _, _⟩
        rw [load_operatorNew]
      · rw [length_operatorNew]
        omega
      · have : a = h.length := by
          simp only [operatorNew, Option.some.injEq] at ha1
          exact ha1.symm
        rw [length_operatorNew]
        exact ⟨by omega, Or.inr (by omega)⟩
    · simp only [ha, Bool.false_eq_true, if_false]
      exact ⟨trivial, trivial, rfl, hk⟩

theorem Reserve_tracks (E : ElemOps σ α) (w : σ) (h : Heap α) (v : VectorRep)
    (hv : InHeap h v) (n : Nat) :
    Tracks h v (OnHeap.Reserve E w (h, v) n) (Reserve E w (contents h v) n) := by
  have hne : v.data_ ≠ some h.length := fun e => Nat.lt_irrefl _ (hv _ e)
  rw [Reserve_eq]
  unfold OnHeap.Reserve Tracks
  simp only [contents]
  by_cases h1 : n ≤ v.size_
  · simp only [h1, if_true]
    exact ⟨trivial, trivial, trivial, Keeps_refl h v hv⟩
  · simp only [h1, if_false]
    by_cases ha : (E.alloc w n).2 = true
    · simp only [ha, if_true]
      refine ⟨trivial, trivial, ?_, ?_, fun a ha1 hne1 => ?_, fun a ha1 => ?_⟩
      · show (⟨_, _, _⟩ : Vector α) = ⟨_, _, _⟩
        have hq : (operatorNew h n).2 = some h.length := rfl
        rw [load_operatorDelete_ne _ _ _ (Or.inr (by rw [hq]; exact hne)),
          load_store_ne _ _ _ _ (Or.inr (by rw [hq]; exact hne)),
          load_store _ _ _ (fun a e => by
            rw [length_store, length_operatorNew]
            rw [hq] at e
            have : a = h.length := (Option.some.inj e).symm
            omega) (fun e => by rw [hq] at e; exact absurd e (by simp)),
          load_operatorNew, load_operatorNew_old h n v.data_ hv]
      · rw [length_operatorDelete, length_store, length_store, length_store, length_operatorNew]
        omega
      · have hq : (operatorNew h n).2 ≠ some a := by
          intro e
          have : h.length = a := Option.some.inj e
          omega
        rw [getElem?_operatorDelete _ _ _ hne1, getElem?_store _ _ _ _ hne1,
          getElem?_store _ _ _ _ hq, getElem?_store _ _ _ _ hne1, getElem?_operatorNew h n a ha1]
      · have : a = h.length := (Option.some.inj ha1).symm
        rw [length_operatorDelete, length_store, length_store, length_store, length_operatorNew]
        exact ⟨by omega, Or.inr (by omega)⟩
    · simp only [ha, Bool.false_eq_true, if_false]
      exact ⟨trivial, trivial, trivial, Keeps_refl h v hv⟩

theorem length_VectorBufDtor (h : Heap α) (v : VectorRep) :
    (OnHeap.VectorBufDtor h v).length = h.length := by
  unfold OnHeap.VectorBufDtor
  rw [length_operatorDelete, length_store]

theorem getElem?_VectorBufDtor (h : Heap α) (v : VectorRep) (a : Nat)
    (hne : v.data_ ≠ some a) : (OnHeap.VectorBufDtor h v)[a]? = h[a]? := by
  unfold OnHeap.VectorBufDtor
  rw [getElem?_operatorDelete _ _ _ hne, getElem?_store _ _ _ _ hne]

theorem load_VectorBufDtor (h : Heap α) (v : VectorRep) (p : Option Nat)
    (hne : p = none ∨ v.data_ ≠ p) : load (OnHeap.VectorBufDtor h v) p = load h p := by
  cases p with
  | none => rfl
  | some a =>
    rcases hne with e | e
    · exact absurd e (by simp)
    · exact load_congr _ _ a (getElem?_VectorBufDtor h v a e)

theorem VectorCtorOnHeap_zero (E : ElemOps σ α) (w : σ) (h : Heap α) :
    OnHeap.VectorCtor E w h 0 = ⟨w, (h, ⟨0, 0, none⟩), .ok⟩ := by
  simp [OnHeap.VectorCtor, OnHeap.VectorBufCtor, whileLoop_zero]

theorem stdSwapOnHeap_eq (h : Heap α) (a b : VectorRep) :
    OnHeap.stdSwap h a b = (h, b, a) := rfl

/-- The pointer of a vector of the heap `h` differs from the pointer of a vector that lives
beside it, unless it is `nullptr`. -/
theorem Beside_ne (h hh : Heap α) (v tmp : VectorRep) (hv : InHeap h v)
    (hb : Beside h v hh tmp) : v.data_ = none ∨ tmp.data_ ≠ v.data_ := by
  cases hd : v.data_ with
  | none => exact Or.inl rfl
  | some a =>
    refine Or.inr (fun e => ?_)
    have h1 := hv a hd
    have h2 := (hb.2.2 a e).2
    omega

theorem Beside_ne2 (h hh : Heap α) (v tmp : VectorRep) (hv : InHeap h v)
    (hb : Beside h v hh tmp) : tmp.data_ = none ∨ v.data_ ≠ tmp.data_ := by
  cases hd : tmp.data_ with
  | none => exact Or.inl rfl
  | some a =>
    refine Or.inr (fun e => ?_)
    have h1 := hv a e
    have h2 := (hb.2.2 a hd).2
    omega

theorem Beside_inHeap (h hh : Heap α) (v tmp : VectorRep) (hv : InHeap h v)
    (hb : Beside h v hh tmp) : InHeap hh v ∧ InHeap hh tmp :=
  ⟨fun a ha => Nat.lt_of_lt_of_le (hv a ha) hb.1, fun a ha => (hb.2.2 a ha).1⟩

/-- A vector built from nothing in the heap `h` lives beside every vector of `h`. -/
theorem Beside_of_Keeps (h hh : Heap α) (v tmp : VectorRep)
    (k : Keeps h ⟨0, 0, none⟩ hh tmp) : Beside h v hh tmp := by
  obtain ⟨k1, k2, k3⟩ := k
  refine ⟨k1, fun a ha _ => k2 a ha (by simp), fun a ha => ?_⟩
  obtain ⟨c1, c2⟩ := k3 a ha
  refine ⟨c1, ?_⟩
  rcases c2 with e | e
  · exact absurd e (by simp)
  · exact e

/-- A step of `tmp` that keeps to the storage of `tmp` leaves it beside `v`, and leaves the
block of `v` as it was. -/
theorem Beside_step (h hh h2 : Heap α) (v tmp tmp2 : VectorRep) (hv : InHeap h v)
    (hb : Beside h v hh tmp) (k : Keeps hh tmp h2 tmp2) :
    Beside h v h2 tmp2 ∧ load h2 v.data_ = load hh v.data_ := by
  obtain ⟨b1, b2, b3⟩ := hb
  obtain ⟨k1, k2, k3⟩ := k
  have hfresh : ∀ a, a < h.length → tmp.data_ ≠ some a := by
    intro a ha e
    have := (b3 a e).2
    omega
  refine ⟨⟨by omega, fun a ha hne => ?_, fun a ha => ?_⟩, ?_⟩
  · rw [k2 a (by omega) (hfresh a ha), b2 a ha hne]
  · obtain ⟨c1, c2⟩ := k3 a ha
    refine ⟨c1, ?_⟩
    rcases c2 with e | e
    · exact (b3 a e).2
    · omega
  · cases hd : v.data_ with
    | none => rfl
    | some a =>
      have ha := hv a hd
      exact load_congr _ _ a (k2 a (by omega) (hfresh a ha))

/-- Writing the block of `v` leaves `tmp` beside `v`, and leaves the block of `tmp` as it
was. -/
theorem Beside_store (h hh : Heap α) (v tmp : VectorRep) (hv : InHeap h v)
    (hb : Beside h v hh tmp) (b : List (Option α)) :
    Beside h v (store hh v.data_ b) tmp ∧
    load (store hh v.data_ b) tmp.data_ = load hh tmp.data_ := by
  refine ⟨⟨by rw [length_store]; exact hb.1, fun a ha hne => ?_, fun a ha => ?_⟩, ?_⟩
  · rw [getElem?_store _ _ _ _ hne, hb.2.1 a ha hne]
  · rw [length_store]
    exact hb.2.2 a ha
  · exact load_store_ne _ _ _ _ (Beside_ne2 h hh v tmp hv hb)

/-- One evaluation of `tmp.PushBack(std::move(data_[tmp.used_]))` on the heap does what it
does on the values, and leaves `tmp` beside `*this`. -/
theorem moveInto_tracks (E : ElemOps σ α)
    (push : σ → Heap α × VectorRep → Option α → Res σ (Heap α × VectorRep))
    (push0 : σ → Vector α → Option α → Res σ (Vector α))
    (hpush : ∀ w h v x, InHeap h v → Tracks h v (push w (h, v) x) (push0 w (contents h v) x))
    (h : Heap α) (v : VectorRep) (hv : InHeap h v) (w : σ) (hh : Heap α) (tmp : VectorRep)
    (hb : Beside h v hh tmp) :
    (OnHeap.moveInto E push w (hh, v, tmp)).world =
      (moveInto E push0 w (contents hh v, contents hh tmp)).world ∧
    (OnHeap.moveInto E push w (hh, v, tmp)).status =
      (moveInto E push0 w (contents hh v, contents hh tmp)).status ∧
    (OnHeap.moveInto E push w (hh, v, tmp)).st.2.1 = v ∧
    contents (OnHeap.moveInto E push w (hh, v, tmp)).st.1 v =
      (moveInto E push0 w (contents hh v, contents hh tmp)).st.1 ∧
    contents (OnHeap.moveInto E push w (hh, v, tmp)).st.1
        (OnHeap.moveInto E push w (hh, v, tmp)).st.2.2 =
      (moveInto E push0 w (contents hh v, contents hh tmp)).st.2 ∧
    Beside h v (OnHeap.moveInto E push w (hh, v, tmp)).st.1
      (OnHeap.moveInto E push w (hh, v, tmp)).st.2.2 := by
  obtain ⟨hiv, hit⟩ := Beside_inHeap h hh v tmp hv hb
  obtain ⟨p1, p2, p3, p4⟩ := hpush w hh tmp (slot (load hh v.data_) tmp.used_) hit
  obtain ⟨hb2, hl2⟩ := Beside_step h hh _ v tmp _ hv hb p4
  have hiv2 := (Beside_inHeap h _ v _ hv hb2).1
  unfold OnHeap.moveInto moveInto
  simp only []
  have e0 : (push0 w (contents hh tmp) (slot (contents hh v).data_ (contents hh tmp).used_)) =
      push0 w (contents hh tmp) (slot (load hh v.data_) tmp.used_) := rfl
  rw [e0, ← p2]
  by_cases hs : (push w (hh, tmp) (slot (load hh v.data_) tmp.used_)).status = .ok
  · rw [if_pos hs, if_pos hs]
    obtain ⟨hb3, hl3⟩ := Beside_store h _ v _ hv hb2
      ((load (push w (hh, tmp) (slot (load hh v.data_) tmp.used_)).st.1 v.data_).set tmp.used_
        ((slot (load hh v.data_) tmp.used_).map E.moved))
    refine ⟨p1, rfl, rfl, ?_, ?_, hb3⟩
    · show (⟨_, _, _⟩ : Vector α) = ⟨_, _, _⟩
      rw [load_store _ _ _ hiv2 (fun e => by rw [e]; simp [load]), hl2]
      rfl
    · show (⟨_, _, _⟩ : Vector α) = _
      rw [hl3]
      exact p3
  · rw [if_neg hs, if_neg hs]
    refine ⟨p1, rfl, rfl, ?_, p3, hb2⟩
    show (⟨_, _, _⟩ : Vector α) = ⟨_, _, _⟩
    rw [hl2]

/-- The end of `ResizeUp` after the swap: destroying the old block of `*this` leaves the
block of `tmp`, which `*this` now owns, as it was. -/
theorem Dtor_swapped (h hh : Heap α) (v tmp : VectorRep) (hv : InHeap h v)
    (hb : Beside h v hh tmp) :
    contents (OnHeap.VectorBufDtor hh v) tmp = (contents hh tmp : Vector α) ∧
    Keeps h v (OnHeap.VectorBufDtor hh v) tmp := by
  refine ⟨?_, ?_, fun a ha hne => ?_, fun a ha => ?_⟩
  · show (⟨_, _, _⟩ : Vector α) = ⟨_, _, _⟩
    rw [load_VectorBufDtor _ _ _ (Beside_ne2 h hh v tmp hv hb)]
  · rw [length_VectorBufDtor]
    exact hb.1
  · rw [getElem?_VectorBufDtor _ _ _ hne, hb.2.1 a ha hne]
  · rw [length_VectorBufDtor]
    exact ⟨(hb.2.2 a ha).1, Or.inr (hb.2.2 a ha).2⟩

/-- Leaving `ResizeUp` by an exception: destroying `tmp` leaves the block of `*this` as it
was. -/
theorem Dtor_unwound (h hh : Heap α) (v tmp : VectorRep) (hv : InHeap h v)
    (hb : Beside h v hh tmp) :
    contents (OnHeap.VectorBufDtor hh tmp) v = (contents hh v : Vector α) ∧
    Keeps h v (OnHeap.VectorBufDtor hh tmp) v := by
  refine ⟨?_, ?_, fun a ha hne => ?_, fun a ha => ?_⟩
  · show (⟨_, _, _⟩ : Vector α) = ⟨_, _, _⟩
    rw [load_VectorBufDtor _ _ _ (Beside_ne h hh v tmp hv hb)]
  · rw [length_VectorBufDtor]
    exact hb.1
  · have hne2 : tmp.data_ ≠ some a := by
      intro e
      have := (hb.2.2 a e).2
      omega
    rw [getElem?_VectorBufDtor _ _ _ hne2, hb.2.1 a ha hne]
  · rw [length_VectorBufDtor]
    exact ⟨Nat.lt_of_lt_of_le (hv a ha) hb.1, Or.inl ha⟩

theorem load_VectorBufDtor_self (h : Heap α) (v : VectorRep) :
    load (OnHeap.VectorBufDtor h v) v.data_ = [] := by
  unfold OnHeap.VectorBufDtor
  cases hd : v.data_ with
  | none => rfl
  | some a =>
    by_cases ha : a < h.length
    · simp [load, operatorDelete, store, List.getD_eq_getElem?_getD, ha]
    · have hn : (h.set a none)[a]? = none := List.getElem?_eq_none (by simp; omega)
      simp [load, operatorDelete, store, List.getD_eq_getElem?_getD, hn]

/-- The common text of `ResizeUp` and `ShrinkToFit` on the heap does what it does on the
value of the vector and keeps to the storage of the vector, when the `PushBack` it calls
does. When it returns, the block that `data_` pointed to has been released and `data_`
points to a block obtained since; when it throws, the fields of `*this` are as they were. -/
theorem rebuild_tracks (E : ElemOps σ α)
    (push : σ → Heap α × VectorRep → Option α → Res σ (Heap α × VectorRep))
    (push0 : σ → Vector α → Option α → Res σ (Vector α))
    (hpush : ∀ w h v x, InHeap h v → Tracks h v (push w (h, v) x) (push0 w (contents h v) x))
    (w : σ) (h : Heap α) (v : VectorRep) (hv : InHeap h v) (n : Nat) :
    Tracks h v (OnHeap.rebuild E push w (h, v) n) (rebuild E push0 w (contents h v) n) ∧
    ((OnHeap.rebuild E push w (h, v) n).status = .ok →
      load (OnHeap.rebuild E push w (h, v) n).st.1 v.data_ = [] ∧
      ∀ x, (OnHeap.rebuild E push w (h, v) n).st.2.data_ = some x → h.length ≤ x) ∧
    ((OnHeap.rebuild E push w (h, v) n).status ≠ .ok →
      (OnHeap.rebuild E push w (h, v) n).st.2 = v) := by
  obtain ⟨r1, r2, r3, r4⟩ := Reserve_tracks E w h ⟨0, 0, none⟩ (fun a e => by simp at e) n
  have hb0 := Beside_of_Keeps h _ v _ r4
  have c0 : contents h (⟨0, 0, none⟩ : VectorRep) = (⟨0, 0, []⟩ : Vector α) := rfl
  rw [c0] at r1 r2 r3
  have hloop := whileLoop_sim
    (fun (u : Heap α × VectorRep × VectorRep) (t : Vector α × Vector α) =>
      u.2.1 = v ∧ contents u.1 v = t.1 ∧ contents u.1 u.2.2 = t.2 ∧ Beside h v u.1 u.2.2)
    (fun u : Heap α × VectorRep × VectorRep => decide (u.2.2.used_ < u.2.1.used_))
    (fun s : Vector α × Vector α => decide (s.2.used_ < s.1.used_))
    (OnHeap.moveInto E push) (moveInto E push0)
    (by
      intro u t hR
      obtain ⟨e1, e2, e3, _⟩ := hR
      show decide (u.2.2.used_ < u.2.1.used_) = decide (t.2.used_ < t.1.used_)
      rw [e1, ← e2, ← e3]
      rfl)
    (by
      intro w1 u t hR _
      obtain ⟨hh, th, tmp⟩ := u
      obtain ⟨t1, t2⟩ := t
      obtain ⟨e1, e2, e3, hb⟩ := hR
      simp only at e1 e2 e3 hb
      subst e1 e2 e3
      obtain ⟨m1, m2, m3, m4, m5, m6⟩ := moveInto_tracks E push push0 hpush h th hv w1 hh tmp hb
      exact ⟨m1, m2, m3, m4, m5, m6⟩)
    v.used_ (OnHeap.Reserve E w (h, ⟨0, 0, none⟩) n).world
    ((OnHeap.Reserve E w (h, ⟨0, 0, none⟩) n).st.1, v,
      (OnHeap.Reserve E w (h, ⟨0, 0, none⟩) n).st.2)
    (contents h v, (Reserve E w ⟨0, 0, []⟩ n).st)
    ⟨rfl, by
      show (⟨_, _, _⟩ : Vector α) = ⟨_, _, _⟩
      rw [(Beside_step h h _ v ⟨0, 0, none⟩ _ hv
        ⟨Nat.le_refl _, fun _ _ _ => rfl, fun a e => by simp at e⟩ r4).2], r3, hb0⟩
  unfold OnHeap.rebuild rebuild Tracks
  simp only [VectorCtorOnHeap_zero, VectorCtor_zero, if_true]
  rw [← r2, ← r1]
  by_cases hs : (OnHeap.Reserve E w (h, ⟨0, 0, none⟩) n).status = .ok
  · simp only [hs, if_true]
    generalize whileLoop
      (fun u : Heap α × VectorRep × VectorRep => decide (u.2.2.used_ < u.2.1.used_))
      (OnHeap.moveInto E push) v.used_ (OnHeap.Reserve E w (h, ⟨0, 0, none⟩) n).world
      ((OnHeap.Reserve E w (h, ⟨0, 0, none⟩) n).st.1, v,
        (OnHeap.Reserve E w (h, ⟨0, 0, none⟩) n).st.2) = L at hloop ⊢
    have hfuel : (contents h v : Vector α).used_ = v.used_ := rfl
    rw [hfuel]
    generalize whileLoop (fun s : Vector α × Vector α => decide (s.2.used_ < s.1.used_))
      (moveInto E push0) v.used_ (OnHeap.Reserve E w (h, ⟨0, 0, none⟩) n).world
      (contents h v, (Reserve E w ⟨0, 0, []⟩ n).st) = L0 at hloop ⊢
    obtain ⟨l1, l2, l3, l4, l5, l6⟩ := hloop
    rw [← l2]
    by_cases hl : L.status = .ok
    · simp only [hl, if_true, stdSwapOnHeap_eq, stdSwap_eq]
      rw [l3]
      obtain ⟨d1, d2⟩ := Dtor_swapped h L.st.1 v L.st.2.2 hv l6
      exact ⟨⟨l1, trivial, d1.trans l5, d2⟩,
        fun _ => ⟨load_VectorBufDtor_self _ v, fun x hx => (l6.2.2 x hx).2⟩,
        fun hne => absurd rfl hne⟩
    · simp only [hl, if_false]
      rw [l3]
      obtain ⟨d1, d2⟩ := Dtor_unwound h L.st.1 v L.st.2.2 hv l6
      exact ⟨⟨l1, trivial, d1.trans l4, d2⟩, fun hok => hok.elim, fun _ => rfl⟩
  · simp only [hs, if_false]
    obtain ⟨d1, d2⟩ := Dtor_unwound h _ v _ hv hb0
    refine ⟨⟨trivial, trivial, ?_, d2⟩, fun hok => hok.elim, fun _ => trivial⟩
    rw [d1]
    show (⟨_, _, _⟩ : Vector α) = ⟨_, _, _⟩
    rw [(Beside_step h h _ v ⟨0, 0, none⟩ _ hv
      ⟨Nat.le_refl _, fun _ _ _ => rfl, fun a e => by simp at e⟩ r4).2]

/-- The end of `PushBack(ValueType &&)`: constructing the element at `data_ + used_` on the heap
does what it does on the value of the vector. -/
theorem construct_tracks (h : Heap α) (v : VectorRep) (R : Res σ (Heap α × VectorRep))
    (R0 : Res σ (Vector α)) (hr : Tracks h v R R0) (x : Option α) :
    Tracks h v
      (if R.status = .ok then
        ⟨R.world,
          (store R.st.1 R.st.2.data_ (Construct (load R.st.1 R.st.2.data_) R.st.2.used_ x),
            ⟨R.st.2.size_, R.st.2.used_ + 1, R.st.2.data_⟩), .ok⟩
      else R)
      (if R0.status = .ok then
        ⟨R0.world, ⟨R0.st.size_, R0.st.used_ + 1, Construct R0.st.data_ R0.st.used_ x⟩, .ok⟩
      else R0) := by
  obtain ⟨t1, t2, t3, t4⟩ := hr
  rw [← t2]
  by_cases hs : R.status = .ok
  · rw [if_pos hs, if_pos hs]
    refine ⟨t1, rfl, ?_, Keeps_trans _ _ _ _ _ _ t4
      (Keeps_store _ _ (Keeps_inHeap _ _ _ _ t4) _ _ _)⟩
    rw [← t3]
    show (⟨_, _, _⟩ : Vector α) = ⟨_, _, _⟩
    rw [load_store _ _ _ (Keeps_inHeap _ _ _ _ t4) (fun e => by rw [e]; simp [load, Construct])]
    rfl
  · rw [if_neg hs, if_neg hs]
    exact ⟨t1, t2, t3, t4⟩

/-- The member `PushBack(ValueType &&)` on the heap does what it does on the value of the vector,
and keeps to the storage of the vector. -/
theorem PushBackAux_tracks (E : ElemOps σ α) (d : Nat) :
    ∀ (w : σ) (h : Heap α) (v : VectorRep) (x : Option α), InHeap h v →
      Tracks h v (OnHeap.PushBackAux E d w (h, v) x) (PushBackAux E d w (contents h v) x) := by
  induction d with
  | zero =>
    intro w h v x hv
    exact ⟨rfl, rfl, rfl, Keeps_refl h v hv⟩
  | succ d ih =>
    intro w h v x hv
    have hr : Tracks h v
        (if OnHeap.NeedResizeUp v then OnHeap.ResizeUpWith E (OnHeap.PushBackAux E d) w (h, v)
          else ⟨w, (h, v), .ok⟩)
        (if NeedResizeUp (contents h v : Vector α) then
          ResizeUpWith E (PushBackAux E d) w (contents h v)
          else ⟨w, contents h v, .ok⟩) := by
      have hn : NeedResizeUp (contents h v : Vector α) = OnHeap.NeedResizeUp v := rfl
      rw [hn]
      by_cases hc : OnHeap.NeedResizeUp v = true
      · rw [if_pos hc, if_pos hc]
        exact (rebuild_tracks E _ _ ih w h v hv _).1
      · rw [if_neg hc, if_neg hc]
        exact ⟨rfl, rfl, rfl, Keeps_refl h v hv⟩
    exact construct_tracks h v _ _ hr x

theorem PushBackMove_tracks (E : ElemOps σ α) (w : σ) (h : Heap α) (v : VectorRep)
    (hv : InHeap h v) (x : α) :
    Tracks h v (OnHeap.PushBackMove E w (h, v) x) (PushBackMove E w (contents h v) x) :=
  PushBackAux_tracks E 3 w h v (some x) hv

theorem PushBack_tracks (E : ElemOps σ α) (w : σ) (h : Heap α) (v : VectorRep)
    (hv : InHeap h v) (x : α) :
    Tracks h v (OnHeap.PushBack E w (h, v) x) (PushBack E w (contents h v) x) := by
  unfold OnHeap.PushBack PushBack
  simp only []
  by_cases hc : (E.copyCtor w x).2 = true
  · rw [if_pos hc, if_pos hc]
    exact PushBackMove_tracks E _ h v hv x
  · rw [if_neg hc, if_neg hc]
    exact ⟨rfl, rfl, rfl, Keeps_refl h v hv⟩

/-- A loop over calls on one vector that track their calls on the value of the vector
tracks the loop over those. -/
theorem loop_tracks (c1 : Heap α × VectorRep → Bool) (c2 : Vector α → Bool)
    (b1 : σ → Heap α × VectorRep → Res σ (Heap α × VectorRep))
    (b2 : σ → Vector α → Res σ (Vector α))
    (hc : ∀ h v, c1 (h, v) = c2 (contents h v))
    (hb : ∀ w h v, InHeap h v → Tracks h v (b1 w (h, v)) (b2 w (contents h v)))
    (n : Nat) (w : σ) (h : Heap α) (v : VectorRep) (hv : InHeap h v) :
    Tracks h v (whileLoop c1 b1 n w (h, v)) (whileLoop c2 b2 n w (contents h v)) := by
  have hloop := whileLoop_sim
    (fun (s : Heap α × VectorRep) (t : Vector α) => contents s.1 s.2 = t ∧ Keeps h v s.1 s.2)
    c1 c2 b1 b2
    (by
      intro s t hR
      obtain ⟨hh, u⟩ := s
      rw [← hR.1]
      exact hc hh u)
    (by
      intro w1 s t hR _
      obtain ⟨hh, u⟩ := s
      obtain ⟨e1, k⟩ := hR
      simp only at e1 k
      subst e1
      obtain ⟨t1, t2, t3, t4⟩ := hb w1 hh u (Keeps_inHeap _ _ _ _ k)
      exact ⟨t1, t2, t3, Keeps_trans _ _ _ _ _ _ k t4⟩)
    n w (h, v) (contents h v) ⟨rfl, Keeps_refl h v hv⟩
  exact ⟨hloop.1, hloop.2.1, hloop.2.2.1, hloop.2.2.2⟩

theorem popLoop_tracks (n fuel : Nat) (w : σ) (h : Heap α) (v : VectorRep) (hv : InHeap h v) :
    Tracks h v (OnHeap.popLoop n fuel w (h, v)) (popLoop n fuel w (contents h v)) :=
  loop_tracks _ _ _ _ (fun _ _ => rfl) (fun w1 hh u hu => PopBack_tracks w1 hh u hu)
    fuel w h v hv

theorem defaultLoop_length (E : ElemOps σ α) (n fuel : Nat) (w : σ)
    (s : Nat × List (Option α)) :
    (defaultLoop E n fuel w s).st.2.length = s.2.length := by
  unfold defaultLoop
  refine whileLoop_inv _ _ (fun t : Nat × List (Option α) => t.2.length = s.2.length) ?_
    fuel w s rfl
  intro w1 t ht _
  cases hd : (E.defaultCtor w1).2 with
  | true =>
    rw [constructDefault_ok E w1 t hd]
    show (Construct t.2 t.1 (some E.defaultValue)).length = s.2.length
    simp [Construct, ht]
  | false =>
    rw [constructDefault_fail E w1 t hd]
    exact ht

/-- The member `Resize(new_size)` on the heap does what it does on the value of the vector, and
keeps to the storage of the vector. -/
theorem Resize_tracks (E : ElemOps σ α) (w : σ) (h : Heap α) (v : VectorRep)
    (hv : InHeap h v) (n : Nat) :
    Tracks h v (OnHeap.Resize E w (h, v) n) (Resize E w (contents h v) n) := by
  have hne : v.data_ ≠ some h.length := fun e => Nat.lt_irrefl _ (hv _ e)
  have hq : (operatorNew h n).2 = some h.length := rfl
  by_cases h1 : n ≤ v.used_
  · rw [Resize_shrink E w _ n h1]
    unfold OnHeap.Resize
    simp only [h1, if_true]
    exact popLoop_tracks n _ w h v hv
  · by_cases h2 : n ≤ v.size_
    · have hlen := defaultLoop_length E n (n - v.used_) w (v.used_, load h v.data_)
      rw [Resize_inplace E w _ n h1 h2]
      unfold OnHeap.Resize Tracks
      simp only [h1, h2, if_true, if_false, contents]
      generalize defaultLoop E n (n - v.used_) w (v.used_, load h v.data_) = L at hlen ⊢
      by_cases hs : L.status = .ok
      · simp only [hs, if_true]
        refine ⟨trivial, trivial, ?_, Keeps_store h v hv _ _ _⟩
        show (⟨_, _, _⟩ : Vector α) = ⟨_, _, _⟩
        rw [load_store h v.data_ _ hv (fun e => by
          rw [e] at hlen
          exact List.length_eq_zero.mp hlen)]
      · simp only [hs, if_false]
        refine ⟨trivial, trivial, ?_, Keeps_store h v hv _ _ _⟩
        show (⟨_, _, _⟩ : Vector α) = ⟨_, _, _⟩
        rw [load_store h v.data_ _ hv (fun e => by
          rw [e] at hlen
          exact List.length_eq_zero.mp (by rw [DestroyRange_length]; exact hlen))]
    · rw [Resize_grow E w _ n h1 h2]
      unfold OnHeap.Resize Tracks
      simp only [h1, h2, if_false, contents, load_operatorNew, load_operatorNew_old h n v.data_ hv]
      by_cases ha : (E.alloc w n).2 = true
      · simp only [ha, if_true]
        have hm := moveAll_spec E (load h v.data_) (rawBlock n) v.used_
        generalize moveAll E (load h v.data_) (rawBlock n) v.used_ = M at hm ⊢
        generalize defaultLoop E n (n - v.used_) (E.alloc w n).1 (v.used_, M.2) = L
        by_cases hs : L.status = .ok
        · simp only [hs, if_true]
          refine ⟨trivial, trivial, ?_, ?_, fun a ha1 hne1 => ?_, fun a ha1 => ?_⟩
          · show (⟨_, _, _⟩ : Vector α) = ⟨_, _, _⟩
            rw [load_operatorDelete_ne _ _ _ (Or.inr (by rw [hq]; exact hne)),
              load_store_ne _ _ _ _ (Or.inr (by rw [hq]; exact hne)),
              load_store _ _ _ (fun a e => by
                rw [length_operatorNew]
                rw [hq] at e
                have : a = h.length := (Option.some.inj e).symm
                omega) (fun e => by rw [hq] at e; exact absurd e (by simp))]
          · rw [length_operatorDelete, length_store, length_store, length_operatorNew]
            omega
          · have hq2 : (operatorNew h n).2 ≠ some a := by
              intro e
              have : h.length = a := Option.some.inj e
              omega
            rw [getElem?_operatorDelete _ _ _ hne1, getElem?_store _ _ _ _ hne1,
              getElem?_store _ _ _ _ hq2, getElem?_operatorNew h n a ha1]
          · have : a = h.length := (Option.some.inj ha1).symm
            rw [length_operatorDelete, length_store, length_store, length_operatorNew]
            exact ⟨by omega, Or.inr (by omega)⟩
        · simp only [hs, if_false]
          have hb := moveAll_spec E L.st.2 M.1 v.used_
          refine ⟨trivial, trivial, ?_, ?_, fun a ha1 hne1 => ?_, fun a ha1 => ?_⟩
          · show (⟨_, _, _⟩ : Vector α) = ⟨_, _, _⟩
            have hvn : v.data_ = none ∨ (operatorNew h n).2 ≠ v.data_ := by
              cases hd : v.data_ with
              | none => exact Or.inl rfl
              | some a =>
                refine Or.inr (fun e => ?_)
                rw [hq] at e
                exact hne (by rw [hd, e])
            rw [load_operatorDelete_ne _ _ _ hvn, load_store_ne _ _ _ _ hvn,
              load_store _ _ _ (fun a e => by
                rw [length_operatorNew]
                have := hv a e
                omega) (fun e => by
                  rw [e] at hm
                  exact List.length_eq_zero.mp (by rw [hb.2.1, hm.1]; rfl))]
          · rw [length_operatorDelete, length_store, length_store, length_operatorNew]
            omega
          · have hq2 : (operatorNew h n).2 ≠ some a := by
              intro e
              have : h.length = a := Option.some.inj e
              omega
            rw [getElem?_operatorDelete _ _ _ hq2, getElem?_store _ _ _ _ hq2,
              getElem?_store _ _ _ _ hne1, getElem?_operatorNew h n a ha1]
          · rw [length_operatorDelete, length_store, length_store, length_operatorNew]
            have := hv a ha1
            exact ⟨by omega, Or.inl ha1⟩
      · simp only [ha, Bool.false_eq_true, if_false]
        exact ⟨trivial, trivial, trivial, Keeps_refl h v hv⟩

theorem PushBackRef_tracks (E : ElemOps σ α) (w : σ) (h : Heap α) (v : VectorRep)
    (hv : InHeap h v) (x : Option α) :
    Tracks h v (OnHeap.PushBackRef E w (h, v) x) (PushBackRef E w (contents h v) x) := by
  cases x with
  | none => exact PushBackAux_tracks E 3 w h v none hv
  | some a => exact PushBack_tracks E w h v hv a

theorem PushBackAuxOnHeap_succ (E : ElemOps σ α) (d : Nat) (w : σ) (s : Heap α × VectorRep)
    (x : Option α) :
    OnHeap.PushBackAux E (d + 1) w s x =
      if (if OnHeap.NeedResizeUp s.2 then OnHeap.ResizeUpWith E (OnHeap.PushBackAux E d) w s
          else ⟨w, s, .ok⟩).status = .ok then
        ⟨(if OnHeap.NeedResizeUp s.2 then OnHeap.ResizeUpWith E (OnHeap.PushBackAux E d) w s
            else ⟨w, s, .ok⟩).world,
          (store
            (if OnHeap.NeedResizeUp s.2 then OnHeap.ResizeUpWith E (OnHeap.PushBackAux E d) w s
              else ⟨w, s, .ok⟩).st.1
            (if OnHeap.NeedResizeUp s.2 then OnHeap.ResizeUpWith E (OnHeap.PushBackAux E d) w s
              else ⟨w, s, .ok⟩).st.2.data_
            (Construct
              (load
                (if OnHeap.NeedResizeUp s.2 then
                    OnHeap.ResizeUpWith E (OnHeap.PushBackAux E d) w s
                  else ⟨w, s, .ok⟩).st.1
                (if OnHeap.NeedResizeUp s.2 then
                    OnHeap.ResizeUpWith E (OnHeap.PushBackAux E d) w s
                  else ⟨w, s, .ok⟩).st.2.data_)
              (if OnHeap.NeedResizeUp s.2 then OnHeap.ResizeUpWith E (OnHeap.PushBackAux E d) w s
                else ⟨w, s, .ok⟩).st.2.used_ x),
            ⟨(if OnHeap.NeedResizeUp s.2 then OnHeap.ResizeUpWith E (OnHeap.PushBackAux E d) w s
                else ⟨w, s, .ok⟩).st.2.size_,
              (if OnHeap.NeedResizeUp s.2 then OnHeap.ResizeUpWith E (OnHeap.PushBackAux E d) w s
                else ⟨w, s, .ok⟩).st.2.used_ + 1,
              (if OnHeap.NeedResizeUp s.2 then OnHeap.ResizeUpWith E (OnHeap.PushBackAux E d) w s
                else ⟨w, s, .ok⟩).st.2.data_⟩), .ok⟩
      else
        if OnHeap.NeedResizeUp s.2 then OnHeap.ResizeUpWith E (OnHeap.PushBackAux E d) w s
        else ⟨w, s, .ok⟩ := rfl

/-- Where `PushBack(ValueType &&)` leaves the block of the vector: when it had to grow and
returns, the block that `data_` pointed to has been released and `data_` points to a block
obtained since; in every other case `data_` is as it was. -/
theorem PushBackAux_block (E : ElemOps σ α) (d : Nat) (w : σ) (h : Heap α) (v : VectorRep)
    (x : Option α) (hv : InHeap h v) :
    (OnHeap.NeedResizeUp v = true → (OnHeap.PushBackAux E d w (h, v) x).status = .ok →
      load (OnHeap.PushBackAux E d w (h, v) x).st.1 v.data_ = [] ∧
      ∀ a, (OnHeap.PushBackAux E d w (h, v) x).st.2.data_ = some a → h.length ≤ a) ∧
    (¬ (OnHeap.NeedResizeUp v = true ∧ (OnHeap.PushBackAux E d w (h, v) x).status = .ok) →
      (OnHeap.PushBackAux E d w (h, v) x).st.2.data_ = v.data_) := by
  cases d with
  | zero =>
    exact ⟨fun _ hs => absurd hs (by simp [OnHeap.PushBackAux]), fun _ => rfl⟩
  | succ d =>
    rw [PushBackAuxOnHeap_succ]
    by_cases hn : OnHeap.NeedResizeUp v = true
    · simp only [hn, if_true]
      obtain ⟨tr, rok, rfail⟩ := rebuild_tracks E _ _ (PushBackAux_tracks E d) w h v hv
        (2 * v.size_ + 1)
      have hR : OnHeap.ResizeUpWith E (OnHeap.PushBackAux E d) w (h, v) =
          OnHeap.rebuild E (OnHeap.PushBackAux E d) w (h, v) (2 * v.size_ + 1) := rfl
      rw [hR]
      generalize OnHeap.rebuild E (OnHeap.PushBackAux E d) w (h, v) (2 * v.size_ + 1) = R
        at tr rok rfail ⊢
      by_cases hs : R.status = .ok
      · simp only [hs, if_true]
        obtain ⟨k1, k2⟩ := rok hs
        refine ⟨fun _ _ => ⟨?_, k2⟩, fun hne => absurd ⟨trivial, trivial⟩ hne⟩
        rw [load_store_ne _ _ _ _ (by
          cases hd : v.data_ with
          | none => exact Or.inl rfl
          | some a =>
            refine Or.inr (fun e => ?_)
            have h1 := hv a hd
            have h2 := k2 a e
            omega)]
        exact k1
      · simp only [hs, if_false]
        refine ⟨fun _ hok => hok.elim, fun _ => ?_⟩
        rw [rfail hs]
    · simp only [hn, Bool.false_eq_true, if_false, if_true]
      exact ⟨fun hf => hf.elim, fun _ => trivial⟩

/-- Where `PushBack(value)` through a reference leaves the block of the vector. -/
theorem PushBackRef_block (E : ElemOps σ α) (w : σ) (h : Heap α) (v : VectorRep)
    (x : Option α) (hv : InHeap h v) :
    (OnHeap.NeedResizeUp v = true → (OnHeap.PushBackRef E w (h, v) x).status = .ok →
      load (OnHeap.PushBackRef E w (h, v) x).st.1 v.data_ = [] ∧
      ∀ a, (OnHeap.PushBackRef E w (h, v) x).st.2.data_ = some a → h.length ≤ a) ∧
    (¬ (OnHeap.NeedResizeUp v = true ∧ (OnHeap.PushBackRef E w (h, v) x).status = .ok) →
      (OnHeap.PushBackRef E w (h, v) x).st.2.data_ = v.data_) := by
  cases x with
  | none => exact PushBackAux_block E 3 w h v none hv
  | some a =>
    have hP : OnHeap.PushBackRef E w (h, v) (some a) =
        if (E.copyCtor w a).2 then OnHeap.PushBackAux E 3 (E.copyCtor w a).1 (h, v) (some a)
        else ⟨(E.copyCtor w a).1, (h, v), .threw .element⟩ := rfl
    rw [hP]
    by_cases hc : (E.copyCtor w a).2 = true
    · rw [if_pos hc]
      exact PushBackAux_block E 3 _ h v (some a) hv
    · rw [if_neg hc]
      exact ⟨fun _ hs => absurd hs (by simp), fun _ => rfl⟩

/-- The member `Resize(count, value)` on the heap, where a reference to an element is a pointer
into the block that `data_` pointed to when the call started, does what it does on the
value of the vector, where such a reference dangles once that block was released; and it
keeps to the storage of the vector. -/
theorem ResizeValue_tracks (E : ElemOps σ α) (w : σ) (h : Heap α) (v : VectorRep)
    (hv : InHeap h v) (n : Nat) (value : Ref α) :
    Tracks h v (OnHeap.ResizeValue E w (h, v) n value)
      (ResizeValue E w (contents h v) n value) := by
  unfold OnHeap.ResizeValue ResizeValue
  have hu : (contents h v : Vector α).used_ = v.used_ := rfl
  rw [hu]
  by_cases h1 : n < v.used_
  · rw [if_pos h1, if_pos h1]
    exact popLoop_tracks n _ w h v hv
  · rw [if_neg h1, if_neg h1]
    have hloop := whileLoop_sim
      (fun (s : Heap α × VectorRep) (t : Vector α × Bool) =>
        contents s.1 s.2 = t.1 ∧ Keeps h v s.1 s.2 ∧
        (t.2 = false → s.2.data_ = v.data_) ∧
        (t.2 = true → load s.1 v.data_ = [] ∧ (v.data_ = none ∨ s.2.data_ ≠ v.data_)))
      (fun s : Heap α × VectorRep => decide (s.2.used_ ≠ n))
      (fun s : Vector α × Bool => decide (s.1.used_ ≠ n))
      (fun w1 s => OnHeap.PushBackRef E w1 s (value.readAt s.1 v.data_))
      (pushRef E value)
      (by
        intro s t hR
        show decide (s.2.used_ ≠ n) = decide (t.1.used_ ≠ n)
        rw [← hR.1]
        rfl)
      (by
        intro w1 s t hR _
        obtain ⟨hh, u⟩ := s
        obtain ⟨t1, fl⟩ := t
        obtain ⟨e1, k, hF, hT⟩ := hR
        simp only at e1 k hF hT
        subst e1
        have hiu := Keeps_inHeap _ _ _ _ k
        have hivh : ∀ a, v.data_ = some a → a < hh.length :=
          fun a e => Nat.lt_of_lt_of_le (hv a e) k.1
        have hread : value.readAt hh v.data_ = value.read (contents hh u) fl := by
          cases value with
          | outside x => rfl
          | element i =>
            show slot (load hh v.data_) i = if fl = true then none else slot (load hh u.data_) i
            cases fl with
            | false => simp [hF rfl]
            | true => simp [(hT rfl).1, slot]
        obtain ⟨p1, p2, p3, p4⟩ := PushBackRef_tracks E w1 hh u hiu (value.readAt hh v.data_)
        obtain ⟨q1, q2⟩ := PushBackRef_block E w1 hh u (value.readAt hh v.data_) hiu
        have hn : NeedResizeUp (contents hh u : Vector α) = OnHeap.NeedResizeUp u := rfl
        unfold pushRef
        simp only [← hread, hn, ← p2]
        refine ⟨p1, trivial, p3, Keeps_trans _ _ _ _ _ _ k p4, fun hfl => ?_, fun hfl => ?_⟩
        · have hf1 : fl = false := by
            cases fl with
            | false => rfl
            | true => simp at hfl
          rw [q2 (fun hc => by
            obtain ⟨c1, c2⟩ := hc
            rw [hf1, c1] at hfl
            simp [c2] at hfl), hF hf1]
        · cases fl with
          | true =>
            obtain ⟨g1, g2⟩ := hT rfl
            refine ⟨?_, ?_⟩
            · rw [Keeps_load _ _ _ _ p4 v.data_ hivh g2]
              exact g1
            · by_cases hvn : v.data_ = none
              · exact Or.inl hvn
              · refine Or.inr (fun e => ?_)
                obtain ⟨a, hd⟩ := Option.ne_none_iff_exists'.mp hvn
                rcases (p4.2.2 a (e.trans hd)).2 with e2 | e2
                · rcases g2 with g3 | g3
                  · exact hvn g3
                  · exact g3 (by rw [e2, hd])
                · have := hivh a hd
                  omega
          | false =>
            have hc : OnHeap.NeedResizeUp u = true ∧
                (OnHeap.PushBackRef E w1 (hh, u) (value.readAt hh v.data_)).status = .ok := by
              simp only [Bool.false_or, Bool.and_eq_true, decide_eq_true_eq] at hfl
              exact hfl
            obtain ⟨g1, g2⟩ := q1 hc.1 hc.2
            rw [hF rfl] at g1
            refine ⟨g1, ?_⟩
            by_cases hvn : v.data_ = none
            · exact Or.inl hvn
            · refine Or.inr (fun e => ?_)
              obtain ⟨a, hd⟩ := Option.ne_none_iff_exists'.mp hvn
              have h2 := g2 a (e.trans hd)
              have := hivh a hd
              omega)
      (n - v.used_) w (h, v) (contents h v, false)
      ⟨rfl, Keeps_refl h v hv, fun _ => rfl, fun hf => by simp at hf⟩
    exact ⟨hloop.1, hloop.2.1, hloop.2.2.1, hloop.2.2.2.1⟩

/-- The call `v.Resize(5, v[0])` on `v = {4, 5}` with capacity 2, on the heap: after the
first append the block at address 0, which the reference `v[0]` points into, is released;
the later appends read through the reference in that block. -/
theorem ResizeValueOnHeap_element :
    (OnHeap.ResizeValue budgetOps 9 ([some [some 4, some 5]], ⟨2, 2, some 0⟩) 3
        (.element 0)).st =
      ([none, some [some 4, some 5, some 4, none, none]], ⟨5, 3, some 1⟩) ∧
    (OnHeap.ResizeValue budgetOps 9 ([some [some 4, some 5]], ⟨2, 2, some 0⟩) 5
        (.element 0)).st =
      ([none, some [some 4, some 5, some 4, none, none]], ⟨5, 5, some 1⟩) ∧
    (OnHeap.ResizeValue budgetOps 9 ([some [some 4, some 5]], ⟨2, 2, some 0⟩) 5
        (.outside 4)).st =
      ([none, some [some 4, some 5, some 4, some 4, some 4]], ⟨5, 5, some 1⟩) := by
  decide

/-- Each mutation on the heap does what it does on the value of the vector, and keeps to
the storage of the vector. -/
theorem mutate_tracks (E : ElemOps σ α) (m : Mutation α) (w : σ) (h : Heap α) (v : VectorRep)
    (hv : InHeap h v) :
    Tracks h v (OnHeap.mutate E m w (h, v)) (mutate E m w (contents h v)) := by
  cases m with
  | pushBack x => exact PushBack_tracks E w h v hv x
  | pushBackMove x => exact PushBackMove_tracks E w h v hv x
  | popBack => exact PopBack_tracks w h v hv
  | resize n => exact Resize_tracks E w h v hv n
  | resizeValue n r => exact ResizeValue_tracks E w h v hv n r
  | clear => exact ⟨rfl, rfl, (Clear_tracks h v hv).1, (Clear_tracks h v hv).2⟩
  | write i x => exact ⟨rfl, rfl, (IndexWrite_tracks h v hv i x).1, (IndexWrite_tracks h v hv i x).2⟩

/-- A sequence of mutations of one vector on the heap ends in the oracle state and the
value in which it ends on the value of the vector, and keeps to the storage of the vector. -/
theorem mutateAll_tracks (E : ElemOps σ α) (ms : List (Mutation α)) :
    ∀ (w : σ) (h : Heap α) (v : VectorRep), InHeap h v →
      (OnHeap.mutateAll E ms w (h, v)).1 = (mutateAll E ms w (contents h v)).1 ∧
      contents (OnHeap.mutateAll E ms w (h, v)).2.1 (OnHeap.mutateAll E ms w (h, v)).2.2 =
        (mutateAll E ms w (contents h v)).2 ∧
      Keeps h v (OnHeap.mutateAll E ms w (h, v)).2.1 (OnHeap.mutateAll E ms w (h, v)).2.2 := by
  induction ms with
  | nil =>
    intro w h v hv
    exact ⟨rfl, rfl, Keeps_refl h v hv⟩
  | cons m ms ih =>
    intro w h v hv
    obtain ⟨t1, _, t3, t4⟩ := mutate_tracks E m w h v hv
    obtain ⟨i1, i2, i3⟩ := ih (OnHeap.mutate E m w (h, v)).world (OnHeap.mutate E m w (h, v)).st.1
      (OnHeap.mutate E m w (h, v)).st.2 (Keeps_inHeap _ _ _ _ t4)
    refine ⟨?_, ?_, Keeps_trans _ _ _ _ _ _ t4 i3⟩
    · show (OnHeap.mutateAll E ms (OnHeap.mutate E m w (h, v)).world
          (OnHeap.mutate E m w (h, v)).st).1 =
        (mutateAll E ms (mutate E m w (contents h v)).world (mutate E m w (contents h v)).st).1
      rw [← t1, ← t3]
      exact i1
    · show contents (OnHeap.mutateAll E ms (OnHeap.mutate E m w (h, v)).world
          (OnHeap.mutate E m w (h, v)).st).2.1
          (OnHeap.mutateAll E ms (OnHeap.mutate E m w (h, v)).world
            (OnHeap.mutate E m w (h, v)).st).2.2 =
        (mutateAll E ms (mutate E m w (contents h v)).world (mutate E m w (contents h v)).st).2
      rw [← t1, ← t3]
      exact i2

theorem ConstructCopy_length (E : ElemOps σ α) (w : σ) (p : List (Option α)) (i : Nat)
    (x : Option α) : (ConstructCopy E w p i x).st.length = p.length := by
  cases x with
  | none => simp [ConstructCopy]
  | some a =>
    unfold ConstructCopy
    cases hc : (E.copyCtor w a).2 <;> simp [hc]

/-- The copy constructor on the heap builds what it builds on the value of `other`, in a
block obtained for it, and leaves every block of the heap as it was. -/
theorem CopyCtor_tracks (E : ElemOps σ α) (w : σ) (h : Heap α) (other : VectorRep)
    (ho : InHeap h other) :
    Tracks h ⟨0, 0, none⟩ (OnHeap.CopyCtor E w h other) (CopyCtor E w (contents h other)) := by
  obtain ⟨b1, b2, b3, b4⟩ := VectorBufCtor_tracks E w h other.used_
  rw [CopyCtor_eq_loop]
  unfold OnHeap.CopyCtor
  have hu : (contents h other : Vector α).used_ = other.used_ := rfl
  rw [hu, ← b2]
  by_cases hs : (OnHeap.VectorBufCtor E w h other.used_).status = .ok
  · rw [if_pos hs, if_pos hs]
    have hloop := whileLoop_sim
      (fun (s : Heap α × VectorRep) (t : Vector α) =>
        contents s.1 s.2 = t ∧ Keeps h ⟨0, 0, none⟩ s.1 s.2)
      (fun s : Heap α × VectorRep => decide (s.2.used_ < other.used_))
      (fun v : Vector α => decide (v.used_ < other.used_))
      (OnHeap.copyElement E other) (copyElement E (contents h other))
      (by
        intro s t hR
        show decide (s.2.used_ < other.used_) = decide (t.used_ < other.used_)
        rw [← hR.1]
        rfl)
      (by
        intro w1 s t hR _
        obtain ⟨hh, u⟩ := s
        obtain ⟨e1, k⟩ := hR
        simp only at e1 k
        subst e1
        have hl : load hh other.data_ = load h other.data_ :=
          Keeps_load _ _ _ _ k other.data_ ho (by
            cases hd : other.data_ with
            | none => exact Or.inl rfl
            | some a => exact Or.inr (by simp))
        have hlen := ConstructCopy_length E w1 (load hh u.data_) u.used_
          (slot (load h other.data_) u.used_)
        unfold OnHeap.copyElement copyElement
        simp only [hl, contents]
        refine ⟨trivial, trivial, ?_, Keeps_trans _ _ _ _ _ _ k
          (Keeps_store _ _ (Keeps_inHeap _ _ _ _ k) _ _ _)⟩
        show (⟨_, _, _⟩ : Vector α) = ⟨_, _, _⟩
        rw [load_store _ _ _ (Keeps_inHeap _ _ _ _ k) (fun e => by
          apply List.length_eq_zero.mp
          rw [hlen, e]
          rfl)])
      other.used_ (OnHeap.VectorBufCtor E w h other.used_).world
      (OnHeap.VectorBufCtor E w h other.used_).st (VectorBufCtor E w other.used_).st ⟨b3, b4⟩
    rw [← b1]
    exact ⟨hloop.1, hloop.2.1, hloop.2.2.1, hloop.2.2.2⟩
  · rw [if_neg hs, if_neg hs]
    exact ⟨b1, b2, b3, b4⟩

/-- Copy assignment on the heap does what it does on the values of `*this` and `other`, and
keeps to the storage of `*this`. -/
theorem CopyAssign_tracks (E : ElemOps σ α) (w : σ) (h : Heap α) (v other : VectorRep)
    (hv : InHeap h v) (ho : InHeap h other) :
    Tracks h v (OnHeap.CopyAssign E w (h, v) other)
      (CopyAssign E w (contents h v) (contents h other)) := by
  obtain ⟨t1, t2, t3, t4⟩ := CopyCtor_tracks E w h other ho
  have hb := Beside_of_Keeps h _ v _ t4
  unfold OnHeap.CopyAssign CopyAssign Tracks
  simp only [stdSwapOnHeap_eq, stdSwap_eq]
  rw [← t2, ← t1]
  by_cases hs : (OnHeap.CopyCtor E w h other).status = .ok
  · simp only [hs, if_true]
    obtain ⟨d1, d2⟩ := Dtor_swapped h _ v _ hv hb
    exact ⟨trivial, trivial, d1.trans t3, d2⟩
  · simp only [hs, if_false]
    obtain ⟨d1, d2⟩ := Dtor_unwound h _ v _ hv hb
    refine ⟨trivial, trivial, ?_, d2⟩
    rw [d1]
    show (⟨_, _, _⟩ : Vector α) = ⟨_, _, _⟩
    rw [Keeps_load _ _ _ _ t4 v.data_ hv (by
      cases hd : v.data_ with
      | none => exact Or.inl rfl
      | some a => exact Or.inr (by simp))]

/-- The loop of the copy constructor returns exactly when the copies of the elements it
still has to make all return. -/
theorem CopyCtor_loop_returns (E : ElemOps σ α) (a : Vector α) (w : σ) (v : Vector α)
    (hu : v.used_ ≤ a.used_) :
    (whileLoop (fun v : Vector α => decide (v.used_ < a.used_)) (copyElement E a)
        (a.used_ - v.used_) w v).status = .ok ↔
      elementCopiesReturn E a (a.used_ - v.used_) v.used_ w = true := by
  have hloop := whileLoop_spec (fun v : Vector α => decide (v.used_ < a.used_))
    (copyElement E a)
    (fun w1 s => s.used_ ≤ a.used_ ∧
      elementCopiesReturn E a (a.used_ - s.used_) s.used_ w1 =
        elementCopiesReturn E a (a.used_ - v.used_) v.used_ w)
    (fun _ => elementCopiesReturn E a (a.used_ - v.used_) v.used_ w = false)
    (fun s => a.used_ - s.used_)
    (by
      intro w1 s hP hc
      simp only [decide_eq_true_eq] at hc
      show 0 < a.used_ - s.used_
      omega)
    (by
      intro w1 s hP hc
      obtain ⟨h1, h3⟩ := hP
      simp only [decide_eq_true_eq] at hc
      have hk : a.used_ - s.used_ = (a.used_ - (s.used_ + 1)) + 1 := by omega
      rw [hk, elementCopiesReturn] at h3
      obtain ⟨hw, hok, hbad⟩ := ConstructCopy_outcome E w1 s.data_ s.used_ (slot a.data_ s.used_)
      unfold copyElement
      cases hd : (copyOutcome E w1 (slot a.data_ s.used_)).2 with
      | true =>
        obtain ⟨hst, _⟩ := hok hd
        rw [hd, Bool.true_and] at h3
        refine ⟨fun _ => ⟨⟨?_, ?_⟩, ?_⟩, fun hne => absurd hst hne⟩
        · show (if _ then s.used_ + 1 else s.used_) ≤ a.used_
          rw [if_pos hst]
          omega
        · show elementCopiesReturn E a (a.used_ - (if _ then s.used_ + 1 else s.used_))
            (if _ then s.used_ + 1 else s.used_)
            (ConstructCopy E w1 s.data_ s.used_ (slot a.data_ s.used_)).world = _
          rw [if_pos hst, hw]
          exact h3
        · show a.used_ - (if _ then s.used_ + 1 else s.used_) < a.used_ - s.used_
          rw [if_pos hst]
          omega
      | false =>
        have hst := hbad hd
        rw [hd, Bool.false_and] at h3
        exact ⟨fun hs => by
          have h2 : (ConstructCopy E w1 s.data_ s.used_ (slot a.data_ s.used_)).status = .ok := hs
          rw [hst] at h2
          exact absurd h2 (by simp), fun _ => h3.symm⟩)
    (a.used_ - v.used_) w v ⟨hu, rfl⟩ (Nat.le_refl _)
  generalize whileLoop (fun v : Vector α => decide (v.used_ < a.used_)) (copyElement E a)
    (a.used_ - v.used_) w v = R at hloop ⊢
  constructor
  · intro hs
    obtain ⟨⟨h1, h3⟩, hc⟩ := hloop.1 hs
    simp only [decide_eq_false_iff_not, Nat.not_lt] at hc
    have hz : a.used_ - R.st.used_ = 0 := by omega
    rw [hz] at h3
    rw [← h3]
    rfl
  · intro hd
    by_cases hs : R.status = .ok
    · exact hs
    · have := hloop.2 hs
      rw [hd] at this
      exact absurd this (by simp)

/-- The copy constructor returns exactly when its block is obtained and the copies of the
elements of `other` all return. -/
theorem CopyCtor_returns (E : ElemOps σ α) (w : σ) (a : Vector α) :
    (CopyCtor E w a).status = .ok ↔
      (a.used_ = 0 ∨ (E.alloc w a.used_).2 = true) ∧
        elementCopiesReturn E a a.used_ 0 (VectorBufCtor E w a.used_).world = true := by
  obtain ⟨_, hb2, hb3⟩ := VectorBufCtor_spec E w a.used_
  rw [CopyCtor_eq_loop]
  by_cases hbs : (VectorBufCtor E w a.used_).status = .ok
  · rw [if_pos hbs, hb2 hbs]
    have h := CopyCtor_loop_returns E a (VectorBufCtor E w a.used_).world
      ⟨a.used_, 0, rawBlock a.used_⟩ (Nat.zero_le _)
    have h0 : a.used_ - (⟨a.used_, 0, rawBlock a.used_⟩ : Vector α).used_ = a.used_ :=
      Nat.sub_zero _
    rw [h0] at h
    rw [h]
    exact ⟨fun hd => ⟨hb3.1 hbs, hd⟩, fun hd => hd.2⟩
  · rw [if_neg hbs]
    exact ⟨fun h => absurd h hbs, fun h => absurd (hb3.2 h.1) hbs⟩

/-- Copy assignment returns exactly when the copy constructor does, and then `*this` is
the copy. -/
theorem CopyAssign_eq (E : ElemOps σ α) (w : σ) (v other : Vector α) :
    (CopyAssign E w v other).status = (CopyCtor E w other).status ∧
    ((CopyCtor E w other).status = .ok → (CopyAssign E w v other).st = (CopyCtor E w other).st) := by
  have hA : CopyAssign E w v other =
      if (CopyCtor E w other).status = .ok then
        ⟨(CopyCtor E w other).world, (stdSwap v (CopyCtor E w other).st).1, .ok⟩
      else ⟨(CopyCtor E w other).world, v, (CopyCtor E w other).status⟩ := rfl
  rw [hA]
  by_cases hs : (CopyCtor E w other).status = .ok
  · rw [if_pos hs]
    exact ⟨hs.symm, fun _ => rfl⟩
  · rw [if_neg hs]
    exact ⟨rfl, fun h => absurd h hs⟩

/-- Two vectors of a heap, the second one outside the block of the first: a sequence of
mutations of the first leaves the second as it was. -/
theorem mutateAll_frame (E : ElemOps σ α) (ms : List (Mutation α)) (w : σ) (h : Heap α)
    (v u : VectorRep) (hv : InHeap h v) (hu : InHeap h u)
    (hne : u.data_ = none ∨ v.data_ ≠ u.data_) :
    contents (OnHeap.mutateAll E ms w (h, v)).2.1 u = (contents h u : Vector α) := by
  obtain ⟨_, _, k⟩ := mutateAll_tracks E ms w h v hv
  show (⟨_, _, _⟩ : Vector α) = ⟨_, _, _⟩
  rw [Keeps_load _ _ _ _ k u.data_ hu hne]

/-- Two vectors `a` and `b` of a heap that own different blocks: a sequence of mutations of
`b` does on the heap what it does on the value of `b` and leaves `a` as it was, and a
sequence of mutations of `a` does what it does on the value of `a` and leaves `b` as it
was. -/
theorem mutateAll_independent (E : ElemOps σ α) (h : Heap α) (a b : VectorRep)
    (ha : InHeap h a) (hb : InHeap h b) (hne : ∀ x, b.data_ = some x → a.data_ ≠ some x)
    (ms : List (Mutation α)) (w : σ) :
    contents (OnHeap.mutateAll E ms w (h, b)).2.1 a = (contents h a : Vector α) ∧
    contents (OnHeap.mutateAll E ms w (h, b)).2.1 (OnHeap.mutateAll E ms w (h, b)).2.2 =
      (mutateAll E ms w (contents h b)).2 ∧
    contents (OnHeap.mutateAll E ms w (h, a)).2.1 b = (contents h b : Vector α) ∧
    contents (OnHeap.mutateAll E ms w (h, a)).2.1 (OnHeap.mutateAll E ms w (h, a)).2.2 =
      (mutateAll E ms w (contents h a)).2 := by
  have h1 : a.data_ = none ∨ b.data_ ≠ a.data_ := by
    cases hd : a.data_ with
    | none => exact Or.inl rfl
    | some x => exact Or.inr (fun e => hne x e hd)
  have h2 : b.data_ = none ∨ a.data_ ≠ b.data_ := by
    cases hd : b.data_ with
    | none => exact Or.inl rfl
    | some x => exact Or.inr (fun e => hne x hd e)
  exact ⟨mutateAll_frame E ms w h b a hb ha h1, (mutateAll_tracks E ms w h b hb).2.1,
    mutateAll_frame E ms w h a b ha hb h2, (mutateAll_tracks E ms w h a ha).2.1⟩

end Tracking

/-! ## The claims -/

section Claims

variable {σ α : Type}

/-- C1: every public operation of `Vector` keeps `Size() <= Capacity()`: when it holds for
`*this` and `other` before the call, it holds after the call for the object built by a
constructor and for every container the call touches, whatever the status of the call
(normal return or exception). -/
theorem C1_size_le_capacity_preserved (E : ElemOps σ α) (w : σ) (v other : Vector α)
    (n : Nat) (x : α) (r : Ref α) (xs : List α) (ctor : σ → σ × Option α)
    (hv : Size v ≤ Capacity v) (ho : Size other ≤ Capacity other) :
    Size (VectorCtor E w n).st ≤ Capacity (VectorCtor E w n).st ∧
    Size (VectorCtorFill E w n x).st ≤ Capacity (VectorCtorFill E w n x).st ∧
    Size (VectorCtorRange E w xs).st ≤ Capacity (VectorCtorRange E w xs).st ∧
    Size (VectorCtorInitList E w xs).st ≤ Capacity (VectorCtorInitList E w xs).st ∧
    Size (CopyCtor E w other).st ≤ Capacity (CopyCtor E w other).st ∧
    (Size (MoveCtor other).1 ≤ Capacity (MoveCtor other).1 ∧
      Size (MoveCtor other).2 ≤ Capacity (MoveCtor other).2) ∧
    Size (CopyAssign E w v other).st ≤ Capacity (CopyAssign E w v other).st ∧
    (Size (MoveAssign v other).1 ≤ Capacity (MoveAssign v other).1 ∧
      Size (MoveAssign v other).2 ≤ Capacity (MoveAssign v other).2) ∧
    Size (PushBack E w v x).st ≤ Capacity (PushBack E w v x).st ∧
    Size (PushBackMove E w v x).st ≤ Capacity (PushBackMove E w v x).st ∧
    Size (EmplaceBack E ctor w v).st ≤ Capacity (EmplaceBack E ctor w v).st ∧
    Size (PopBack w v).st ≤ Capacity (PopBack w v).st ∧
    Size (Resize E w v n).st ≤ Capacity (Resize E w v n).st ∧
    Size (ResizeValue E w v n r).st ≤ Capacity (ResizeValue E w v n r).st ∧
    Size (Reserve E w v n).st ≤ Capacity (Reserve E w v n).st ∧
    Size (ShrinkToFit E w v).st ≤ Capacity (ShrinkToFit E w v).st ∧
    Size (Clear v) ≤ Capacity (Clear v) ∧
    (Size (Swap v other).1 ≤ Capacity (Swap v other).1 ∧
      Size (Swap v other).2 ≤ Capacity (Swap v other).2) := by
  simp only [Size, Capacity] at *
  exact ⟨VectorCtor_inv E w n, VectorCtorFill_inv E w n x, VectorCtorRange_inv E w xs,
    VectorCtorRange_inv E w xs, CopyCtor_inv E w other, ⟨ho, Nat.le_refl _⟩,
    CopyAssign_inv E w v other hv, ⟨ho, Nat.le_refl _⟩, PushBack_inv E w v x hv,
    PushBackMove_inv E w v x hv, EmplaceBack_inv E ctor w v hv, PopBack_inv w v hv,
    Resize_inv E w v n hv, ResizeValue_inv E w v n r hv, Reserve_inv E w v n hv,
    ShrinkToFit_inv E w v hv, Nat.zero_le _, ⟨ho, hv⟩⟩

/-- C1 at a full vector `{4, 5}` and an allocation budget of 1: the growing `PushBack`
and the failing `Resize(7)` both keep `Size() <= Capacity()`. -/
theorem C1_size_le_capacity_preserved_witness :
    Size (⟨2, 2, [some 4, some 5]⟩ : Vector Nat) ≤ Capacity (⟨2, 2, [some 4, some 5]⟩ : Vector Nat) ∧
    Size (PushBackMove budgetOps 1 ⟨2, 2, [some 4, some 5]⟩ 6).st = 3 ∧
    Capacity (PushBackMove budgetOps 1 ⟨2, 2, [some 4, some 5]⟩ 6).st = 5 ∧
    (Resize budgetOps 1 ⟨2, 2, [some 4, some 5]⟩ 7).status = .threw .element ∧
    Size (Resize budgetOps 1 ⟨2, 2, [some 4, some 5]⟩ 7).st ≤
      Capacity (Resize budgetOps 1 ⟨2, 2, [some 4, some 5]⟩ 7).st :=
  ⟨by decide, by decide, by decide, by decide,
    (C1_size_le_capacity_preserved budgetOps 1 ⟨2, 2, [some 4, some 5]⟩ ⟨0, 0, []⟩ 7 6 (.element 0) []
      (fun w => (w, none)) (by decide) (by decide)).2.2.2.2.2.2.2.2.2.2.2.2.1⟩

/-- C2: on a vector with `Size() <= Capacity()` whose block has `Capacity()` slots, a
`PushBack(x)` that returns, by move or by copy, gives length `Size() + 1`, the element `x` at
index `Size()` and the old elements at the indices below, whether the append fits or
grows the block; by move it returns whenever the append fits or the allocation of the
grown block succeeds, and by copy it is the append by move after a successful copy. -/
theorem C2_PushBack_appends (E : ElemOps σ α) (w : σ) (v : Vector α) (x : α)
    (hinv : Size v ≤ Capacity v) (hblock : v.data_.length = Capacity v) :
    ((PushBackMove E w v x).status = .ok →
      Size (PushBackMove E w v x).st = Size v + 1 ∧
      Index (PushBackMove E w v x).st (Size v) = some x ∧
      ∀ i, i < Size v → Index (PushBackMove E w v x).st i = Index v i) ∧
    ((PushBack E w v x).status = .ok →
      Size (PushBack E w v x).st = Size v + 1 ∧
      Index (PushBack E w v x).st (Size v) = some x ∧
      ∀ i, i < Size v → Index (PushBack E w v x).st i = Index v i) ∧
    (Size v < Capacity v → (PushBackMove E w v x).status = .ok) ∧
    (Size v = Capacity v → (E.alloc w (2 * Capacity v + 1)).2 = true →
      (PushBackMove E w v x).status = .ok) ∧
    ((E.copyCtor w x).2 = true →
      PushBack E w v x = PushBackMove E (E.copyCtor w x).1 v x) := by
  simp only [Size, Capacity, Index] at *
  refine ⟨?_, ?_, ?_, ?_, ?_⟩
  · intro hs
    obtain ⟨hu, _, _, hlo, hx⟩ := (PushBackAux_spec E 1 w v (some x) hinv hblock).2.2 hs
    exact ⟨hu, hx, hlo⟩
  · intro hs
    obtain ⟨hu, _, _, hlo, hx⟩ := (PushBack_spec E w v x hinv hblock).2.2 hs
    exact ⟨hu, hx, hlo⟩
  · intro hlt
    show (PushBackAux E (2 + 1) w v (some x)).status = .ok
    rw [PushBackAux_fits E 2 w v (some x) (by omega)]
  · intro heq ha
    exact ((PushBackAux_full E 1 w v (some x) heq).2 ha).2.1
  · intro hc
    simp [PushBack, hc]

/-- C2 at the full vector `{4, 5}`: the append by copy grows the block and yields
`{4, 5, 6}`. -/
theorem C2_PushBack_appends_witness :
    (PushBack budgetOps 2 ⟨2, 2, [some 4, some 5]⟩ 6).status = .ok ∧
    Size (PushBack budgetOps 2 ⟨2, 2, [some 4, some 5]⟩ 6).st = 2 + 1 ∧
    Index (PushBack budgetOps 2 ⟨2, 2, [some 4, some 5]⟩ 6).st 2 = some 6 ∧
    ∀ i, i < 2 → Index (PushBack budgetOps 2 ⟨2, 2, [some 4, some 5]⟩ 6).st i =
      Index (⟨2, 2, [some 4, some 5]⟩ : Vector Nat) i :=
  ⟨by decide,
    (C2_PushBack_appends budgetOps 2 ⟨2, 2, [some 4, some 5]⟩ 6 (by decide) (by decide)).2.1
      (by decide)⟩

/-- C3: a `PushBack` (by move or by copy) that returns on a vector with length `L` equal
to its capacity `c` leaves the capacity `2 * c + 1`; with `L < c` the capacity stays `c`
(and the append by move returns); so the capacity is larger after the call only if
`L == c` held before it. -/
theorem C3_PushBack_capacity (E : ElemOps σ α) (w : σ) (v : Vector α) (x : α) :
    (Size v = Capacity v → (PushBackMove E w v x).status = .ok →
      Capacity (PushBackMove E w v x).st = 2 * Capacity v + 1) ∧
    (Size v = Capacity v → (PushBack E w v x).status = .ok →
      Capacity (PushBack E w v x).st = 2 * Capacity v + 1) ∧
    (Size v < Capacity v →
      (PushBackMove E w v x).status = .ok ∧
      Capacity (PushBackMove E w v x).st = Capacity v) ∧
    (Size v < Capacity v → Capacity (PushBack E w v x).st = Capacity v) ∧
    (Capacity v < Capacity (PushBackMove E w v x).st → Size v = Capacity v) ∧
    (Capacity v < Capacity (PushBack E w v x).st → Size v = Capacity v) := by
  simp only [Size, Capacity]
  have hfull : ∀ w1 : σ, v.used_ = v.size_ → (PushBackMove E w1 v x).status = .ok →
      (PushBackMove E w1 v x).st.size_ = 2 * v.size_ + 1 := by
    intro w1 heq hs
    have hf := PushBackAux_full E 1 w1 v (some x) heq
    cases ha : (E.alloc w1 (2 * v.size_ + 1)).2 with
    | false =>
      have h1 : (PushBackMove E w1 v x).status = .threw .bad_alloc := by
        show (PushBackAux E (1 + 2) w1 v (some x)).status = _
        rw [hf.1 ha]
      rw [h1] at hs
      exact absurd hs (by simp)
    | true => exact (hf.2 ha).2.2.1
  have hfits : ∀ w1 : σ, v.used_ ≠ v.size_ →
      PushBackMove E w1 v x =
        ⟨w1, { v with data_ := Construct v.data_ v.used_ (some x), used_ := v.used_ + 1 }, .ok⟩ :=
    fun w1 hne => PushBackAux_fits E 2 w1 v (some x) hne
  have hcopy : PushBack E w v x =
      if (E.copyCtor w x).2 = true then PushBackMove E (E.copyCtor w x).1 v x
      else ⟨(E.copyCtor w x).1, v, .threw .element⟩ := rfl
  refine ⟨hfull w, ?_, ?_, ?_, ?_, ?_⟩
  · intro heq hs
    rw [hcopy] at hs ⊢
    by_cases hc : (E.copyCtor w x).2 = true
    · rw [if_pos hc] at hs ⊢
      exact hfull _ heq hs
    · rw [if_neg hc] at hs
      exact absurd hs (by simp)
  · intro hlt
    rw [hfits w (by omega)]
    exact ⟨rfl, rfl⟩
  · intro hlt
    rw [hcopy]
    by_cases hc : (E.copyCtor w x).2 = true
    · rw [if_pos hc, hfits _ (by omega)]
    · rw [if_neg hc]
  · intro hgt
    by_contra hne
    rw [hfits w hne] at hgt
    exact Nat.lt_irrefl _ hgt
  · intro hgt
    by_contra hne
    rw [hcopy] at hgt
    by_cases hc : (E.copyCtor w x).2 = true
    · rw [if_pos hc, hfits _ hne] at hgt
      exact Nat.lt_irrefl _ hgt
    · rw [if_neg hc] at hgt
      exact Nat.lt_irrefl _ hgt

/-- C3 at the full vector `{4, 5}` (capacity 2): the append leaves capacity 5. -/
theorem C3_PushBack_capacity_witness :
    Capacity (PushBack budgetOps 2 ⟨2, 2, [some 4, some 5]⟩ 6).st = 2 * 2 + 1 :=
  (C3_PushBack_capacity budgetOps 2 ⟨2, 2, [some 4, some 5]⟩ 6).2.1 (by decide) (by decide)

/-- C4: `PopBack` throws the underflow error exactly when the length is 0, and then
leaves the vector as it was; on a non-empty vector it returns, the length is one less, the
capacity is the same and the elements below the new length are the old ones. -/
theorem C4_PopBack (w : σ) (v : Vector α) :
    ((PopBack w v).status = .threw .underflow_error ↔ Size v = 0) ∧
    (Size v = 0 → (PopBack w v).st = v) ∧
    (Size v ≠ 0 →
      (PopBack w v).status = .ok ∧
      Size (PopBack w v).st = Size v - 1 ∧
      Capacity (PopBack w v).st = Capacity v ∧
      ∀ i, i < Size v - 1 → Index (PopBack w v).st i = Index v i) := by
  simp only [Size, Capacity, Index]
  by_cases h : v.used_ = 0
  · have he : PopBack w v = ⟨w, v, .threw .underflow_error⟩ := by
      simp [PopBack, Empty, h]
    rw [he]
    exact ⟨⟨fun _ => h, fun _ => rfl⟩, fun _ => rfl, fun hne => absurd h hne⟩
  · have he : PopBack w v =
        ⟨w, { v with used_ := v.used_ - 1, data_ := Destroy v.data_ (v.used_ - 1) }, .ok⟩ := by
      simp [PopBack, Empty, h]
    rw [he]
    refine ⟨⟨fun hs => by simp at hs, fun h0 => absurd h0 h⟩, fun h0 => absurd h0 h,
      fun _ => ⟨rfl, rfl, rfl, ?_⟩⟩
    intro i hi
    show slot (Destroy v.data_ (v.used_ - 1)) i = slot v.data_ i
    exact slot_set_ne _ _ _ _ (by omega)

/-- C4 on `{4, 5}` with capacity 3: `PopBack` returns and leaves `{4}` with capacity 3. -/
theorem C4_PopBack_witness :
    (PopBack () (⟨3, 2, [some 4, some 5, none]⟩ : Vector Nat)).status = .ok ∧
    Size (PopBack () (⟨3, 2, [some 4, some 5, none]⟩ : Vector Nat)).st = 2 - 1 ∧
    Capacity (PopBack () (⟨3, 2, [some 4, some 5, none]⟩ : Vector Nat)).st = 3 ∧
    ∀ i, i < 2 - 1 → Index (PopBack () (⟨3, 2, [some 4, some 5, none]⟩ : Vector Nat)).st i =
      Index (⟨3, 2, [some 4, some 5, none]⟩ : Vector Nat) i :=
  (C4_PopBack () (⟨3, 2, [some 4, some 5, none]⟩ : Vector Nat)).2.2 (by decide)

/-- C5: `At(i)` throws the out-of-range error exactly when `i >= Size()`, and otherwise
returns the element `operator[]` returns; so `At(Size())` throws and `At(Size() - 1)`
returns on a non-empty vector. -/
theorem C5_At (v : Vector α) (i : Nat) :
    (At v i = .error .out_of_range ↔ Size v ≤ i) ∧
    (i < Size v → At v i = .ok (Index v i)) ∧
    At v (Size v) = .error .out_of_range ∧
    (Size v ≠ 0 → At v (Size v - 1) = .ok (Index v (Size v - 1))) := by
  simp only [Size, Index, At]
  refine ⟨?_, ?_, ?_, ?_⟩
  · by_cases h : i ≥ v.used_
    · simp [h]
    · simp only [h, if_false]
      constructor
      · intro hc; cases hc
      · intro hc; exact hc.elim
  · intro h
    have : ¬ i ≥ v.used_ := by omega
    simp only [this, if_false]
  · simp
  · intro h
    have : ¬ v.used_ - 1 ≥ v.used_ := by omega
    simp only [this, if_false]

/-- C5 on `{4, 5}`: `At(1)` returns the element at index 1. -/
theorem C5_At_witness :
    At (⟨3, 2, [some 4, some 5, none]⟩ : Vector Nat) 1 = .ok (some 5) :=
  (C5_At (⟨3, 2, [some 4, some 5, none]⟩ : Vector Nat) 1).2.1 (by decide)

/-- C6: `Reserve(n)` with `n <= Capacity()` changes nothing; with `n > Capacity()`, on a
vector with `Size() <= Capacity()`, it returns exactly when the allocation succeeds, and
then the capacity is `n`, the length is the same and the elements are the same. -/
theorem C6_Reserve (E : ElemOps σ α) (w : σ) (v : Vector α) (n : Nat)
    (hinv : Size v ≤ Capacity v) :
    (n ≤ Capacity v → Reserve E w v n = ⟨w, v, .ok⟩) ∧
    (Capacity v < n → ((Reserve E w v n).status = .ok ↔ (E.alloc w n).2 = true)) ∧
    (Capacity v < n → (Reserve E w v n).status = .ok →
      Capacity (Reserve E w v n).st = n ∧
      Size (Reserve E w v n).st = Size v ∧
      ∀ i, i < Size v → Index (Reserve E w v n).st i = Index v i) := by
  simp only [Size, Capacity, Index] at *
  rw [Reserve_eq]
  refine ⟨fun h => by rw [if_pos h], ?_, ?_⟩
  · intro h
    rw [if_neg (by omega)]
    cases (E.alloc w n).2 <;> simp
  · intro h
    rw [if_neg (by omega)]
    cases (E.alloc w n).2 with
    | false => intro hs; simp at hs
    | true =>
      intro _
      refine ⟨rfl, rfl, ?_⟩
      intro i hi
      show slot (moveAll E v.data_ (rawBlock n) v.used_).2 i = slot v.data_ i
      rw [(moveAll_spec E v.data_ (rawBlock n) v.used_).2.2.2 i]
      have : i < v.used_ ∧ i < (rawBlock n : List (Option α)).length := by
        simp only [rawBlock, List.length_replicate]
        omega
      rw [if_pos this]

/-- C6 on `{4, 5}` with capacity 2: `Reserve(6)` gives capacity 6 and keeps `{4, 5}`. -/
theorem C6_Reserve_witness :
    Capacity (Reserve budgetOps 1 ⟨2, 2, [some 4, some 5]⟩ 6).st = 6 ∧
    Size (Reserve budgetOps 1 ⟨2, 2, [some 4, some 5]⟩ 6).st = 2 ∧
    ∀ i, i < 2 → Index (Reserve budgetOps 1 ⟨2, 2, [some 4, some 5]⟩ 6).st i =
      Index (⟨2, 2, [some 4, some 5]⟩ : Vector Nat) i :=
  (C6_Reserve budgetOps 1 ⟨2, 2, [some 4, some 5]⟩ 6 (by decide)).2.2 (by decide) (by decide)

/-- C7: after a `Reserve(n)` that returns, in any sequence of `PushBack` calls (by copy or
by move, a throwing copy included) with `Size() + k <= n`, no call finds `used_ == size_`,
no call allocates, and the capacity before and after each call is the capacity right
after `Reserve`. The sequence is `ps ++ c :: rest`, the call looked at is `c`. -/
theorem C7_Reserve_then_appends (E : ElemOps σ α) (w : σ) (v : Vector α) (n : Nat)
    (ps : List (Call α)) (c : Call α) (rest : List (Call α))
    (happ : ∀ a ∈ ps ++ c :: rest, a.isAppend = true)
    (hlen : Size v + (ps ++ c :: rest).length ≤ n)
    (hres : (Reserve E w v n).status = .ok) :
    NeedResizeUp (runCalls E ps (Reserve E w v n).world (Reserve E w v n).st).2 = false ∧
    Capacity (runCalls E ps (Reserve E w v n).world (Reserve E w v n).st).2 =
      Capacity (Reserve E w v n).st ∧
    (runCall E c (runCalls E ps (Reserve E w v n).world (Reserve E w v n).st).1
      (runCalls E ps (Reserve E w v n).world (Reserve E w v n).st).2).status ≠
        .threw .bad_alloc ∧
    Capacity (runCall E c (runCalls E ps (Reserve E w v n).world (Reserve E w v n).st).1
      (runCalls E ps (Reserve E w v n).world (Reserve E w v n).st).2).st =
      Capacity (Reserve E w v n).st := by
  simp only [Size, Capacity, List.length_append, List.length_cons] at *
  obtain ⟨hu, hsz⟩ := Reserve_ok_counters E w v n hres
  have hps := runCalls_appends_fit E ps (Reserve E w v n).world (Reserve E w v n).st
    (fun a ha => happ a (List.mem_append_left _ ha)) (by omega)
  have hc := runCall_append_fit E c
    (runCalls E ps (Reserve E w v n).world (Reserve E w v n).st).1
    (runCalls E ps (Reserve E w v n).world (Reserve E w v n).st).2
    (happ c (by simp)) (by omega)
  refine ⟨?_, hps.1, hc.2.2, by rw [hc.1, hps.1]⟩
  simp only [NeedResizeUp, beq_eq_false_iff_ne, ne_eq]
  omega

/-- C7 on `{4}` with capacity 1: after `Reserve(3)` the second of two appends finds room
and leaves the capacity 3. -/
theorem C7_Reserve_then_appends_witness :
    (Reserve budgetOps 1 ⟨1, 1, [some 4]⟩ 3).status = .ok ∧
    NeedResizeUp (runCalls budgetOps [.pushBackMove 5] (Reserve budgetOps 1 ⟨1, 1, [some 4]⟩ 3).world
      (Reserve budgetOps 1 ⟨1, 1, [some 4]⟩ 3).st).2 = false ∧
    Capacity (runCalls budgetOps [.pushBackMove 5] (Reserve budgetOps 1 ⟨1, 1, [some 4]⟩ 3).world
      (Reserve budgetOps 1 ⟨1, 1, [some 4]⟩ 3).st).2 = 3 :=
  ⟨by decide,
    (C7_Reserve_then_appends budgetOps 1 ⟨1, 1, [some 4]⟩ 3 [.pushBackMove 5] (.pushBackMove 6) []
      (by decide) (by decide) (by decide)).1,
    by decide⟩

/-- C8: on a vector with `Size() <= Capacity()` whose block has `Capacity()` slots,
`Resize(n)` ends with a status (it returns whenever `n <= Size()`), and when it returns the
length is `n`, the elements below `min(Size(), n)` are the old ones, the elements at the
indices from the old length up to `n` equal the default value, and the capacity is the old
one when `n <= Capacity()` and exactly `n` when `n > Capacity()`. -/
theorem C8_Resize (E : ElemOps σ α) (w : σ) (v : Vector α) (n : Nat)
    (hinv : Size v ≤ Capacity v) (hblock : v.data_.length = Capacity v) :
    (Resize E w v n).status ≠ .diverged ∧
    (n ≤ Size v → (Resize E w v n).status = .ok) ∧
    ((Resize E w v n).status = .ok →
      Size (Resize E w v n).st = n ∧
      (∀ i, i < min (Size v) n → Index (Resize E w v n).st i = Index v i) ∧
      (∀ i, Size v ≤ i → i < n → Index (Resize E w v n).st i = some E.defaultValue) ∧
      (n ≤ Capacity v → Capacity (Resize E w v n).st = Capacity v) ∧
      (Capacity v < n → Capacity (Resize E w v n).st = n)) := by
  simp only [Size, Capacity, Index] at *
  obtain ⟨h1, h2, h3⟩ := Resize_spec E w v n hinv hblock
  refine ⟨h1, h2, fun hs => ?_⟩
  obtain ⟨hu, _, hlo, hmid, hc1, hc2⟩ := h3 hs
  exact ⟨hu, fun i hi => hlo i (by omega) (by omega), hmid, hc1, hc2⟩

/-- C8 on `{4, 5}` with capacity 2: `Resize(4)` returns `{4, 5, 0, 0}` with capacity 4. -/
theorem C8_Resize_witness :
    (Resize budgetOps 3 ⟨2, 2, [some 4, some 5]⟩ 4).status = .ok ∧
    Size (Resize budgetOps 3 ⟨2, 2, [some 4, some 5]⟩ 4).st = 4 ∧
    (∀ i, i < min (Size (⟨2, 2, [some 4, some 5]⟩ : Vector Nat)) 4 →
      Index (Resize budgetOps 3 ⟨2, 2, [some 4, some 5]⟩ 4).st i =
        Index (⟨2, 2, [some 4, some 5]⟩ : Vector Nat) i) ∧
    (∀ i, Size (⟨2, 2, [some 4, some 5]⟩ : Vector Nat) ≤ i → i < 4 →
      Index (Resize budgetOps 3 ⟨2, 2, [some 4, some 5]⟩ 4).st i = some budgetOps.defaultValue) ∧
    (4 ≤ Capacity (⟨2, 2, [some 4, some 5]⟩ : Vector Nat) →
      Capacity (Resize budgetOps 3 ⟨2, 2, [some 4, some 5]⟩ 4).st =
        Capacity (⟨2, 2, [some 4, some 5]⟩ : Vector Nat)) ∧
    (Capacity (⟨2, 2, [some 4, some 5]⟩ : Vector Nat) < 4 →
      Capacity (Resize budgetOps 3 ⟨2, 2, [some 4, some 5]⟩ 4).st = 4) :=
  ⟨by decide,
    (C8_Resize budgetOps 3 ⟨2, 2, [some 4, some 5]⟩ 4 (by decide) (by decide)).2.2 (by decide)⟩

/-- C9 at a failing input: on `v = {4, 5}` with capacity 2 the call `v.Resize(5, v[0])`,
whose fill value is the element 4 of `v` itself, returns with length 5 and the old elements
in place. The first `PushBack(value)` copies the 4 and then runs `ResizeUp`, which releases
the block that `value` points into; the next two `PushBack(value)` read `value` again, in
the released block, so the elements at the indices 3 and 4 are not copies of the fill value.
The same call with the fill value 4 held outside the vector gives `{4, 5, 4, 4, 4}`, and a
single `PushBack(v[0])`, which copies its argument before it grows, appends the 4. -/
theorem C9_Resize_value_reads_released_block :
    (ResizeValue budgetOps 9 ⟨2, 2, [some 4, some 5]⟩ 5 (.element 0)).status = .ok ∧
    Size (ResizeValue budgetOps 9 ⟨2, 2, [some 4, some 5]⟩ 5 (.element 0)).st = 5 ∧
    Index (⟨2, 2, [some 4, some 5]⟩ : Vector Nat) 0 = some 4 ∧
    Index (ResizeValue budgetOps 9 ⟨2, 2, [some 4, some 5]⟩ 5 (.element 0)).st 0 = some 4 ∧
    Index (ResizeValue budgetOps 9 ⟨2, 2, [some 4, some 5]⟩ 5 (.element 0)).st 1 = some 5 ∧
    Index (ResizeValue budgetOps 9 ⟨2, 2, [some 4, some 5]⟩ 5 (.element 0)).st 2 = some 4 ∧
    Index (ResizeValue budgetOps 9 ⟨2, 2, [some 4, some 5]⟩ 5 (.element 0)).st 3 ≠ some 4 ∧
    Index (ResizeValue budgetOps 9 ⟨2, 2, [some 4, some 5]⟩ 5 (.element 0)).st 4 ≠ some 4 ∧
    (ResizeValue budgetOps 9 ⟨2, 2, [some 4, some 5]⟩ 3 (.element 0)).st =
      ⟨5, 3, [some 4, some 5, some 4, none, none]⟩ ∧
    (ResizeValue budgetOps 9 ⟨2, 2, [some 4, some 5]⟩ 5 (.outside 4)).st =
      ⟨5, 5, [some 4, some 5, some 4, some 4, some 4]⟩ ∧
    (PushBack budgetOps 9 ⟨2, 2, [some 4, some 5]⟩ 4).st =
      ⟨5, 3, [some 4, some 5, some 4, none, none]⟩ := by
  decide

/-- C10: a `ShrinkToFit` that returns leaves the capacity equal to the length, the length
as it was and the elements as they were; on an empty vector it returns with capacity 0; on
a non-empty vector with spare capacity it returns exactly when the allocation succeeds;
when `Size() == Capacity()` already it changes nothing. -/
theorem C10_ShrinkToFit (E : ElemOps σ α) (w : σ) (v : Vector α) :
    (Size v = Capacity v → ShrinkToFit E w v = ⟨w, v, .ok⟩) ∧
    ((ShrinkToFit E w v).status = .ok →
      Capacity (ShrinkToFit E w v).st = Size (ShrinkToFit E w v).st ∧
      Size (ShrinkToFit E w v).st = Size v ∧
      ∀ i, i < Size v → Index (ShrinkToFit E w v).st i = Index v i) ∧
    (Size v = 0 → (ShrinkToFit E w v).status = .ok ∧ Capacity (ShrinkToFit E w v).st = 0) ∧
    (Size v ≠ Capacity v → Size v ≠ 0 →
      ((ShrinkToFit E w v).status = .ok ↔ (E.alloc w (Size v)).2 = true)) := by
  simp only [Size, Capacity, Index]
  by_cases he : v.used_ = v.size_
  · have hR : ShrinkToFit E w v = ⟨w, v, .ok⟩ := by
      unfold ShrinkToFit
      rw [if_pos he]
    rw [hR]
    exact ⟨fun _ => rfl, fun _ => ⟨he.symm, rfl, fun _ _ => rfl⟩,
      fun h0 => ⟨rfl, by show v.size_ = 0; omega⟩, fun hne => absurd he hne⟩
  · obtain ⟨hz, hf, hok⟩ := ShrinkToFit_spec E w v he
    refine ⟨fun h => absurd h he, ?_, ?_, ?_⟩
    · intro hs
      by_cases h0 : v.used_ = 0
      · rw [hz h0]
        exact ⟨rfl, h0.symm, fun i hi => by omega⟩
      · cases ha : (E.alloc w v.used_).2 with
        | false =>
          rw [hf (by omega) ha] at hs
          simp at hs
        | true =>
          obtain ⟨_, hsz, hu, _, hlo⟩ := hok (by omega) ha
          exact ⟨by rw [hsz, hu], hu, hlo⟩
    · intro h0
      rw [hz h0]
      exact ⟨rfl, rfl⟩
    · intro _ h0
      cases ha : (E.alloc w v.used_).2 with
      | false =>
        rw [hf (by omega) ha]
        simp
      | true =>
        have := (hok (by omega) ha).1
        simp [this]

/-- C10 on `{4, 5}` with capacity 4: `ShrinkToFit` returns `{4, 5}` with capacity 2. -/
theorem C10_ShrinkToFit_witness :
    (ShrinkToFit budgetOps 1 ⟨4, 2, [some 4, some 5, none, none]⟩).status = .ok ∧
    Capacity (ShrinkToFit budgetOps 1 ⟨4, 2, [some 4, some 5, none, none]⟩).st =
      Size (ShrinkToFit budgetOps 1 ⟨4, 2, [some 4, some 5, none, none]⟩).st ∧
    Size (ShrinkToFit budgetOps 1 ⟨4, 2, [some 4, some 5, none, none]⟩).st =
      Size (⟨4, 2, [some 4, some 5, none, none]⟩ : Vector Nat) ∧
    ∀ i, i < Size (⟨4, 2, [some 4, some 5, none, none]⟩ : Vector Nat) →
      Index (ShrinkToFit budgetOps 1 ⟨4, 2, [some 4, some 5, none, none]⟩).st i =
        Index (⟨4, 2, [some 4, some 5, none, none]⟩ : Vector Nat) i :=
  ⟨by decide,
    (C10_ShrinkToFit budgetOps 1 ⟨4, 2, [some 4, some 5, none, none]⟩).2.1 (by decide)⟩

/-- C11: for a totally ordered element type and vectors whose elements are constructed,
`a < b` holds exactly when there is a first index below both lengths where the elements
differ and there `a[i] < b[i]`, or the elements agree below both lengths and `a` is
shorter; and `a > b` is `b < a`. -/
theorem C11_lexicographic_order [LinearOrder α] (a b : Vector α) (ha : Live a) (hb : Live b) :
    (operatorLt (orderCmp α) a b = true ↔
      (∃ i x y, i < min (Size a) (Size b) ∧ (∀ j, j < i → Index a j = Index b j) ∧
        Index a i = some x ∧ Index b i = some y ∧ x < y) ∨
      ((∀ j, j < min (Size a) (Size b) → Index a j = Index b j) ∧ Size a < Size b)) ∧
    operatorGt (orderCmp α) a b = operatorLt (orderCmp α) b a := by
  simp only [Size, Index]
  have hf : ∀ x y : α, (orderCmp α).ne x y = true ↔ x ≠ y := by
    intro x y
    simp [orderCmp]
  have hN : ∀ j, j < min a.used_ b.used_ →
      (slotCmp (orderCmp α).ne (slot a.data_ j) (slot b.data_ j) = false ↔
        slot a.data_ j = slot b.data_ j) := fun j hj =>
    slotCmp_ne_false_iff _ hf _ _ (ha j (by omega)) (hb j (by omega))
  refine ⟨?_, ?_⟩
  · rw [operatorLt_true_iff]
    constructor
    · rintro (⟨k, h1, h2, h3, h4⟩ | ⟨h1, h2⟩)
      · obtain ⟨x, hx⟩ := ha k (by omega)
        obtain ⟨y, hy⟩ := hb k (by omega)
        refine Or.inl ⟨k, x, y, h1, fun j hj => (hN j (by omega)).1 (h2 j hj), hx, hy, ?_⟩
        rw [hx, hy] at h4
        simpa [slotCmp, orderCmp] using h4
      · exact Or.inr ⟨fun j hj => (hN j hj).1 (h1 j hj), h2⟩
    · rintro (⟨i, x, y, h1, h2, hx, hy, hxy⟩ | ⟨h1, h2⟩)
      · refine Or.inl ⟨i, h1, fun j hj => (hN j (by omega)).2 (h2 j hj), ?_, ?_⟩
        · rw [hx, hy]
          simpa [slotCmp, orderCmp] using ne_of_lt hxy
        · rw [hx, hy]
          simpa [slotCmp, orderCmp] using hxy
      · exact Or.inr ⟨fun j hj => (hN j hj).2 (h1 j hj), h2⟩
  · unfold operatorGt operatorLt
    rw [Nat.min_comm b.used_ a.used_]
    refine compareLoop_congr _ _ _ _ a b b a _ ?_ ?_ _ _
    · intro j
      cases slot a.data_ j <;> cases slot b.data_ j <;> simp [slotCmp, orderCmp, eq_comm]
    · intro j
      cases slot a.data_ j <;> cases slot b.data_ j <;> simp [slotCmp, orderCmp]

/-- C11 on the examples of the specification: `{1, 2} < {1, 2, 3}`, because the common
part agrees and the first is shorter, and `{1, 3} > {1, 2, 9}`. -/
theorem C11_lexicographic_order_witness :
    operatorLt (orderCmp Nat) ⟨2, 2, [some 1, some 2]⟩ ⟨3, 3, [some 1, some 2, some 3]⟩ = true ∧
    operatorGt (orderCmp Nat) ⟨2, 2, [some 1, some 3]⟩ ⟨3, 3, [some 1, some 2, some 9]⟩ = true :=
  ⟨(C11_lexicographic_order (⟨2, 2, [some 1, some 2]⟩ : Vector Nat)
      ⟨3, 3, [some 1, some 2, some 3]⟩
      (fun i hi => ⟨[1, 2].getD i 0, by
        have hi2 : i < 2 := hi
        interval_cases i <;> rfl⟩)
      (fun i hi => ⟨[1, 2, 3].getD i 0, by
        have hi2 : i < 3 := hi
        interval_cases i <;> rfl⟩)).1.2
      (Or.inr ⟨by decide, by decide⟩),
    by decide⟩

/-- C12, as stated, fails for a partially ordered element type: over pairs with the
componentwise order, `{(1, 0)} == {(0, 1)}` holds, because the first pair differs and is
neither `<` nor `>`, although the two vectors do not hold equal elements. -/
theorem C12_equality_counterexample :
    operatorEq pairCmp ⟨1, 1, [some (1, 0)]⟩ ⟨1, 1, [some (0, 1)]⟩ = true ∧
    ¬ (Size (⟨1, 1, [some (1, 0)]⟩ : Vector (Nat × Nat)) =
        Size (⟨1, 1, [some (0, 1)]⟩ : Vector (Nat × Nat)) ∧
      ∀ i, i < Size (⟨1, 1, [some (1, 0)]⟩ : Vector (Nat × Nat)) →
        Index (⟨1, 1, [some (1, 0)]⟩ : Vector (Nat × Nat)) i =
          Index (⟨1, 1, [some (0, 1)]⟩ : Vector (Nat × Nat)) i) := by
  decide

/-- C12, amended: for an element type whose `!=` is inequality and in which two
different elements are always ordered by `<` or by `>` (every total order is one), and
vectors whose elements are constructed, `a == b` holds exactly when the lengths are equal
and the elements at every index are equal. For every element type, `a == b` holds exactly
when the lengths are equal and no pair of elements differs under `!=`, or the first pair
that differs under `!=` is neither `>` nor `<`. -/
theorem C12_equality_of_ordered_elements (C : ElemCmp α) (a b : Vector α)
    (hne : ∀ x y, C.ne x y = true ↔ x ≠ y)
    (htri : ∀ x y, x ≠ y → C.lt x y = true ∨ C.gt x y = true)
    (ha : Live a) (hb : Live b) :
    (operatorEq C a b = true ↔
      Size a = Size b ∧ ∀ i, i < Size a → Index a i = Index b i) ∧
    (∀ (C2 : ElemCmp α) (a2 b2 : Vector α), operatorEq C2 a2 b2 = true ↔
      ((∀ j, j < min (Size a2) (Size b2) →
          slotCmp C2.ne (Index a2 j) (Index b2 j) = false) ∧
        Size a2 = Size b2) ∨
      (∃ k, k < min (Size a2) (Size b2) ∧
        (∀ j, j < k → slotCmp C2.ne (Index a2 j) (Index b2 j) = false) ∧
        slotCmp C2.ne (Index a2 k) (Index b2 k) = true ∧
        slotCmp C2.gt (Index a2 k) (Index b2 k) = false ∧
        slotCmp C2.lt (Index a2 k) (Index b2 k) = false)) := by
  refine ⟨?_, fun C2 a2 b2 => operatorEq_true_iff C2 a2 b2⟩
  simp only [Size, Index]
  have hN : ∀ j, j < min a.used_ b.used_ →
      (slotCmp C.ne (slot a.data_ j) (slot b.data_ j) = false ↔
        slot a.data_ j = slot b.data_ j) := fun j hj =>
    slotCmp_ne_false_iff _ hne _ _ (ha j (by omega)) (hb j (by omega))
  have hEq : operatorEq C a b = true ↔
      ¬ operatorGt C a b = true ∧ ¬ operatorLt C a b = true := by
    unfold operatorEq
    cases operatorGt C a b <;> cases operatorLt C a b <;> simp
  rw [hEq, operatorGt_true_iff, operatorLt_true_iff]
  constructor
  · rintro ⟨hg, hl⟩
    have hall : ∀ k, k ≤ min a.used_ b.used_ →
        ∀ j, j < k → slotCmp C.ne (slot a.data_ j) (slot b.data_ j) = false := by
      intro k
      induction k with
      | zero => intro _ j hj; omega
      | succ k ih =>
        intro hk j hj
        by_cases hjk : j = k
        · subst hjk
          by_contra hcon
          simp only [Bool.not_eq_false] at hcon
          obtain ⟨x, hx⟩ := ha j (by omega)
          obtain ⟨y, hy⟩ := hb j (by omega)
          have hxy : x ≠ y := by
            rw [hx, hy] at hcon
            exact (hne x y).1 hcon
          cases htri x y hxy with
          | inl h =>
            exact hl (Or.inl ⟨j, by omega, ih (by omega), hcon, by rw [hx, hy]; exact h⟩)
          | inr h =>
            exact hg (Or.inl ⟨j, by omega, ih (by omega), hcon, by rw [hx, hy]; exact h⟩)
        · exact ih (by omega) j (by omega)
    have hmin := hall _ (Nat.le_refl _)
    have h1 : ¬ b.used_ < a.used_ := fun h => hg (Or.inr ⟨hmin, h⟩)
    have h2 : ¬ a.used_ < b.used_ := fun h => hl (Or.inr ⟨hmin, h⟩)
    exact ⟨by omega, fun i hi => (hN i (by omega)).1 (hmin i (by omega))⟩
  · rintro ⟨hlen, hel⟩
    have hmin : ∀ j, j < min a.used_ b.used_ →
        slotCmp C.ne (slot a.data_ j) (slot b.data_ j) = false :=
      fun j hj => (hN j hj).2 (hel j (by omega))
    constructor
    · rintro (⟨k, h1, _, h3, _⟩ | ⟨_, h⟩)
      · rw [hmin k h1] at h3
        exact absurd h3 (by simp)
      · omega
    · rintro (⟨k, h1, _, h3, _⟩ | ⟨_, h⟩)
      · rw [hmin k h1] at h3
        exact absurd h3 (by simp)
      · omega

/-- C12 amended, on the example of the specification: `{1, 2} == {1, 2}` over the
naturals. -/
theorem C12_equality_of_ordered_elements_witness :
    operatorEq (orderCmp Nat) ⟨2, 2, [some 1, some 2]⟩ ⟨2, 2, [some 1, some 2]⟩ = true :=
  (C12_equality_of_ordered_elements (orderCmp Nat) (⟨2, 2, [some 1, some 2]⟩ : Vector Nat)
    ⟨2, 2, [some 1, some 2]⟩
    (fun x y => by simp [orderCmp])
    (fun x y hxy => by
      simp only [orderCmp, gt_iff_lt, decide_eq_true_eq]
      omega)
    (fun i hi => ⟨[1, 2].getD i 0, by
      have hi2 : i < 2 := hi
      interval_cases i <;> rfl⟩)
    (fun i hi => ⟨[1, 2].getD i 0, by
      have hi2 : i < 2 := hi
      interval_cases i <;> rfl⟩)).1.2
    ⟨rfl, fun _ _ => rfl⟩

/-- C13: after the move assignment `B = std::move(A)` of two distinct vectors, and after
the move construction of `B` from `A`, `B` is what `A` was (same length, capacity and
elements) and `A` has length 0 and capacity 0. -/
theorem C13_move_leaves_source_empty (a b : Vector α) :
    ((MoveAssign b a).1 = a ∧
      Size (MoveAssign b a).1 = Size a ∧ Capacity (MoveAssign b a).1 = Capacity a ∧
      (∀ i, Index (MoveAssign b a).1 i = Index a i) ∧
      Size (MoveAssign b a).2 = 0 ∧ Capacity (MoveAssign b a).2 = 0) ∧
    ((MoveCtor a).1 = a ∧
      Size (MoveCtor a).1 = Size a ∧ Capacity (MoveCtor a).1 = Capacity a ∧
      (∀ i, Index (MoveCtor a).1 i = Index a i) ∧
      Size (MoveCtor a).2 = 0 ∧ Capacity (MoveCtor a).2 = 0) :=
  ⟨⟨rfl, rfl, rfl, fun _ => rfl, rfl, rfl⟩, ⟨rfl, rfl, rfl, fun _ => rfl, rfl, rfl⟩⟩

/-- C14: in the copy assignment `B = A`, when the block for the copy is allocated, the
copies of the elements of `A` below index `k` return and the copy of the element at index
`k < A.Size()` throws, the assignment throws that exception and `B` is exactly what it was
(same length, capacity and elements); and whenever the assignment does not return, for
whatever reason, `B` is what it was. -/
theorem C14_copy_assign_strong_safety (E : ElemOps σ α) (w : σ) (b a : Vector α) (k : Nat)
    (hk : k < Size a) (halloc : (E.alloc w (Size a)).2 = true)
    (hfirst : ∀ j, j < k →
      (copyOutcome E (worldAfterCopies E a (E.alloc w (Size a)).1 j) (Index a j)).2 = true)
    (hfail :
      (copyOutcome E (worldAfterCopies E a (E.alloc w (Size a)).1 k) (Index a k)).2 = false) :
    ((CopyAssign E w b a).status = .threw .element ∧ (CopyAssign E w b a).st = b) ∧
    (∀ b2 : Vector α, (CopyAssign E w b2 a).status ≠ .ok → (CopyAssign E w b2 a).st = b2) := by
  simp only [Size, Index] at *
  have hC := CopyCtor_fails_at E w a k hk halloc hfirst hfail
  have hA : ∀ b2 : Vector α, CopyAssign E w b2 a =
      if (CopyCtor E w a).status = .ok then
        ⟨(CopyCtor E w a).world, (stdSwap b2 (CopyCtor E w a).st).1, .ok⟩
      else ⟨(CopyCtor E w a).world, b2, (CopyCtor E w a).status⟩ := fun _ => rfl
  refine ⟨?_, ?_⟩
  · rw [hA, if_neg (by rw [hC]; simp)]
    exact ⟨hC, rfl⟩
  · intro b2 hs
    rw [hA] at hs ⊢
    by_cases h : (CopyCtor E w a).status = .ok
    · rw [if_pos h] at hs
      exact absurd rfl hs
    · rw [if_neg h]

/-- C14 for `B = {9}` and `A = {4, 5, 6}` with a budget of two: the allocation and the
copy of `4` return, the copy of `5` throws, and `B` is still `{9}`. -/
theorem C14_copy_assign_strong_safety_witness :
    (CopyAssign budgetOps 2 ⟨1, 1, [some 9]⟩ ⟨3, 3, [some 4, some 5, some 6]⟩).status =
      .threw .element ∧
    (CopyAssign budgetOps 2 ⟨1, 1, [some 9]⟩ ⟨3, 3, [some 4, some 5, some 6]⟩).st =
      ⟨1, 1, [some 9]⟩ :=
  (C14_copy_assign_strong_safety budgetOps 2 ⟨1, 1, [some 9]⟩ ⟨3, 3, [some 4, some 5, some 6]⟩ 1
    (by decide) (by decide)
    (fun j hj => by
      have hj0 : j = 0 := by omega
      subst hj0
      decide)
    (by decide)).1

/-- C15, on the heap, for two vector objects `a` (the source `A`) and `b` whose `data_`
pointers are `nullptr` or addresses of the heap and which do not share a block. The copy
construction `B(A)` and the copy assignment `b = A` return exactly when the block of the
copy is obtained and the copies of the elements of `A` all return. When they return, the
copy has the length of `A` and, at every index below it, the element of `A`; `A` is as it
was; and afterwards every sequence of mutations (`PushBack` by copy and by move,
`PopBack`, both `Resize`, `Clear`, writing an element) applied to the copy does to the
copy what it does to a vector of that value and leaves `A` as it was, fields and block, and
every such sequence applied to `A` does to `A` what it does to a vector of that value and
leaves the copy as it was. -/
theorem C15_copy_independence (E : ElemOps σ α) (w : σ) (h : Heap α) (a b : VectorRep)
    (ha : InHeap h a) (hb : InHeap h b) (hab : a.data_ = none ∨ b.data_ ≠ a.data_) :
    (((OnHeap.CopyCtor E w h a).status = .ok ↔
        (Size (contents h a : Vector α) = 0 ∨
            (E.alloc w (Size (contents h a : Vector α))).2 = true) ∧
          elementCopiesReturn E (contents h a) (Size (contents h a : Vector α)) 0
            (VectorBufCtor E w (Size (contents h a : Vector α))).world = true) ∧
      ((OnHeap.CopyCtor E w h a).status = .ok →
        Size (contents (OnHeap.CopyCtor E w h a).st.1 (OnHeap.CopyCtor E w h a).st.2 : Vector α) =
          Size (contents h a : Vector α) ∧
        (∀ i, i < Size (contents h a : Vector α) →
          Index (contents (OnHeap.CopyCtor E w h a).st.1 (OnHeap.CopyCtor E w h a).st.2) i =
            Index (contents h a : Vector α) i) ∧
        contents (OnHeap.CopyCtor E w h a).st.1 a = (contents h a : Vector α) ∧
        ∀ (ms : List (Mutation α)) (w2 : σ),
          contents (OnHeap.mutateAll E ms w2 (OnHeap.CopyCtor E w h a).st).2.1 a =
            (contents h a : Vector α) ∧
          contents (OnHeap.mutateAll E ms w2 (OnHeap.CopyCtor E w h a).st).2.1
              (OnHeap.mutateAll E ms w2 (OnHeap.CopyCtor E w h a).st).2.2 =
            (mutateAll E ms w2
              (contents (OnHeap.CopyCtor E w h a).st.1 (OnHeap.CopyCtor E w h a).st.2)).2 ∧
          contents (OnHeap.mutateAll E ms w2 ((OnHeap.CopyCtor E w h a).st.1, a)).2.1
              (OnHeap.CopyCtor E w h a).st.2 =
            (contents (OnHeap.CopyCtor E w h a).st.1 (OnHeap.CopyCtor E w h a).st.2 :
              Vector α) ∧
          contents (OnHeap.mutateAll E ms w2 ((OnHeap.CopyCtor E w h a).st.1, a)).2.1
              (OnHeap.mutateAll E ms w2 ((OnHeap.CopyCtor E w h a).st.1, a)).2.2 =
            (mutateAll E ms w2 (contents h a)).2)) ∧
    (((OnHeap.CopyAssign E w (h, b) a).status = .ok ↔
        (Size (contents h a : Vector α) = 0 ∨
            (E.alloc w (Size (contents h a : Vector α))).2 = true) ∧
          elementCopiesReturn E (contents h a) (Size (contents h a : Vector α)) 0
            (VectorBufCtor E w (Size (contents h a : Vector α))).world = true) ∧
      ((OnHeap.CopyAssign E w (h, b) a).status = .ok →
        Size (contents (OnHeap.CopyAssign E w (h, b) a).st.1
            (OnHeap.CopyAssign E w (h, b) a).st.2 : Vector α) = Size (contents h a : Vector α) ∧
        (∀ i, i < Size (contents h a : Vector α) →
          Index (contents (OnHeap.CopyAssign E w (h, b) a).st.1
              (OnHeap.CopyAssign E w (h, b) a).st.2) i = Index (contents h a : Vector α) i) ∧
        contents (OnHeap.CopyAssign E w (h, b) a).st.1 a = (contents h a : Vector α) ∧
        ∀ (ms : List (Mutation α)) (w2 : σ),
          contents (OnHeap.mutateAll E ms w2 (OnHeap.CopyAssign E w (h, b) a).st).2.1 a =
            (contents h a : Vector α) ∧
          contents (OnHeap.mutateAll E ms w2 (OnHeap.CopyAssign E w (h, b) a).st).2.1
              (OnHeap.mutateAll E ms w2 (OnHeap.CopyAssign E w (h, b) a).st).2.2 =
            (mutateAll E ms w2
              (contents (OnHeap.CopyAssign E w (h, b) a).st.1
                (OnHeap.CopyAssign E w (h, b) a).st.2)).2 ∧
          contents (OnHeap.mutateAll E ms w2 ((OnHeap.CopyAssign E w (h, b) a).st.1, a)).2.1
              (OnHeap.CopyAssign E w (h, b) a).st.2 =
            (contents (OnHeap.CopyAssign E w (h, b) a).st.1
              (OnHeap.CopyAssign E w (h, b) a).st.2 : Vector α) ∧
          contents (OnHeap.mutateAll E ms w2 ((OnHeap.CopyAssign E w (h, b) a).st.1, a)).2.1
              (OnHeap.mutateAll E ms w2 ((OnHeap.CopyAssign E w (h, b) a).st.1, a)).2.2 =
            (mutateAll E ms w2 (contents h a)).2)) := by
  have hret := CopyCtor_returns E w (contents h a)
  obtain ⟨_, hspec⟩ := CopyCtor_spec E w (contents h a)
  obtain ⟨hAs, hAst⟩ := CopyAssign_eq E w (contents h b) (contents h a)
  have key : ∀ (R : Res σ (Heap α × VectorRep)) (R0 : Res σ (Vector α)) (v : VectorRep),
      InHeap h v → (a.data_ = none ∨ v.data_ ≠ a.data_) → Tracks h v R R0 →
      contents R.st.1 a = (contents h a : Vector α) ∧
      ∀ (ms : List (Mutation α)) (w2 : σ),
        contents (OnHeap.mutateAll E ms w2 R.st).2.1 a = (contents h a : Vector α) ∧
        contents (OnHeap.mutateAll E ms w2 R.st).2.1 (OnHeap.mutateAll E ms w2 R.st).2.2 =
          (mutateAll E ms w2 (contents R.st.1 R.st.2)).2 ∧
        contents (OnHeap.mutateAll E ms w2 (R.st.1, a)).2.1 R.st.2 =
          (contents R.st.1 R.st.2 : Vector α) ∧
        contents (OnHeap.mutateAll E ms w2 (R.st.1, a)).2.1
            (OnHeap.mutateAll E ms w2 (R.st.1, a)).2.2 =
          (mutateAll E ms w2 (contents h a)).2 := by
    intro R R0 v hv hva ht
    obtain ⟨_, _, _, k⟩ := ht
    have hca : contents R.st.1 a = (contents h a : Vector α) := by
      show (⟨_, _, _⟩ : Vector α) = ⟨_, _, _⟩
      rw [Keeps_load _ _ _ _ k a.data_ ha hva]
    have hia : InHeap R.st.1 a := fun x hx => Nat.lt_of_lt_of_le (ha x hx) k.1
    have hne : ∀ x, R.st.2.data_ = some x → a.data_ ≠ some x := by
      intro x hx e
      rcases (k.2.2 x hx).2 with e2 | e2
      · rcases hva with e3 | e3
        · rw [e3] at e
          exact absurd e (by simp)
        · exact e3 (by rw [e2, e])
      · have := ha x e
        omega
    refine ⟨hca, fun ms w2 => ?_⟩
    obtain ⟨i1, i2, i3, i4⟩ := mutateAll_independent E R.st.1 a R.st.2 hia
      (Keeps_inHeap _ _ _ _ k) hne ms w2
    rw [hca] at i1 i4
    exact ⟨i1, i2, i3, i4⟩
  simp only [Size, Index]
  have hcu : (contents h a : Vector α).used_ = a.used_ := rfl
  refine ⟨⟨?_, fun hs => ?_⟩, ⟨?_, fun hs => ?_⟩⟩
  · rw [(CopyCtor_tracks E w h a ha).2.1]
    exact hret
  · have ht := CopyCtor_tracks E w h a ha
    obtain ⟨_, h2, _, h4⟩ := hspec (by rw [← ht.2.1]; exact hs)
    obtain ⟨k1, k2⟩ := key _ _ ⟨0, 0, none⟩ (fun x e => by simp at e) (by
      cases hd : a.data_ with
      | none => exact Or.inl rfl
      | some x => exact Or.inr (by simp)) ht
    rw [ht.2.2.1] at k2 ⊢
    exact ⟨h2, h4, k1, k2⟩
  · rw [(CopyAssign_tracks E w h b a hb ha).2.1, hAs]
    exact hret
  · have ht := CopyAssign_tracks E w h b a hb ha
    have hs0 : (CopyCtor E w (contents h a)).status = .ok := by
      rw [← hAs, ← ht.2.1]
      exact hs
    obtain ⟨_, h2, _, h4⟩ := hspec hs0
    obtain ⟨k1, k2⟩ := key _ _ b hb hab ht
    rw [ht.2.2.1, hAst hs0] at k2 ⊢
    exact ⟨h2, h4, k1, k2⟩

/-- C15 on the heap that holds `A = {4, 5}` (capacity 4, block 0) and `B = {7}` (block 1),
with a budget of 9. The copy construction `C(A)` returns with `C = {4, 5}` in the new
block 2. The copy assignment `B = A` returns: `B` is `{4, 5}` in the new block 2 and its
old block 1 is released. After `PushBack(6); v[0] = 9; Resize(7); PopBack(); Resize(8, 1);`
on `B`, the vector `B` is `{9, 5, 6, 0, 0, 0, 1, 1}` and `A` still is `{4, 5}` in block 0;
after the same calls on `A`, the vector `A` is `{9, 5, 6, 0, 0, 0, 1, 1}` and `B` still is
`{4, 5}` in block 2. -/
theorem C15_copy_independence_witness :
    InHeap exampleHeap exampleA ∧ InHeap exampleHeap exampleB ∧
    (exampleA.data_ = none ∨ exampleB.data_ ≠ exampleA.data_) ∧
    (OnHeap.CopyCtor budgetOps 9 exampleHeap exampleA).status = .ok ∧
    (OnHeap.CopyAssign budgetOps 9 (exampleHeap, exampleB) exampleA).status = .ok ∧
    (contents (OnHeap.mutateAll budgetOps exampleMutations 20
        (OnHeap.CopyCtor budgetOps 9 exampleHeap exampleA).st).2.1 exampleA =
        (contents exampleHeap exampleA : Vector Nat) ∧
      contents (OnHeap.mutateAll budgetOps exampleMutations 20
          (OnHeap.CopyCtor budgetOps 9 exampleHeap exampleA).st).2.1
          (OnHeap.mutateAll budgetOps exampleMutations 20
            (OnHeap.CopyCtor budgetOps 9 exampleHeap exampleA).st).2.2 =
        (mutateAll budgetOps exampleMutations 20
          (contents (OnHeap.CopyCtor budgetOps 9 exampleHeap exampleA).st.1
            (OnHeap.CopyCtor budgetOps 9 exampleHeap exampleA).st.2)).2 ∧
      contents (OnHeap.mutateAll budgetOps exampleMutations 20
          ((OnHeap.CopyCtor budgetOps 9 exampleHeap exampleA).st.1, exampleA)).2.1
          (OnHeap.CopyCtor budgetOps 9 exampleHeap exampleA).st.2 =
        (contents (OnHeap.CopyCtor budgetOps 9 exampleHeap exampleA).st.1
          (OnHeap.CopyCtor budgetOps 9 exampleHeap exampleA).st.2 : Vector Nat) ∧
      contents (OnHeap.mutateAll budgetOps exampleMutations 20
          ((OnHeap.CopyCtor budgetOps 9 exampleHeap exampleA).st.1, exampleA)).2.1
          (OnHeap.mutateAll budgetOps exampleMutations 20
            ((OnHeap.CopyCtor budgetOps 9 exampleHeap exampleA).st.1, exampleA)).2.2 =
        (mutateAll budgetOps exampleMutations 20 (contents exampleHeap exampleA)).2) ∧
    (contents (OnHeap.mutateAll budgetOps exampleMutations 20
        (OnHeap.CopyAssign budgetOps 9 (exampleHeap, exampleB) exampleA).st).2.1 exampleA =
        (contents exampleHeap exampleA : Vector Nat) ∧
      contents (OnHeap.mutateAll budgetOps exampleMutations 20
          (OnHeap.CopyAssign budgetOps 9 (exampleHeap, exampleB) exampleA).st).2.1
          (OnHeap.mutateAll budgetOps exampleMutations 20
            (OnHeap.CopyAssign budgetOps 9 (exampleHeap, exampleB) exampleA).st).2.2 =
        (mutateAll budgetOps exampleMutations 20
          (contents (OnHeap.CopyAssign budgetOps 9 (exampleHeap, exampleB) exampleA).st.1
            (OnHeap.CopyAssign budgetOps 9 (exampleHeap, exampleB) exampleA).st.2)).2 ∧
      contents (OnHeap.mutateAll budgetOps exampleMutations 20
          ((OnHeap.CopyAssign budgetOps 9 (exampleHeap, exampleB) exampleA).st.1, exampleA)).2.1
          (OnHeap.CopyAssign budgetOps 9 (exampleHeap, exampleB) exampleA).st.2 =
        (contents (OnHeap.CopyAssign budgetOps 9 (exampleHeap, exampleB) exampleA).st.1
          (OnHeap.CopyAssign budgetOps 9 (exampleHeap, exampleB) exampleA).st.2 : Vector Nat) ∧
      contents (OnHeap.mutateAll budgetOps exampleMutations 20
          ((OnHeap.CopyAssign budgetOps 9 (exampleHeap, exampleB) exampleA).st.1, exampleA)).2.1
          (OnHeap.mutateAll budgetOps exampleMutations 20
            ((OnHeap.CopyAssign budgetOps 9 (exampleHeap, exampleB) exampleA).st.1,
              exampleA)).2.2 =
        (mutateAll budgetOps exampleMutations 20 (contents exampleHeap exampleA)).2) ∧
    (OnHeap.CopyCtor budgetOps 9 exampleHeap exampleA).st =
      ([some [some 4, some 5, none, none], some [some 7], some [some 4, some 5]],
        ⟨2, 2, some 2⟩) ∧
    (OnHeap.CopyAssign budgetOps 9 (exampleHeap, exampleB) exampleA).st =
      ([some [some 4, some 5, none, none], none, some [some 4, some 5]], ⟨2, 2, some 2⟩) ∧
    (OnHeap.mutateAll budgetOps exampleMutations 20
        (OnHeap.CopyAssign budgetOps 9 (exampleHeap, exampleB) exampleA).st).2 =
      ([some [some 4, some 5, none, none], none, none, none, none,
          some [some 9, some 5, some 6, some 0, some 0, some 0, some 1, some 1,
            none, none, none, none, none, none, none]],
        ⟨15, 8, some 5⟩) ∧
    (OnHeap.mutateAll budgetOps exampleMutations 20
        ((OnHeap.CopyAssign budgetOps 9 (exampleHeap, exampleB) exampleA).st.1, exampleA)).2 =
      ([none, none, some [some 4, some 5], none,
          some [some 9, some 5, some 6, some 0, some 0, some 0, some 1, some 1,
            none, none, none, none, none, none, none]],
        ⟨15, 8, some 4⟩) := by
  have hA : InHeap exampleHeap exampleA := by
    intro x e
    have hx : 0 = x := Option.some.inj e
    rw [← hx]
    decide
  have hB : InHeap exampleHeap exampleB := by
    intro x e
    have hx : 1 = x := Option.some.inj e
    rw [← hx]
    decide
  have hAB : exampleA.data_ = none ∨ exampleB.data_ ≠ exampleA.data_ := Or.inr (by decide)
  have T := C15_copy_independence budgetOps 9 exampleHeap exampleA exampleB hA hB hAB
  have hC : (OnHeap.CopyCtor budgetOps 9 exampleHeap exampleA).status = .ok :=
    T.1.1.2 ⟨Or.inr (by decide), by decide⟩
  have hD : (OnHeap.CopyAssign budgetOps 9 (exampleHeap, exampleB) exampleA).status = .ok :=
    T.2.1.2 ⟨Or.inr (by decide), by decide⟩
  exact ⟨hA, hB, hAB, hC, hD, (T.1.2 hC).2.2.2 exampleMutations 20,
    (T.2.2 hD).2.2.2 exampleMutations 20, by decide, by decide, by decide, by decide⟩

/-- C16: on a vector with `Size() <= Capacity()` whose block has `Capacity()` slots and
`n > Size()`: when the first `k` default constructions of `Resize(n)` return and the
next one throws, `Resize(n)` throws that exception, on the path within the capacity and,
after a successful allocation, on the path beyond it; and whenever `Resize(n)` does not
return, the length, the capacity and the elements are what they were before the call. -/
theorem C16_Resize_failure_preserves (E : ElemOps σ α) (w : σ) (v : Vector α) (n k : Nat)
    (hinv : Size v ≤ Capacity v) (hblock : v.data_.length = Capacity v)
    (hn : Size v < n) (hk : Size v + k < n) :
    (n ≤ Capacity v →
      (∀ j, j < k → (E.defaultCtor (worldAfterDefaults E w j)).2 = true) →
      (E.defaultCtor (worldAfterDefaults E w k)).2 = false →
      (Resize E w v n).status = .threw .element) ∧
    (Capacity v < n → (E.alloc w n).2 = true →
      (∀ j, j < k → (E.defaultCtor (worldAfterDefaults E (E.alloc w n).1 j)).2 = true) →
      (E.defaultCtor (worldAfterDefaults E (E.alloc w n).1 k)).2 = false →
      (Resize E w v n).status = .threw .element) ∧
    ((Resize E w v n).status ≠ .ok →
      Size (Resize E w v n).st = Size v ∧
      Capacity (Resize E w v n).st = Capacity v ∧
      ∀ i, i < Size v → Index (Resize E w v n).st i = Index v i) := by
  simp only [Size, Capacity, Index] at *
  have h1 : ¬ n ≤ v.used_ := by omega
  refine ⟨fun h2 hfirst hfail => ?_, fun h2 ha hfirst hfail => ?_, fun hs => ?_⟩
  · have hL := defaultLoop_fails_at E w v.used_ n v.data_ k hk hfirst hfail
    rw [Resize_inplace E w v n h1 h2, if_neg (by rw [hL]; simp)]
    exact hL
  · have hL := defaultLoop_fails_at E (E.alloc w n).1 v.used_ n
      (moveAll E v.data_ (rawBlock n) v.used_).2 k hk hfirst hfail
    rw [Resize_grow E w v n h1 (by omega), if_pos ha, if_neg (by rw [hL]; simp)]
    exact hL
  · obtain ⟨_, hu, hsz, hel⟩ := Resize_failure E w v n hinv hblock hn hs
    exact ⟨hu, hsz, hel⟩

/-- C16 on `{4, 5}`: with capacity 4, `Resize(4)` whose second default construction
throws leaves `{4, 5}` with capacity 4; with capacity 2, `Resize(4)` allocates, moves,
fails at the second default construction, moves back and leaves `{4, 5}` with capacity 2. -/
theorem C16_Resize_failure_preserves_witness :
    ((Resize budgetOps 1 ⟨4, 2, [some 4, some 5, none, none]⟩ 4).status = .threw .element ∧
      (Resize budgetOps 1 ⟨4, 2, [some 4, some 5, none, none]⟩ 4).st =
        ⟨4, 2, [some 4, some 5, none, none]⟩) ∧
    ((Resize budgetOps 2 ⟨2, 2, [some 4, some 5]⟩ 4).status = .threw .element ∧
      (Resize budgetOps 2 ⟨2, 2, [some 4, some 5]⟩ 4).st = ⟨2, 2, [some 4, some 5]⟩) :=
  ⟨⟨(C16_Resize_failure_preserves budgetOps 1 ⟨4, 2, [some 4, some 5, none, none]⟩ 4 1
        (by decide) (by decide) (by decide) (by decide)).1 (by decide)
        (fun j hj => by
          have hj0 : j = 0 := by omega
          subst hj0
          decide)
        (by decide),
      by decide⟩,
    ⟨(C16_Resize_failure_preserves budgetOps 2 ⟨2, 2, [some 4, some 5]⟩ 4 1
        (by decide) (by decide) (by decide) (by decide)).2.1 (by decide) (by decide)
        (fun j hj => by
          have hj0 : j = 0 := by omega
          subst hj0
          decide)
        (by decide),
      by decide⟩⟩

/-- C17 at a failing input: on `{4, 5}` with capacity 2, `Resize(4, 9)` whose first copy
of the fill value returns and whose second copy throws ends with that exception and
leaves `{4, 5, 9}` with capacity 5: the element appended before the failure stays, so the
call is not without effect, whereas `Resize(4)` in the same situation restores `{4, 5}`. -/
theorem C17_Resize_value_keeps_partial_result :
    (ResizeValue budgetOps 2 ⟨2, 2, [some 4, some 5]⟩ 4 (.outside 9)).status = .threw .element ∧
    (ResizeValue budgetOps 2 ⟨2, 2, [some 4, some 5]⟩ 4 (.outside 9)).st =
      ⟨5, 3, [some 4, some 5, some 9, none, none]⟩ ∧
    Size (ResizeValue budgetOps 2 ⟨2, 2, [some 4, some 5]⟩ 4 (.outside 9)).st ≠
      Size (⟨2, 2, [some 4, some 5]⟩ : Vector Nat) ∧
    (Resize budgetOps 2 ⟨2, 2, [some 4, some 5]⟩ 4).status = .threw .element ∧
    (Resize budgetOps 2 ⟨2, 2, [some 4, some 5]⟩ 4).st = ⟨2, 2, [some 4, some 5]⟩ := by
  decide

/-- C18: for every sequence `cs` of `PushBack` and `PopBack` calls issued so far on an
initially empty vector, the length is the number of `PushBack` calls that returned minus
the number of `PopBack` calls that returned, and the capacity is at least the length; a
`PopBack` on an empty vector throws and changes nothing; and when no copy throws and no
allocation fails every `PushBack` returns, so that the first number is the number of
`PushBack` calls. -/
theorem C18_length_counts_calls (E : ElemOps σ α) (w : σ) (v : Vector α) (cs : List (Call α))
    (hempty : Size v = 0) (hblock : v.data_.length = Capacity v) :
    Size (runCalls E cs w v).2 = returnedAppends E cs w v - returnedPops E cs w v ∧
    returnedPops E cs w v ≤ returnedAppends E cs w v ∧
    Size (runCalls E cs w v).2 ≤ Capacity (runCalls E cs w v).2 ∧
    (∀ (w1 : σ) (u : Vector α), Size u = 0 →
      (PopBack w1 u).status = .threw .underflow_error ∧ (PopBack w1 u).st = u) ∧
    ((∀ w1 x, (E.copyCtor w1 x).2 = true) → (∀ w1 n, (E.alloc w1 n).2 = true) →
      returnedAppends E cs w v = (cs.filter Call.isAppend).length) := by
  simp only [Size, Capacity] at *
  obtain ⟨h1, _, h3⟩ := runCalls_length E cs w v (by omega) hblock
  refine ⟨by omega, by omega, h1, ?_, fun hcopy halloc => returnedAppends_all E hcopy halloc cs w v⟩
  intro w1 u hu
  have he : PopBack w1 u = ⟨w1, u, .threw .underflow_error⟩ := by
    simp [PopBack, Empty, hu]
  rw [he]
  exact ⟨rfl, rfl⟩

/-- C18 on the calls `PushBack(4), PopBack, PopBack, PushBack(5), PushBack(6)` from
the empty vector: three appends and one removal returned, the length is 2. -/
theorem C18_length_counts_calls_witness :
    Size (runCalls budgetOps
      [.pushBackCopy 4, .popBack, .popBack, .pushBackMove 5, .pushBackCopy 6] 9
      ⟨0, 0, []⟩).2 = 3 - 1 ∧
    returnedAppends budgetOps
      [.pushBackCopy 4, .popBack, .popBack, .pushBackMove 5, .pushBackCopy 6] 9
      ⟨0, 0, []⟩ = 3 ∧
    returnedPops budgetOps
      [.pushBackCopy 4, .popBack, .popBack, .pushBackMove 5, .pushBackCopy 6] 9
      ⟨0, 0, []⟩ = 1 :=
  ⟨(C18_length_counts_calls budgetOps 9 ⟨0, 0, []⟩
      [.pushBackCopy 4, .popBack, .popBack, .pushBackMove 5, .pushBackCopy 6]
      (by decide) (by decide)).1,
    by decide, by decide⟩

/-- C19: each constructor returns exactly when its block is obtained (nothing to allocate,
or the allocation returns) and the element constructions it makes, in index order after
the allocation, all return; it never uses up a loop budget. When it returns the vector has
no spare capacity: `Vector(n)` has length `n`, capacity `n` and every element equal to the
default value; `Vector(n, x)` has length `n`, capacity `n` and every element equal to `x`;
the constructors from a range and from an initializer list with the `k` elements `xs` have
length `k`, capacity `k` and the elements of `xs` in order. -/
theorem C19_constructors (E : ElemOps σ α) (w : σ) (n : Nat) (x : α) (xs : List α) :
    (((VectorCtor E w n).status = .ok ↔
        (n = 0 ∨ (E.alloc w n).2 = true) ∧
          defaultsReturn E n (VectorBufCtor E w n).world = true) ∧
      (VectorCtor E w n).status ≠ .diverged ∧
      ((VectorCtor E w n).status = .ok →
        Size (VectorCtor E w n).st = n ∧ Capacity (VectorCtor E w n).st = n ∧
        ∀ i, i < n → Index (VectorCtor E w n).st i = some E.defaultValue)) ∧
    (((VectorCtorFill E w n x).status = .ok ↔
        (n = 0 ∨ (E.alloc w n).2 = true) ∧
          copiesReturn E (List.replicate n x) (VectorBufCtor E w n).world = true) ∧
      (VectorCtorFill E w n x).status ≠ .diverged ∧
      ((VectorCtorFill E w n x).status = .ok →
        Size (VectorCtorFill E w n x).st = n ∧ Capacity (VectorCtorFill E w n x).st = n ∧
        ∀ i, i < n → Index (VectorCtorFill E w n x).st i = some x)) ∧
    (((VectorCtorRange E w xs).status = .ok ↔
        (xs.length = 0 ∨ (E.alloc w xs.length).2 = true) ∧
          copiesReturn E xs (VectorBufCtor E w xs.length).world = true) ∧
      (VectorCtorRange E w xs).status ≠ .diverged ∧
      ((VectorCtorRange E w xs).status = .ok →
        Size (VectorCtorRange E w xs).st = xs.length ∧
        Capacity (VectorCtorRange E w xs).st = xs.length ∧
        ∀ i, i < xs.length → Index (VectorCtorRange E w xs).st i = xs[i]?)) ∧
    (((VectorCtorInitList E w xs).status = .ok ↔
        (xs.length = 0 ∨ (E.alloc w xs.length).2 = true) ∧
          copiesReturn E xs (VectorBufCtor E w xs.length).world = true) ∧
      (VectorCtorInitList E w xs).status ≠ .diverged ∧
      ((VectorCtorInitList E w xs).status = .ok →
        Size (VectorCtorInitList E w xs).st = xs.length ∧
        Capacity (VectorCtorInitList E w xs).st = xs.length ∧
        ∀ i, i < xs.length → Index (VectorCtorInitList E w xs).st i = xs[i]?)) := by
  simp only [Size, Capacity, Index, VectorCtorInitList]
  obtain ⟨a1, a2⟩ := VectorCtor_spec E w n
  obtain ⟨b1, b2⟩ := VectorCtorFill_spec E w n x
  obtain ⟨c1, c2⟩ := VectorCtorRange_spec E w xs
  have hnd : ∀ s : Status, (s = .ok ∨ s = .threw .bad_alloc ∨ s = .threw .element) →
      s ≠ .diverged := by
    intro s hs
    rcases hs with h | h | h <;> rw [h] <;> simp
  refine ⟨⟨VectorCtor_returns E w n, hnd _ a1, fun hs => ?_⟩,
    ⟨VectorCtorFill_returns E w n x, hnd _ b1, fun hs => ?_⟩,
    ⟨VectorCtorRange_returns E w xs, hnd _ c1, fun hs => ?_⟩,
    ⟨VectorCtorRange_returns E w xs, hnd _ c1, fun hs => ?_⟩⟩
  · obtain ⟨h1, h2, _, h4⟩ := a2 hs
    exact ⟨h2, h1, h4⟩
  · obtain ⟨h1, h2, _, h4⟩ := b2 hs
    exact ⟨h2, h1, h4⟩
  · obtain ⟨h1, h2, _, h4⟩ := c2 hs
    exact ⟨h2, h1, h4⟩
  · obtain ⟨h1, h2, _, h4⟩ := c2 hs
    exact ⟨h2, h1, h4⟩

/-- C19 with a budget of 9: `Vector(3)` returns `{0, 0, 0}`, `Vector(3, 8)` returns
`{8, 8, 8}`, and the constructors from the range and from the list `{7, 8, 9}` return
`{7, 8, 9}`, each with capacity 3; with a budget of 3 the allocation and two default
constructions return, the third throws, and `Vector(3)` does not return. -/
theorem C19_constructors_witness :
    ((VectorCtor budgetOps 9 3).status = .ok ∧
      Size (VectorCtor budgetOps 9 3).st = 3 ∧ Capacity (VectorCtor budgetOps 9 3).st = 3 ∧
      ∀ i, i < 3 → Index (VectorCtor budgetOps 9 3).st i = some budgetOps.defaultValue) ∧
    ((VectorCtorFill budgetOps 9 3 8).status = .ok ∧
      Size (VectorCtorFill budgetOps 9 3 8).st = 3 ∧
      Capacity (VectorCtorFill budgetOps 9 3 8).st = 3 ∧
      ∀ i, i < 3 → Index (VectorCtorFill budgetOps 9 3 8).st i = some 8) ∧
    ((VectorCtorRange budgetOps 9 [7, 8, 9]).status = .ok ∧
      Size (VectorCtorRange budgetOps 9 [7, 8, 9]).st = [7, 8, 9].length ∧
      Capacity (VectorCtorRange budgetOps 9 [7, 8, 9]).st = [7, 8, 9].length ∧
      ∀ i, i < [7, 8, 9].length →
        Index (VectorCtorRange budgetOps 9 [7, 8, 9]).st i = [7, 8, 9][i]?) ∧
    ((VectorCtorInitList budgetOps 9 [7, 8, 9]).status = .ok ∧
      Size (VectorCtorInitList budgetOps 9 [7, 8, 9]).st = [7, 8, 9].length ∧
      Capacity (VectorCtorInitList budgetOps 9 [7, 8, 9]).st = [7, 8, 9].length ∧
      ∀ i, i < [7, 8, 9].length →
        Index (VectorCtorInitList budgetOps 9 [7, 8, 9]).st i = [7, 8, 9][i]?) ∧
    (VectorCtor budgetOps 3 3).status ≠ .ok ∧
    (VectorCtor budgetOps 9 3).st = ⟨3, 3, [some 0, some 0, some 0]⟩ ∧
    (VectorCtorFill budgetOps 9 3 8).st = ⟨3, 3, [some 8, some 8, some 8]⟩ ∧
    (VectorCtorRange budgetOps 9 [7, 8, 9]).st = ⟨3, 3, [some 7, some 8, some 9]⟩ :=
  ⟨⟨(C19_constructors budgetOps 9 3 8 [7, 8, 9]).1.1.2 ⟨Or.inr (by decide), by decide⟩,
      (C19_constructors budgetOps 9 3 8 [7, 8, 9]).1.2.2 (by decide)⟩,
    ⟨(C19_constructors budgetOps 9 3 8 [7, 8, 9]).2.1.1.2 ⟨Or.inr (by decide), by decide⟩,
      (C19_constructors budgetOps 9 3 8 [7, 8, 9]).2.1.2.2 (by decide)⟩,
    ⟨(C19_constructors budgetOps 9 3 8 [7, 8, 9]).2.2.1.1.2 ⟨Or.inr (by decide), by decide⟩,
      (C19_constructors budgetOps 9 3 8 [7, 8, 9]).2.2.1.2.2 (by decide)⟩,
    ⟨(C19_constructors budgetOps 9 3 8 [7, 8, 9]).2.2.2.1.2 ⟨Or.inr (by decide), by decide⟩,
      (C19_constructors budgetOps 9 3 8 [7, 8, 9]).2.2.2.2.2 (by decide)⟩,
    fun h => absurd ((C19_constructors budgetOps 3 3 8 [7, 8, 9]).1.1.1 h).2 (by decide),
    by decide, by decide, by decide⟩

/-- C20: after `n` calls of `PushBack` (by copy or by move) that all return, issued on a
default-constructed vector with nothing in between, the capacity is `2^k - 1` for the
least `k` with `2^k - 1 >= n`, the length is `n` and the elements are the pushed values in
call order. -/
theorem C20_capacity_after_appends (E : ElemOps σ α) (w : σ) (cs : List (Call α))
    (happ : ∀ c ∈ cs, c.isAppend = true)
    (hall : allReturn E cs (VectorCtor E w 0).world (VectorCtor E w 0).st = true) :
    (VectorCtor E w 0).status = .ok ∧
    Size (VectorCtor E w 0).st = 0 ∧ Capacity (VectorCtor E w 0).st = 0 ∧
    (∃ k, Capacity (runCalls E cs (VectorCtor E w 0).world (VectorCtor E w 0).st).2 = 2 ^ k - 1 ∧
      cs.length ≤ 2 ^ k - 1 ∧ ∀ j, cs.length ≤ 2 ^ j - 1 → k ≤ j) ∧
    Size (runCalls E cs (VectorCtor E w 0).world (VectorCtor E w 0).st).2 = cs.length ∧
    (∀ i, i < cs.length →
      Index (runCalls E cs (VectorCtor E w 0).world (VectorCtor E w 0).st).2 i =
        (cs[i]?).bind Call.value) := by
  rw [VectorCtor_zero] at hall ⊢
  simp only [Size, Capacity, Index]
  obtain ⟨h1, h2, _, h4⟩ := runCalls_growth E cs w ⟨0, 0, []⟩ (Nat.le_refl _) rfl
    LeastPower_zero happ hall
  have h2b : (runCalls E cs w (⟨0, 0, []⟩ : Vector α)).2.used_ = cs.length := by
    rw [h2]
    show 0 + cs.length = cs.length
    omega
  rw [h2b] at h1
  refine ⟨trivial, trivial, trivial, h1, h2b, fun i hi => ?_⟩
  have := h4 i hi
  have h0 : (⟨0, 0, []⟩ : Vector α).used_ + i = i := by
    show 0 + i = i
    omega
  rw [h0] at this
  exact this

/-- C20 on five appends from the empty vector: the capacities visited are 1, 3, 3, 7, 7
and the elements are the five values in order. -/
theorem C20_capacity_after_appends_witness :
    (∃ k, Capacity (runCalls budgetOps
        [.pushBackCopy 1, .pushBackMove 2, .pushBackCopy 3, .pushBackMove 4, .pushBackCopy 5]
        (VectorCtor budgetOps 9 0).world (VectorCtor budgetOps 9 0).st).2 = 2 ^ k - 1 ∧
      [Call.pushBackCopy 1, .pushBackMove 2, .pushBackCopy 3, .pushBackMove 4,
        .pushBackCopy 5].length ≤ 2 ^ k - 1 ∧
      ∀ j, [Call.pushBackCopy 1, .pushBackMove 2, .pushBackCopy 3, .pushBackMove 4,
        .pushBackCopy 5].length ≤ 2 ^ j - 1 → k ≤ j) ∧
    Capacity (runCalls budgetOps [.pushBackCopy 1] 9 ⟨0, 0, []⟩).2 = 1 ∧
    Capacity (runCalls budgetOps [.pushBackCopy 1, .pushBackMove 2] 9 ⟨0, 0, []⟩).2 = 3 ∧
    Capacity (runCalls budgetOps [.pushBackCopy 1, .pushBackMove 2, .pushBackCopy 3] 9
      ⟨0, 0, []⟩).2 = 3 ∧
    Capacity (runCalls budgetOps
      [.pushBackCopy 1, .pushBackMove 2, .pushBackCopy 3, .pushBackMove 4] 9 ⟨0, 0, []⟩).2 = 7 ∧
    (runCalls budgetOps
      [.pushBackCopy 1, .pushBackMove 2, .pushBackCopy 3, .pushBackMove 4, .pushBackCopy 5] 9
      ⟨0, 0, []⟩).2 =
      ⟨7, 5, [some 1, some 2, some 3, some 4, some 5, none, none]⟩ :=
  ⟨(C20_capacity_after_appends budgetOps 9
      [.pushBackCopy 1, .pushBackMove 2, .pushBackCopy 3, .pushBackMove 4, .pushBackCopy 5]
      (by decide) (by decide)).2.2.2.1,
    by decide, by decide, by decide, by decide, by decide⟩

end Claims

end TVector
